import Mathlib

/-!
# Portfolio orchestrator (hikyuu, `trade_sys/portfolio/Portfolio.cpp`)

A shallow embedding of `hku::Portfolio` and of the per-date control loop
`Portfolio::runMoment`, together with `reset` and `readyForRun`.

Conventions of the embedding

* A `SystemPtr` (a `shared_ptr<System>`) is `Option Nat`: `none` is the null
  pointer, `some a` points to the `System` object stored at address `a` of the
  object store `Portfolio.sys`.  Pointer identity is address equality.
* Every `System` owns its ledger by value (`readyForRun` binds each live system to
  a fresh clone, line 126), and the Portfolio owns the master and the shadow
  ledger by value; a null `TMPtr` is `none`.
* `price_t` (a C++ `double`) is an exact rational.
* A member function that may stop early returns an `Outcome` together with the
  state at the point where it stopped: mutations done before a throw or before a
  null dereference stay visible.
* Selector, Allocator and the strategies' own steps are external: their behaviour
  in one call is supplied by an `Env`.  `Portfolio.calls` is a ghost trace of the
  invocations of these collaborators made by the Portfolio; no code reads it.
-/

namespace hku

abbrev Datetime := Nat
abbrev Stock := Nat
abbrev KQuery := Nat
abbrev KData := Nat
abbrev CostFunc := Nat
abbrev price_t := ℚ

/-- A shared pointer to a `System`: `none` is null, `some a` is the object at address `a`. -/
abbrev SystemPtr := Option Nat

/-- A trade record as the Portfolio sees it: whether it is the null record, and its content. -/
structure TradeRecord where
  isNull : Bool
  ident : Nat
deriving DecidableEq, Repr

/-- Modelled from the spec: the Capital Ledger (`TradeManager`), whose class is not part of
the sources at hand.  The fields are what the Portfolio reads through `name`, `initDatetime`,
`costFunc`, `getParam<int>("precision")`, `currentCash`, `getPosition(stock).number`, and the
list of trade records that `addTradeRecord` extends. -/
structure TradeManager where
  name : String
  initDatetime : Datetime
  costFunc : CostFunc
  precision : Int
  cash : price_t
  position : Stock → Nat
  trades : List TradeRecord

namespace TradeManager

/-- Modelled from the spec: `cash() -> amount`, the current cash of the ledger. -/
def currentCash (tm : TradeManager) : price_t := tm.cash

/-- Modelled from the spec: `position(tradable) -> {size, ...}`; the size of the position. -/
def getPosition (tm : TradeManager) (stock : Stock) : Nat := tm.position stock

/-- Modelled from the spec: `withdraw(date, amount)` takes `amount` out of the ledger's cash. -/
def checkout (tm : TradeManager) (_date : Datetime) (cash : price_t) : TradeManager :=
  { tm with cash := tm.cash - cash }

/-- Modelled from the spec: `deposit(date, amount)` adds `amount` to the ledger's cash. -/
def checkin (tm : TradeManager) (_date : Datetime) (cash : price_t) : TradeManager :=
  { tm with cash := tm.cash + cash }

/-- Modelled from the spec: `addTradeRecord(record)` appends the record to the ledger. -/
def addTradeRecord (tm : TradeManager) (tr : TradeRecord) : TradeManager :=
  { tm with trades := tm.trades ++ [tr] }

/-- Modelled from the spec: `clone() -> Ledger`; a clone is an independent copy with the
same configuration and state. -/
def clone (tm : TradeManager) : TradeManager := tm

end TradeManager

/-- Modelled from the spec: `crtTM(datetime, initcash, costfunc, name)` creates a ledger with
that inception date, that cash, that cost model and that name, no position, no trade and the
default precision of two decimals. -/
def crtTM (datetime : Datetime) (initcash : price_t) (costfunc : CostFunc) (name : String) :
    TradeManager :=
  { name := name, initDatetime := datetime, costFunc := costfunc, precision := 2,
    cash := initcash, position := fun _ => 0, trades := [] }

/-- A strategy object (`System`): its bound tradable, its bound ledger (`getTM()`, null when
unset) and its trading-output window (`setTO`). -/
structure System where
  stock : Stock
  tm : Option TradeManager
  kdata : KData

/-- Modelled from the spec: `System::clone` duplicates the strategy into a new object. -/
def System.clone (s : System) : System := s

/-- The objects an Allocator can reach: the master ledger and the shadow ledger it was
bound to, and the strategies handed to it. -/
structure Accounts where
  tm : Option TradeManager
  shadow_tm : Option TradeManager
  sys : Nat → System

/-- Ghost trace entry: one invocation of a collaborator by the Portfolio. -/
inductive Call where
  | se_reset
  | af_reset
  | af_setTM
  | af_setShadowTM
  | af_setQuery (query : KQuery)
  | se_getAllSystemList
  | se_getSelectedSystemList (date : Datetime)
  | af_adjustFunds (date : Datetime) (se_list running_list : List SystemPtr)
  | sys_readyForRun (sys : Nat)
  | sys_runMoment (sys : Nat) (date : Datetime)
deriving DecidableEq, Repr

/-- The behaviour of the external collaborators during one call of a Portfolio member:
the Selector's answers, the Allocator's effect on the accounts, a strategy's own step and
readiness preparation, the ledger's `reset`, and the market data lookup. -/
structure Env where
  getAllSystemList : List SystemPtr
  getSelectedSystemList : Datetime → List SystemPtr
  adjustFunds : Datetime → List SystemPtr → List SystemPtr → Accounts → Accounts
  sysRunMoment : Nat → Datetime → (Nat → System) → (Nat → System) × TradeRecord
  sysReadyForRun : Nat → (Nat → System) → Bool
  tmReset : TradeManager → TradeManager
  getKData : Stock → KQuery → KData

/-- How a member function ended: it returned a value, it threw (`HKU_CHECK` failed), or it
dereferenced a null pointer. -/
inductive Outcome (α : Type) where
  | returned (v : α)
  | thrown (msg : String)
  | nullDeref
deriving DecidableEq, Repr

/-- Sequencing: continue with `k` when the first part returned, stop where it stopped
otherwise. -/
def Outcome.andThen {α β σ : Type} (r : Outcome α × σ) (k : α → σ → Outcome β × σ) :
    Outcome β × σ :=
  match r with
  | (.returned v, s) => k v s
  | (.thrown msg, s) => (.thrown msg, s)
  | (.nullDeref, s) => (.nullDeref, s)

/-- The state of a `Portfolio` object together with the objects it points to. -/
structure Portfolio where
  m_name : String
  trace : Bool
  m_query : KQuery
  m_se : Option Unit
  m_af : Option Unit
  m_tm : Option TradeManager
  m_shadow_tm : Option TradeManager
  m_sys_map : List (SystemPtr × SystemPtr)
  m_running_sys_set : Finset SystemPtr
  m_running_sys_list : List SystemPtr
  m_is_ready : Bool
  sys : Nat → System
  next : Nat
  calls : List Call

namespace Portfolio

def isReady (pf : Portfolio) : Bool := pf.m_is_ready

/-- The ledgers and strategies as the Allocator sees them. -/
def accounts (pf : Portfolio) : Accounts :=
  { tm := pf.m_tm, shadow_tm := pf.m_shadow_tm, sys := pf.sys }

/-- The state after the Allocator has rewritten the accounts. -/
def setAccounts (pf : Portfolio) (a : Accounts) : Portfolio :=
  { pf with m_tm := a.tm, m_shadow_tm := a.shadow_tm, sys := a.sys }

end Portfolio

/-- `m_sys_map[key]` as an rvalue (`std::unordered_map::operator[]`): the mapped pointer;
an absent key is inserted with a null pointer. -/
def mapIndex (m : List (SystemPtr × SystemPtr)) (key : SystemPtr) :
    SystemPtr × List (SystemPtr × SystemPtr) :=
  match m.lookup key with
  | some v => (v, m)
  | none => (none, m ++ [(key, none)])

/-- `m_sys_map[key] = v`: overwrite the entry of `key`, or insert it. -/
def mapAssign (m : List (SystemPtr × SystemPtr)) (key v : SystemPtr) :
    List (SystemPtr × SystemPtr) :=
  match m.lookup key with
  | some _ => m.map (fun kv => if kv.1 = key then (kv.1, v) else kv)
  | none => m ++ [(key, v)]

/-- `sub_sys->getTM()->currentCash()`; `none` when `sub_sys` or its ledger is null. -/
def cashOf (sys : Nat → System) (p : SystemPtr) : Option price_t :=
  match p with
  | none => none
  | some a =>
    match (sys a).tm with
    | none => none
    | some tm => some tm.currentCash

/-- Portfolio.cpp 158-164: map every selected prototype to its live system. With `trace`
on, the log line reads the live system's tradable and cash. -/
def selectLoop : List SystemPtr → Portfolio → List SystemPtr →
    Outcome (List SystemPtr) × Portfolio
  | [], pf, cur_selected_list => (.returned cur_selected_list, pf)
  | pro_sys :: rest, pf, cur_selected_list =>
    let r := mapIndex pf.m_sys_map pro_sys
    let pf1 := { pf with m_sys_map := r.2 }
    if pf1.trace then
      match cashOf pf1.sys r.1 with
      | none => (.nullDeref, pf1)
      | some _ => selectLoop rest pf1 (cur_selected_list ++ [r.1])
    else selectLoop rest pf1 (cur_selected_list ++ [r.1])

/-- Portfolio.cpp 156-164: ask the Selector, then map the prototypes. -/
def selectStage (env : Env) (date : Datetime) (pf : Portfolio) :
    Outcome (List SystemPtr) × Portfolio :=
  match pf.m_se with
  | none => (.nullDeref, pf)
  | some _ =>
    selectLoop (env.getSelectedSystemList date)
      { pf with calls := pf.calls ++ [.se_getSelectedSystemList date] } []

/-- Portfolio.cpp 166-174: the Allocator adjusts the accounts; with `trace` on, every
selected system's tradable and cash are read for the log. -/
def allocateStage (env : Env) (date : Datetime) (cur_selected_list : List SystemPtr)
    (pf : Portfolio) : Outcome (List SystemPtr) × Portfolio :=
  match pf.m_af with
  | none => (.nullDeref, pf)
  | some _ =>
    let pf1 := { pf.setAccounts
        (env.adjustFunds date cur_selected_list pf.m_running_sys_list pf.accounts) with
      calls := pf.calls ++ [.af_adjustFunds date cur_selected_list pf.m_running_sys_list] }
    if pf1.trace ∧ ¬ cur_selected_list.all (fun p => (cashOf pf1.sys p).isSome) then
      (.nullDeref, pf1)
    else (.returned cur_selected_list, pf1)

/-- Portfolio.cpp 178-193: the retirement scan over the running list. -/
def retireScan (date : Datetime) (precision : Int) :
    List SystemPtr → Portfolio → List SystemPtr → Outcome (List SystemPtr) × Portfolio
  | [], pf, will_remove_sys => (.returned will_remove_sys, pf)
  | running_sys :: rest, pf, will_remove_sys =>
    match running_sys with
    | none => (.nullDeref, pf)
    | some a =>
      let stock := (pf.sys a).stock
      match (pf.sys a).tm with
      | none => (.nullDeref, pf)
      | some sub_tm =>
        let position := sub_tm.getPosition stock
        let cash := sub_tm.currentCash
        if position = 0 ∧ cash ≤ (precision : ℚ) then
          if cash ≠ 0 then
            let pf1 := { pf with
              sys := Function.update pf.sys a
                { pf.sys a with tm := some (sub_tm.checkout date cash) } }
            match pf1.m_shadow_tm with
            | none => (.nullDeref, pf1)
            | some shadow =>
              retireScan date precision rest
                { pf1 with m_shadow_tm := some (shadow.checkin date cash) }
                (will_remove_sys ++ [running_sys])
          else retireScan date precision rest pf (will_remove_sys ++ [running_sys])
        else retireScan date precision rest pf will_remove_sys

/-- Portfolio.cpp 195-199: `std::list::remove` drops every element equal to `sub_sys`,
`erase` drops it from the set. -/
def removeLoop : List SystemPtr → Portfolio → Portfolio
  | [], pf => pf
  | sub_sys :: rest, pf =>
    removeLoop rest { pf with
      m_running_sys_list := pf.m_running_sys_list.filter (fun x => decide (x ≠ sub_sys)),
      m_running_sys_set := pf.m_running_sys_set.erase sub_sys }

/-- Portfolio.cpp 201-208: the admission scan over this tick's selected list. -/
def admitLoop : List SystemPtr → Portfolio → Outcome Unit × Portfolio
  | [], pf => (.returned (), pf)
  | sub_sys :: rest, pf =>
    match cashOf pf.sys sub_sys with
    | none => (.nullDeref, pf)
    | some cash =>
      if cash > 0 ∧ sub_sys ∉ pf.m_running_sys_set then
        admitLoop rest { pf with
          m_running_sys_list := pf.m_running_sys_list ++ [sub_sys],
          m_running_sys_set := insert sub_sys pf.m_running_sys_set }
      else admitLoop rest pf

/-- Portfolio.cpp 210-216: run every running system, harvest its trade record. -/
def executeLoop (env : Env) (date : Datetime) :
    List SystemPtr → Portfolio → Outcome Unit × Portfolio
  | [], pf => (.returned (), pf)
  | sub_sys :: rest, pf =>
    match sub_sys with
    | none => (.nullDeref, pf)
    | some a =>
      let r := env.sysRunMoment a date pf.sys
      let pf1 := { pf with sys := r.1, calls := pf.calls ++ [.sys_runMoment a date] }
      if r.2.isNull then executeLoop env date rest pf1
      else
        match pf1.m_tm with
        | none => (.nullDeref, pf1)
        | some tm => executeLoop env date rest { pf1 with m_tm := some (tm.addTradeRecord r.2) }

/-- Portfolio.cpp 176-208: retirement scan, removal, admission scan, from the state right
after allocation. -/
def retireAndAdmit (date : Datetime) (precision : Int) (cur_selected_list : List SystemPtr)
    (pf : Portfolio) : Outcome Unit × Portfolio :=
  Outcome.andThen (retireScan date precision pf.m_running_sys_list pf [])
    fun will_remove_sys pf3 => admitLoop cur_selected_list (removeLoop will_remove_sys pf3)

/-- Portfolio.cpp 156-174: selection and allocation; returns this tick's selected list. -/
def selectAndAllocate (env : Env) (date : Datetime) (pf : Portfolio) :
    Outcome (List SystemPtr) × Portfolio :=
  Outcome.andThen (selectStage env date pf) fun cur_selected_list pf1 =>
    allocateStage env date cur_selected_list pf1

/-- Portfolio.cpp 142-217, `Portfolio::runMoment`. -/
def runMoment (env : Env) (date : Datetime) (pf : Portfolio) : Outcome Unit × Portfolio :=
  if ¬ pf.isReady then (.thrown "Not ready to run! Please perform readyForRun() first!", pf)
  else
    match pf.m_shadow_tm with
    | none => (.nullDeref, pf)
    | some shadow =>
      if date < shadow.initDatetime then (.returned (), pf)
      else
        let precision := shadow.precision
        Outcome.andThen (selectAndAllocate env date pf) fun cur_selected_list pf2 =>
        Outcome.andThen (retireAndAdmit date precision cur_selected_list pf2) fun _ pf5 =>
        executeLoop env date pf5.m_running_sys_list pf5

/-- Portfolio.cpp 45-58, `Portfolio::reset`. -/
def reset (env : Env) (pf : Portfolio) : Portfolio :=
  { pf with
    m_is_ready := false
    m_running_sys_set := ∅
    m_running_sys_list := []
    m_sys_map := []
    m_tm := pf.m_tm.map env.tmReset
    m_shadow_tm := pf.m_shadow_tm.map env.tmReset
    calls := pf.calls ++ (match pf.m_se with | some _ => [Call.se_reset] | none => [])
      ++ (match pf.m_af with | some _ => [Call.af_reset] | none => []) }

/-- Portfolio.cpp 115-136: one clone per prototype of the universe, bound to a sub-ledger. -/
def prepareLoop (env : Env) (pro_tm : TradeManager) :
    List SystemPtr → Nat → Portfolio → Outcome Unit × Portfolio
  | [], _, pf => (.returned (), pf)
  | pro_sys :: rest, i, pf =>
    match pro_sys with
    | none => (.nullDeref, pf)
    | some p =>
      let a := pf.next
      let pf1 := { pf with
        sys := Function.update pf.sys a (pf.sys p).clone
        next := a + 1
        m_sys_map := mapAssign pf.m_sys_map pro_sys (some a) }
      let bound : Outcome Unit × Portfolio :=
        match (pf1.sys p).tm with
        | some _ => (.returned (), pf1)
        | none =>
          match pf1.m_tm with
          | none => (.nullDeref, pf1)
          | some tm =>
            (.returned (), { pf1 with
              sys := Function.update pf1.sys p { pf1.sys p with tm := some tm.clone } })
      Outcome.andThen bound fun _ pf2 =>
        let pf3 := { pf2 with
          sys := Function.update pf2.sys a
            { pf2.sys a with
              tm := some { pro_tm.clone with name := "TM_SUB" ++ toString i } } }
        let ready_sys := env.sysReadyForRun a pf3.sys
        let ready_pro := env.sysReadyForRun p pf3.sys
        let pf4 := { pf3 with
          calls := pf3.calls ++ [Call.sys_readyForRun a]
            ++ (if ready_sys then [Call.sys_readyForRun p] else []) }
        if ready_sys ∧ ready_pro then
          let k := env.getKData (pf4.sys a).stock pf4.m_query
          let withLive := Function.update pf4.sys a { pf4.sys a with kdata := k }
          prepareLoop env pro_tm rest (i + 1)
            { pf4 with sys := Function.update withLive p { withLive p with kdata := k } }
        else prepareLoop env pro_tm rest (i + 1) pf4

/-- Portfolio.cpp 99-139: the preparation proper, reached when Selector, ledger and
Allocator are all set. -/
def prepareAll (env : Env) (pf : Portfolio) : Outcome Bool × Portfolio :=
  let pf1 := reset env pf
  match pf1.m_tm with
  | none => (.nullDeref, pf1)
  | some tm =>
    let pf2 := { pf1 with
      m_shadow_tm := some tm.clone
      calls := pf1.calls ++ [Call.af_setTM, Call.af_setShadowTM,
        Call.af_setQuery pf1.m_query, Call.se_getAllSystemList] }
    let all_pro_sys_list := env.getAllSystemList
    let pro_tm := crtTM tm.initDatetime 0 tm.costFunc "TM_SUB"
    Outcome.andThen (prepareLoop env pro_tm all_pro_sys_list 0 pf2) fun _ pf3 =>
      (.returned true, { pf3 with m_is_ready := true })

/-- Portfolio.cpp 80-140, `Portfolio::readyForRun`. -/
def readyForRun (env : Env) (pf : Portfolio) : Outcome Bool × Portfolio :=
  if pf.m_se.isNone then (.returned false, { pf with m_is_ready := false })
  else if pf.m_tm.isNone then (.returned false, { pf with m_is_ready := false })
  else if pf.m_af.isNone then (.returned false, { pf with m_is_ready := false })
  else prepareAll env pf

/-- A finite sequence of `runMoment` calls, each with its own date and its own behaviour of
the collaborators; a call that stopped early leaves the state it reached. -/
def runMoments : List (Env × Datetime) → Portfolio → Portfolio
  | [], pf => pf
  | step :: rest, pf => runMoments rest (runMoment step.1 step.2 pf).2

/-- The running sequence has no duplicates and its elements are exactly the running set. -/
def RunningConsistent (pf : Portfolio) : Prop :=
  pf.m_running_sys_list.Nodup ∧ pf.m_running_sys_list.toFinset = pf.m_running_sys_set

instance (pf : Portfolio) : Decidable (RunningConsistent pf) := by
  unfold RunningConsistent; infer_instance

/-- Two states with the same running sequence and the same running set. -/
def SameRunning (pf pf1 : Portfolio) : Prop :=
  pf1.m_running_sys_list = pf.m_running_sys_list ∧ pf1.m_running_sys_set = pf.m_running_sys_set

/-- The live strategies: the distinct pointers stored in the prototype→live mapping. -/
def liveSystems (pf : Portfolio) : List SystemPtr := (pf.m_sys_map.map Prod.snd).dedup

/-- Ledger cash of a strategy; zero when the pointer or its ledger is null. -/
def cashOr0 (sys : Nat → System) (p : SystemPtr) : price_t := (cashOf sys p).getD 0

/-- Cash of the shadow ledger; zero when there is none. -/
def shadowCash (pf : Portfolio) : price_t :=
  match pf.m_shadow_tm with
  | some shadow => shadow.currentCash
  | none => 0

/-- Sum of the ledger cash of the strategies of `live`, plus the shadow ledger's cash. -/
def cashOver (live : List SystemPtr) (pf : Portfolio) : price_t :=
  (live.map (cashOr0 pf.sys)).sum + shadowCash pf

/-- Sum of the ledger cash of all live strategies, plus the shadow ledger's cash. -/
def totalCash (pf : Portfolio) : price_t := cashOver (liveSystems pf) pf

/-- Two states that differ at most in the running sequence and the running set. -/
def SameLedgers (pf pf1 : Portfolio) : Prop :=
  pf1.sys = pf.sys ∧ pf1.m_shadow_tm = pf.m_shadow_tm ∧ pf1.m_tm = pf.m_tm ∧
    pf1.m_sys_map = pf.m_sys_map ∧ pf1.calls = pf.calls

/-- The retirement condition as the spec words it: the position on the strategy's bound
tradable is zero and its ledger cash is at or below `precision`. -/
def retireCond (precision : Int) (sys : Nat → System) (p : SystemPtr) : Bool :=
  match p with
  | none => false
  | some a =>
    match (sys a).tm with
    | none => false
    | some tm => decide (tm.getPosition (sys a).stock = 0 ∧ tm.currentCash ≤ (precision : ℚ))

/-- Every element once, at the place of its first occurrence. -/
def firstOccurrences : List SystemPtr → List SystemPtr
  | [] => []
  | x :: xs => x :: (firstOccurrences xs).filter (fun y => decide (y ≠ x))

/-- The newly admitted strategies as the spec words them: the strategies of the selected
list whose ledger cash is strictly positive and that are not running, in the order of their
first occurrence in the selected list. -/
def newlyAdmitted (sys : Nat → System) (running selected : List SystemPtr) : List SystemPtr :=
  firstOccurrences
    (selected.filter (fun p => decide (0 < cashOr0 sys p) && decide (p ∉ running)))

/-- The pointer refers to a system that has a ledger. -/
def hasLedger (sys : Nat → System) (p : SystemPtr) : Bool := (cashOf sys p).isSome

/-- The state right after selection and allocation in `runMoment env date pf`. -/
def allocated (env : Env) (date : Datetime) (pf : Portfolio) : Portfolio :=
  (selectAndAllocate env date pf).2

/-- The state in which `runMoment env date pf` starts its admission scan (after selection,
allocation, retirement scan and removal), when the call gets that far. -/
def admissionPoint (env : Env) (date : Datetime) (pf : Portfolio) : Option Portfolio :=
  if pf.m_is_ready = true then
    match pf.m_shadow_tm with
    | none => none
    | some shadow =>
      if date < shadow.initDatetime then none
      else
        match selectAndAllocate env date pf with
        | (.returned _, pf2) =>
          match retireScan date shadow.precision pf2.m_running_sys_list pf2 [] with
          | (.returned will_remove_sys, pf3) => some (removeLoop will_remove_sys pf3)
          | _ => none
        | _ => none
  else none

/-- The strategies at the addresses of the list take their step one after the other, each
on the object store left by the previous one: the final store and the records they return,
in that order. -/
def runAll (env : Env) (date : Datetime) :
    List Nat → (Nat → System) → (Nat → System) × List TradeRecord
  | [], store => (store, [])
  | a :: rest, store =>
    let r := env.sysRunMoment a date store
    let out := runAll env date rest r.1
    (out.1, r.2 :: out.2)

/-- The state right after the admission scan, from the state `pf` left by the allocation. -/
def admitted (date : Datetime) (precision : Int) (cur_selected_list : List SystemPtr)
    (pf : Portfolio) : Portfolio :=
  (retireAndAdmit date precision cur_selected_list pf).2

/-- Every running strategy is a value of the prototype→live mapping. -/
def RunningLive (pf : Portfolio) : Prop :=
  ∀ p ∈ pf.m_running_sys_list, p ∈ pf.m_sys_map.map Prod.snd

instance (pf : Portfolio) : Decidable (RunningLive pf) := by
  unfold RunningLive; infer_instance

/-! ### A concrete run: three prototypes, all selected on every date, each granted 1000 -/

/-- The master ledger of the example: inception at date 10, cash 100000, precision 2. -/
def exampleTM : TradeManager :=
  { name := "TM", initDatetime := 10, costFunc := 0, precision := 2, cash := 100000,
    position := fun _ => 0, trades := [] }

/-- The object store of the example: the system at address `i` trades stock `i` and has no
ledger. -/
def exampleStore : Nat → System := fun i => { stock := i, tm := none, kdata := 0 }

/-- An Allocator step that moves `amount` from the shadow ledger into every selected system
that has a ledger. -/
def grant (amount : price_t) (se_list : List SystemPtr) (acc : Accounts) : Accounts :=
  se_list.foldl (fun acc p =>
    match p with
    | none => acc
    | some i =>
      match (acc.sys i).tm, acc.shadow_tm with
      | some t, some sh =>
        { acc with
          sys := Function.update acc.sys i { acc.sys i with tm := some (t.checkin 0 amount) }
          shadow_tm := some (sh.checkout 0 amount) }
      | _, _ => acc) acc

/-- The collaborators of the example: a universe of three prototypes (addresses 0, 1, 2), all
selected on every date; the Allocator grants 1000 to each selected system; a strategy step
emits one non-null record and leaves the store alone. -/
def exampleEnv : Env where
  getAllSystemList := [some 0, some 1, some 2]
  getSelectedSystemList := fun _ => [some 0, some 1, some 2]
  adjustFunds := fun _ se_list _ acc => grant 1000 se_list acc
  sysRunMoment := fun i _ store => (store, { isNull := false, ident := i })
  sysReadyForRun := fun _ _ => true
  tmReset := id
  getKData := fun stock query => stock + query

/-- A Portfolio with all three collaborators set, not yet prepared. -/
def examplePortfolio : Portfolio where
  m_name := "Portfolio"
  trace := false
  m_query := 0
  m_se := some ()
  m_af := some ()
  m_tm := some exampleTM
  m_shadow_tm := none
  m_sys_map := []
  m_running_sys_set := ∅
  m_running_sys_list := []
  m_is_ready := false
  sys := exampleStore
  next := 3
  calls := []

/-- The example Portfolio after `readyForRun`. -/
def examplePrepared : Portfolio := (readyForRun exampleEnv examplePortfolio).2

/-- The example after its first tick at date 20: the three live systems (addresses 3, 4, 5)
are running with cash 1000 each. -/
def exampleTick1 : Portfolio := (runMoment exampleEnv 20 examplePrepared).2

/-- An Allocator step that takes all the cash of the system at address `i` back into the
shadow ledger, except `keep`. -/
def defund (i : Nat) (keep : price_t) (acc : Accounts) : Accounts :=
  match (acc.sys i).tm, acc.shadow_tm with
  | some t, some sh =>
    { acc with
      sys := Function.update acc.sys i
        { acc.sys i with tm := some (t.checkout 0 (t.cash - keep)) }
      shadow_tm := some (sh.checkin 0 (t.cash - keep)) }
  | _, _ => acc

/-- The example's second tick: all three prototypes are selected again and the Allocator
fully defunds the live system at address 3. -/
def defundEnv : Env :=
  { exampleEnv with adjustFunds := fun _ _ _ acc => defund 3 0 acc }

/-- A variant of the second tick in which the Allocator leaves one ten-thousandth of cash in
the live system at address 3. -/
def dustEnv : Env :=
  { exampleEnv with adjustFunds := fun _ _ _ acc => defund 3 (1 / 10000) acc }

/-- A Selector answer that names the first prototype twice on the same date. -/
def duplicateEnv : Env :=
  { exampleEnv with getSelectedSystemList := fun _ => [some 0, some 0, some 1] }

/-- The example after its first tick with the Allocator taken away afterwards (assigning a
collaborator clears the readiness flag): the running collections and the mapping still hold
the three live systems. -/
def exampleNoAllocator : Portfolio :=
  { exampleTick1 with m_af := none, m_is_ready := false }

/-- The state without the ghost trace of collaborator invocations. -/
def observable (pf : Portfolio) : Portfolio := { pf with calls := [] }

/-- The rounding threshold as the spec words it: the smallest cash amount that a ledger
rounding to `precision` decimals distinguishes from zero (0.01 for two decimals). -/
def roundingThreshold (precision : Int) : price_t := (1 / 10 : ℚ) ^ precision.toNat

/-- A variant of the second tick in which the Allocator leaves exactly one unit of cash in
the live system at address 3. -/
def unitEnv : Env :=
  { exampleEnv with adjustFunds := fun _ _ _ acc => defund 3 1 acc }

/-- A Selector answer that names a prototype (address 7) that is not in the universe, hence
not a key of the mapping. -/
def strayEnv : Env :=
  { exampleEnv with getSelectedSystemList := fun _ => [some 7] }

/-- The strategy holds a nonzero position on its bound tradable or strictly positive cash. -/
def holdsCapital (sys : Nat → System) (p : SystemPtr) : Bool :=
  match p with
  | none => false
  | some a =>
    match (sys a).tm with
    | none => false
    | some tm => decide (tm.getPosition (sys a).stock ≠ 0 ∨ 0 < tm.currentCash)

/-- Portfolio.cpp 116-135: the body of the preparation loop for the prototype at index
`i`. -/
def prepareStep (env : Env) (pro_tm : TradeManager) (pro_sys : SystemPtr) (i : Nat)
    (pf : Portfolio) : Outcome Unit × Portfolio :=
  match pro_sys with
  | none => (.nullDeref, pf)
  | some p =>
    let a := pf.next
    let pf1 := { pf with
      sys := Function.update pf.sys a (pf.sys p).clone
      next := a + 1
      m_sys_map := mapAssign pf.m_sys_map pro_sys (some a) }
    let bound : Outcome Unit × Portfolio :=
      match (pf1.sys p).tm with
      | some _ => (.returned (), pf1)
      | none =>
        match pf1.m_tm with
        | none => (.nullDeref, pf1)
        | some tm =>
          (.returned (), { pf1 with
            sys := Function.update pf1.sys p { pf1.sys p with tm := some tm.clone } })
    Outcome.andThen bound fun _ pf2 =>
      let pf3 := { pf2 with
        sys := Function.update pf2.sys a
          { pf2.sys a with
            tm := some { pro_tm.clone with name := "TM_SUB" ++ toString i } } }
      let ready_sys := env.sysReadyForRun a pf3.sys
      let ready_pro := env.sysReadyForRun p pf3.sys
      let pf4 := { pf3 with
        calls := pf3.calls ++ [Call.sys_readyForRun a]
          ++ (if ready_sys then [Call.sys_readyForRun p] else []) }
      if ready_sys ∧ ready_pro then
        let k := env.getKData (pf4.sys a).stock pf4.m_query
        let withLive := Function.update pf4.sys a { pf4.sys a with kdata := k }
        (.returned (), { pf4 with sys := Function.update withLive p { withLive p with kdata := k } })
      else (.returned (), pf4)

/-- The strategy at address `a` is bound to the sub-ledger `pro_tm`, under some name. -/
def BoundTo (pro_tm : TradeManager) (sys : Nat → System) (a : Nat) : Prop :=
  ∃ name, (sys a).tm = some { pro_tm with name := name }

/-- Invariant of the preparation loop: the keys of the mapping are distinct, its values are
distinct non-null pointers to objects created since address `n0`, each bound to the
sub-ledger `pro_tm`. -/
def PreparedMap (pro_tm : TradeManager) (n0 : Nat) (pf : Portfolio) : Prop :=
  (pf.m_sys_map.map Prod.fst).Nodup ∧ (pf.m_sys_map.map Prod.snd).Nodup ∧
    ∀ kv ∈ pf.m_sys_map, ∃ a, kv.2 = some a ∧ n0 ≤ a ∧ a < pf.next ∧ BoundTo pro_tm pf.sys a

/-- Portfolio.cpp 99-112: the state in which the preparation loop starts, `tm` being the
master ledger after `reset`. -/
def loopStart (env : Env) (pf : Portfolio) (tm : TradeManager) : Portfolio :=
  { reset env pf with
    m_shadow_tm := some tm.clone
    calls := (reset env pf).calls ++ [Call.af_setTM, Call.af_setShadowTM,
      Call.af_setQuery (reset env pf).m_query, Call.se_getAllSystemList] }

abbrev KType := Nat

/-- Modelled from the spec: the funds a ledger reports, its cash and the market value of its
positions; the class `FundsRecord` is not part of the sources at hand. -/
structure FundsRecord where
  cash : price_t
  market_value : price_t
deriving DecidableEq

/-- Modelled from the spec: `FundsRecord::operator+=` sums field by field ("summed"). -/
def FundsRecord.add (a b : FundsRecord) : FundsRecord :=
  { cash := a.cash + b.cash, market_value := a.market_value + b.market_value }

/-- The reporting queries of the ledger (`TradeManager::getFunds`, `cash`, `getFundsCurve`),
whose code is not part of the sources at hand: what they answer is a parameter. -/
structure Reports where
  getFunds : TradeManager → KType → FundsRecord
  getFundsAt : TradeManager → Datetime → KType → FundsRecord
  cash : TradeManager → Datetime → KType → price_t
  getFundsCurve : TradeManager → List Datetime → KType → List price_t

/-- The loop `for (...) { funds = sys->getTM()->...; total_funds += funds; }` over a list of
strategy pointers; `report` is the ledger query of the loop body. -/
def sumFunds (report : TradeManager → FundsRecord) (sys : Nat → System) :
    List SystemPtr → FundsRecord → Outcome FundsRecord
  | [], total_funds => .returned total_funds
  | sub_sys :: rest, total_funds =>
    match sub_sys with
    | none => .nullDeref
    | some a =>
      match (sys a).tm with
      | none => .nullDeref
      | some tm => sumFunds report sys rest (total_funds.add (report tm))

/-- Portfolio.cpp 231-239, `Portfolio::getFunds(KQuery::KType)`. -/
def getFunds (rep : Reports) (ktype : KType) (pf : Portfolio) : Outcome FundsRecord :=
  match sumFunds (fun tm => rep.getFunds tm ktype) pf.sys pf.m_running_sys_list
      { cash := 0, market_value := 0 } with
  | .returned total_funds =>
    match pf.m_shadow_tm with
    | none => .nullDeref
    | some shadow =>
      .returned { total_funds with cash := total_funds.cash + shadow.currentCash }
  | .thrown msg => .thrown msg
  | .nullDeref => .nullDeref

/-- Portfolio.cpp 241-249, `Portfolio::getFunds(const Datetime&, KQuery::KType)`. -/
def getFundsAt (rep : Reports) (datetime : Datetime) (ktype : KType) (pf : Portfolio) :
    Outcome FundsRecord :=
  match sumFunds (fun tm => rep.getFundsAt tm datetime ktype) pf.sys
      (pf.m_sys_map.map Prod.snd) { cash := 0, market_value := 0 } with
  | .returned total_funds =>
    match pf.m_shadow_tm with
    | none => .nullDeref
    | some shadow =>
      .returned { total_funds with cash := total_funds.cash + rep.cash shadow datetime ktype }
  | .thrown msg => .thrown msg
  | .nullDeref => .nullDeref

/-- Portfolio.cpp 256-258: `result[i] += curve[i]` for every index of `result`; an entry the
ledger's curve lacks reads as 0 (the ledger answers one entry per date). -/
def addCurve (result curve : List price_t) : List price_t :=
  (List.range result.length).map (fun i => result.getD i 0 + curve.getD i 0)

/-- Portfolio.cpp 254-259: the loop over the entries of the mapping. -/
def curveLoop (rep : Reports) (dates : List Datetime) (ktype : KType) (sys : Nat → System) :
    List SystemPtr → List price_t → Outcome (List price_t)
  | [], result => .returned result
  | sub_sys :: rest, result =>
    match sub_sys with
    | none => .nullDeref
    | some a =>
      match (sys a).tm with
      | none => .nullDeref
      | some tm =>
        curveLoop rep dates ktype sys rest (addCurve result (rep.getFundsCurve tm dates ktype))

/-- Portfolio.cpp 251-261, `Portfolio::getFundsCurve(const DatetimeList&, KQuery::KType)`. -/
def getFundsCurve (rep : Reports) (dates : List Datetime) (ktype : KType) (pf : Portfolio) :
    Outcome (List price_t) :=
  curveLoop rep dates ktype pf.sys (pf.m_sys_map.map Prod.snd)
    (List.replicate dates.length 0)

/-- The ledger a strategy pointer leads to, if any. -/
def ledgerOf (sys : Nat → System) (p : SystemPtr) : Option TradeManager :=
  match p with
  | none => none
  | some a => (sys a).tm

/-- The funds-curve value of a strategy's ledger at the date of index `i`; zero when the
pointer leads to no ledger. -/
def curveAt (rep : Reports) (dates : List Datetime) (ktype : KType) (sys : Nat → System)
    (p : SystemPtr) (i : Nat) : price_t :=
  match ledgerOf sys p with
  | none => 0
  | some tm => (rep.getFundsCurve tm dates ktype).getD i 0

/-- The funds a strategy's ledger reports; all zero when the pointer leads to no ledger. -/
def fundsOf (report : TradeManager → FundsRecord) (sys : Nat → System) (p : SystemPtr) :
    FundsRecord :=
  match ledgerOf sys p with
  | none => { cash := 0, market_value := 0 }
  | some tm => report tm

/-- The sum of the funds-curve values at the date of index `i` over a list of strategies. -/
def liveCurveSum (rep : Reports) (dates : List Datetime) (ktype : KType) (sys : Nat → System)
    (live : List SystemPtr) (i : Nat) : price_t :=
  (live.map fun p => curveAt rep dates ktype sys p i).sum

/-- The funds-curve value the spec words: at each date, the sum over every live strategy of
the mapping of its ledger's funds-curve value at that date, plus the shadow ledger's cash
at that date. -/
def fundsCurveSpec (rep : Reports) (dates : List Datetime) (ktype : KType) (pf : Portfolio) :
    List price_t :=
  (List.range dates.length).map fun i =>
    liveCurveSum rep dates ktype pf.sys (pf.m_sys_map.map Prod.snd) i +
      (match pf.m_shadow_tm with
        | none => 0
        | some shadow => rep.cash shadow (dates.getD i 0) ktype)

/-- The sum of the funds that the ledgers of a list of strategies report. -/
def liveFundsSum (report : TradeManager → FundsRecord) (sys : Nat → System)
    (live : List SystemPtr) : FundsRecord :=
  live.foldl (fun total p => total.add (fundsOf report sys p)) { cash := 0, market_value := 0 }

/-- The current funds the spec words: the sum of the current funds of every live strategy of
the mapping, plus the shadow ledger's current cash. -/
def currentFundsSpec (rep : Reports) (ktype : KType) (pf : Portfolio) : FundsRecord :=
  { liveFundsSum (fun tm => rep.getFunds tm ktype) pf.sys (pf.m_sys_map.map Prod.snd) with
    cash := (liveFundsSum (fun tm => rep.getFunds tm ktype) pf.sys
      (pf.m_sys_map.map Prod.snd)).cash + shadowCash pf }

/-- Reporting queries of a ledger that holds no position, asked at dates not before the
last change of the ledger: its funds are its cash. -/
def cashReports : Reports where
  getFunds := fun tm _ => { cash := tm.cash, market_value := 0 }
  getFundsAt := fun tm _ _ => { cash := tm.cash, market_value := 0 }
  cash := fun tm _ _ => tm.cash
  getFundsCurve := fun tm dates _ => dates.map (fun _ => tm.cash)

/-- A first tick in which all three prototypes are selected, so the Allocator is handed all
three live systems, and funds the first two of them only. -/
def withholdEnv : Env :=
  { exampleEnv with
    adjustFunds := fun _ se_list _ acc => grant 1000 (se_list.take 2) acc }

/-- A second tick in which only the first two prototypes are selected and the Allocator funds
the live system at address 5, which is in neither list it is handed in this tick (it was
handed it in the first tick). -/
def lateFundEnv : Env :=
  { exampleEnv with
    getSelectedSystemList := fun _ => [some 0, some 1]
    adjustFunds := fun _ _ _ acc => grant 1000 [some 5] acc }

/-- The example after a first tick with `withholdEnv` at date 20 and a second tick with
`lateFundEnv` at date 21: the live systems at 3 and 4 are running, the one at 5 holds cash
1000 and is not running. -/
def exampleIdleFunded : Portfolio :=
  (runMoment lateFundEnv 21 (runMoment withholdEnv 20 examplePrepared).2).2

/-- The calendar provider's dates, each paired with the behaviour of the collaborators
during the tick of that date; `i` is the index of the first date. -/
def calendarSteps (tick : Nat → Env) (i : Nat) : List Datetime → List (Env × Datetime)
  | [] => []
  | date :: rest => (tick i, date) :: calendarSteps tick (i + 1) rest

/-- Portfolio.cpp 226-228: the loop of `run`, one `runMoment` per date in order; a tick that
does not return ends the loop there. -/
def runLoop : List (Env × Datetime) → Portfolio → Outcome Unit × Portfolio
  | [], pf => (.returned (), pf)
  | step :: rest, pf =>
    Outcome.andThen (runMoment step.1 step.2 pf) fun _ s => runLoop rest s

/-- Portfolio.cpp 219-229, `Portfolio::run`. `env` is the behaviour of the collaborators
during the preparation, `tick i` their behaviour during the tick of the date of index `i`,
`getTradingCalendar` the calendar provider. -/
def run (env : Env) (tick : Nat → Env) (getTradingCalendar : KQuery → List Datetime)
    (query : KQuery) (pf : Portfolio) : Outcome Unit × Portfolio :=
  match readyForRun env pf with
  | (.returned true, s) => runLoop (calendarSteps tick 0 (getTradingCalendar query)) s
  | (.returned false, s) =>
    (.thrown ("readyForRun fails, check to see if a valid TradeManager, Selector, or " ++
      "AllocateFunds instance have been specified."), s)
  | (.thrown msg, s) => (.thrown msg, s)
  | (.nullDeref, s) => (.nullDeref, s)

/-- The effect of an Allocator that only moves cash, on one strategy object: the bound
tradable stays, a bound ledger stays bound and keeps its positions, and a ledger whose cash
was not negative is not overdrawn. -/
def CashMoved (s s1 : System) : Prop :=
  s1.stock = s.stock ∧
    ∀ t, s.tm = some t →
      ∃ t1, s1.tm = some t1 ∧ t1.position = t.position ∧ (0 ≤ t.cash → 0 ≤ t1.cash)

/-- An Allocator as the spec describes it: it moves cash between the shadow ledger and the
ledgers of the strategies it is handed (the selected and the running ones), keeps the shadow
ledger set, and leaves every other strategy object as it was. -/
def AllocatorMovesCash (env : Env) : Prop :=
  ∀ (date : Datetime) (se_list running_list : List SystemPtr) (acc : Accounts),
    (acc.shadow_tm.isSome = true →
        (env.adjustFunds date se_list running_list acc).shadow_tm.isSome = true) ∧
      ∀ a, CashMoved (acc.sys a) ((env.adjustFunds date se_list running_list acc).sys a) ∧
        (some a ∉ se_list → some a ∉ running_list →
          (env.adjustFunds date se_list running_list acc).sys a = acc.sys a)

/-- The effect of a strategy's own step on its object: the bound tradable stays, a bound
ledger stays bound, and the positions on every other tradable stay as they were. -/
def OwnTrade (s s1 : System) : Prop :=
  s1.stock = s.stock ∧
    ∀ t, s.tm = some t →
      ∃ t1, s1.tm = some t1 ∧ ∀ stock, stock ≠ s.stock → t1.position stock = t.position stock

/-- Strategies whose step trades the bound tradable on the own ledger and touches no other
strategy object. -/
def StrategyTradesOwn (env : Env) : Prop :=
  ∀ (a : Nat) (date : Datetime) (store : Nat → System),
    OwnTrade (store a) ((env.sysRunMoment a date store).1 a) ∧
      ∀ b, b ≠ a → (env.sysRunMoment a date store).1 b = store b

/-- The strategy has a ledger, and the ledger holds no position on any tradable other than
the bound one. -/
def HoldsOwnOnly (s : System) : Prop :=
  ∃ tm, s.tm = some tm ∧ ∀ stock, stock ≠ s.stock → tm.position stock = 0

/-- The strategy has a ledger without cash and without any position. -/
def EmptyLedger (s : System) : Prop :=
  ∃ tm, s.tm = some tm ∧ tm.cash = 0 ∧ ∀ stock, tm.position stock = 0

/-- A ledger without cash and without any position reports zero current funds. -/
def ReportsNothingWhenEmpty (rep : Reports) (ktype : KType) : Prop :=
  ∀ tm : TradeManager, tm.cash = 0 → (∀ stock, tm.position stock = 0) →
    rep.getFunds tm ktype = { cash := 0, market_value := 0 }

/-- The addresses of the live strategies: the non-null values of the mapping. -/
def liveAddrs (pf : Portfolio) : List Nat := (pf.m_sys_map.map Prod.snd).reduceOption

/-- What holds between ticks when Allocator and strategies behave as above: the running
collections agree and are live, the shadow ledger is set, the live strategies are distinct
objects with a ledger that holds the bound tradable only, every live strategy outside the
running sequence has an empty ledger, and no value of the mapping is null. -/
structure IdleEmpty (pf : Portfolio) : Prop where
  consistent : RunningConsistent pf
  live : RunningLive pf
  shadow : pf.m_shadow_tm.isSome = true
  distinct : (liveAddrs pf).Nodup
  ledgers : ∀ p ∈ pf.m_running_sys_list, hasLedger pf.sys p = true
  own : ∀ a ∈ liveAddrs pf, HoldsOwnOnly (pf.sys a)
  idle : ∀ a ∈ liveAddrs pf, some a ∉ pf.m_running_sys_list → EmptyLedger (pf.sys a)
  nonnull : none ∉ pf.m_sys_map.map Prod.snd

/-- A second tick in which all three prototypes are selected and the Allocator takes all the
cash of the live system at address 3 back into the shadow ledger, once that system is among
the running ones it is handed. -/
def reclaimEnv : Env :=
  { exampleEnv with
    adjustFunds := fun _ _ running_list acc =>
      if some 3 ∈ running_list then defund 3 0 acc else acc }

/-- The example after a first tick at date 20 and a second tick with `reclaimEnv` at date
21: the live systems at 4 and 5 are running, the one at 3 has left the running sequence. -/
def exampleReclaimed : Portfolio :=
  runMoments [(exampleEnv, 20), (reclaimEnv, 21)] examplePrepared

/-! ## Theorems -/

theorem SameRunning.running_refl (pf : Portfolio) : SameRunning pf pf := ⟨rfl, rfl⟩

theorem SameRunning.running_trans {a b c : Portfolio} (h1 : SameRunning a b) (h2 : SameRunning b c) :
    SameRunning a c := ⟨h2.1.trans h1.1, h2.2.trans h1.2⟩

theorem SameRunning.consistent {a b : Portfolio} (h : SameRunning a b)
    (ha : RunningConsistent a) : RunningConsistent b := by
  unfold RunningConsistent at *
  rw [h.1, h.2]; exact ha

theorem selectLoop_sameRunning (l : List SystemPtr) (pf : Portfolio) (cur : List SystemPtr) :
    SameRunning pf (selectLoop l pf cur).2 := by
  induction l generalizing pf cur with
  | nil => exact SameRunning.running_refl pf
  | cons pro_sys rest ih =>
    simp only [selectLoop]
    split
    · split
      · exact ⟨rfl, rfl⟩
      · exact SameRunning.running_trans ⟨rfl, rfl⟩ (ih _ _)
    · exact SameRunning.running_trans ⟨rfl, rfl⟩ (ih _ _)

theorem selectStage_sameRunning (env : Env) (date : Datetime) (pf : Portfolio) :
    SameRunning pf (selectStage env date pf).2 := by
  unfold selectStage
  split
  · exact SameRunning.running_refl pf
  · exact SameRunning.running_trans ⟨rfl, rfl⟩ (selectLoop_sameRunning _ _ _)

theorem allocateStage_sameRunning (env : Env) (date : Datetime) (cur : List SystemPtr)
    (pf : Portfolio) : SameRunning pf (allocateStage env date cur pf).2 := by
  unfold allocateStage
  split
  · exact SameRunning.running_refl pf
  · dsimp only
    split <;> exact ⟨rfl, rfl⟩

theorem andThen_inv {α β σ : Type} (P : σ → Prop) (r : Outcome α × σ)
    (k : α → σ → Outcome β × σ) (hr : P r.2) (hk : ∀ v s, P s → P (k v s).2) :
    P (Outcome.andThen r k).2 := by
  obtain ⟨o, s⟩ := r
  cases o <;> simp only [Outcome.andThen] <;> first | exact hk _ _ hr | exact hr

theorem selectAndAllocate_sameRunning (env : Env) (date : Datetime) (pf : Portfolio) :
    SameRunning pf (selectAndAllocate env date pf).2 := by
  unfold selectAndAllocate
  apply andThen_inv (SameRunning pf)
  · exact selectStage_sameRunning env date pf
  · intro cur s hs
    exact hs.running_trans (allocateStage_sameRunning env date cur s)

theorem retireScan_sameRunning (date : Datetime) (precision : Int) (l : List SystemPtr)
    (pf : Portfolio) (acc : List SystemPtr) :
    SameRunning pf (retireScan date precision l pf acc).2 := by
  induction l generalizing pf acc with
  | nil => exact SameRunning.running_refl pf
  | cons r rest ih =>
    cases r with
    | none => exact SameRunning.running_refl pf
    | some a =>
      simp only [retireScan]
      split
      · exact SameRunning.running_refl pf
      · split
        · split
          · split
            · exact ⟨rfl, rfl⟩
            · exact SameRunning.running_trans ⟨rfl, rfl⟩ (ih _ _)
          · exact ih _ _
        · exact ih _ _

theorem executeLoop_sameRunning (env : Env) (date : Datetime) (l : List SystemPtr)
    (pf : Portfolio) : SameRunning pf (executeLoop env date l pf).2 := by
  induction l generalizing pf with
  | nil => exact SameRunning.running_refl pf
  | cons r rest ih =>
    cases r with
    | none => exact SameRunning.running_refl pf
    | some a =>
      simp only [executeLoop]
      split
      · exact SameRunning.running_trans ⟨rfl, rfl⟩ (ih _)
      · split
        · exact ⟨rfl, rfl⟩
        · exact SameRunning.running_trans ⟨rfl, rfl⟩ (ih _)

theorem removeLoop_consistent (l : List SystemPtr) (pf : Portfolio)
    (h : RunningConsistent pf) : RunningConsistent (removeLoop l pf) := by
  induction l generalizing pf with
  | nil => exact h
  | cons x rest ih =>
    simp only [removeLoop]
    apply ih
    refine ⟨h.1.filter _, ?_⟩
    simp only
    rw [← h.2]
    ext y
    simp [Finset.mem_erase, List.mem_filter, and_comm]

theorem admitLoop_consistent (l : List SystemPtr) (pf : Portfolio)
    (h : RunningConsistent pf) : RunningConsistent (admitLoop l pf).2 := by
  induction l generalizing pf with
  | nil => exact h
  | cons x rest ih =>
    simp only [admitLoop]
    split
    · exact h
    · split
      · rename_i hc
        apply ih
        have hx : x ∉ pf.m_running_sys_list := by
          intro hmem
          apply hc.2
          rw [← h.2]; simpa using hmem
        refine ⟨?_, ?_⟩
        · simp only
          rw [List.nodup_append]
          refine ⟨h.1, List.nodup_singleton x, ?_⟩
          intro a ha hb
          simp at hb
          exact hx (hb ▸ ha)
        · simp only
          rw [← h.2]
          ext y
          simp [or_comm]
      · exact ih _ h

theorem retireAndAdmit_consistent (date : Datetime) (precision : Int) (cur : List SystemPtr)
    (pf : Portfolio) (h : RunningConsistent pf) :
    RunningConsistent (retireAndAdmit date precision cur pf).2 := by
  unfold retireAndAdmit
  apply andThen_inv RunningConsistent
  · exact (retireScan_sameRunning date precision _ pf []).consistent h
  · intro w s hs
    exact admitLoop_consistent _ _ (removeLoop_consistent _ _ hs)

theorem runMoment_consistent (env : Env) (date : Datetime) (pf : Portfolio)
    (h : RunningConsistent pf) : RunningConsistent (runMoment env date pf).2 := by
  unfold runMoment
  split
  · exact h
  · split
    · exact h
    · split
      · exact h
      · apply andThen_inv RunningConsistent
        · exact (selectAndAllocate_sameRunning env date pf).consistent h
        · intro cur s hs
          apply andThen_inv RunningConsistent
          · exact retireAndAdmit_consistent _ _ _ _ hs
          · intro _ s2 hs2
            exact (executeLoop_sameRunning env date _ s2).consistent hs2

theorem runMoments_consistent (steps : List (Env × Datetime)) (pf : Portfolio)
    (h : RunningConsistent pf) : RunningConsistent (runMoments steps pf) := by
  induction steps generalizing pf with
  | nil => exact h
  | cons s rest ih => exact ih _ (runMoment_consistent _ _ _ h)

theorem prepareLoop_sameRunning (env : Env) (pro_tm : TradeManager) (l : List SystemPtr)
    (i : Nat) (pf : Portfolio) : SameRunning pf (prepareLoop env pro_tm l i pf).2 := by
  induction l generalizing pf i with
  | nil => exact SameRunning.running_refl pf
  | cons r rest ih =>
    cases r with
    | none => exact SameRunning.running_refl pf
    | some p =>
      simp only [prepareLoop]
      apply andThen_inv (SameRunning pf)
      · split
        · exact ⟨rfl, rfl⟩
        · split <;> exact ⟨rfl, rfl⟩
      · intro _ s hs
        split
        · exact hs.running_trans (SameRunning.running_trans ⟨rfl, rfl⟩ (ih _ _))
        · exact hs.running_trans (SameRunning.running_trans ⟨rfl, rfl⟩ (ih _ _))

theorem prepareAll_sameRunning (env : Env) (pf : Portfolio) :
    SameRunning (reset env pf) (prepareAll env pf).2 := by
  unfold prepareAll
  dsimp only
  split
  · exact ⟨rfl, rfl⟩
  · apply andThen_inv (SameRunning (reset env pf))
    · exact SameRunning.running_trans ⟨rfl, rfl⟩ (prepareLoop_sameRunning _ _ _ _ _)
    · intro _ s hs
      exact hs.running_trans ⟨rfl, rfl⟩

theorem readyForRun_true_running (env : Env) (pf : Portfolio)
    (h : (readyForRun env pf).1 = .returned true) :
    (readyForRun env pf).2.m_running_sys_list = [] ∧
      (readyForRun env pf).2.m_running_sys_set = ∅ := by
  unfold readyForRun at h ⊢
  split_ifs at h ⊢
  · simp at h
  · simp at h
  · simp at h
  · exact prepareAll_sameRunning env pf

/-- C1: in every state reached from a `readyForRun` that returned true by a finite sequence
of `runMoment` calls, whatever the Selector, the Allocator and the strategies do in each
call, the running sequence has no duplicates and its elements are exactly the running set. -/
theorem running_consistent_of_ready (env0 : Env) (pf0 : Portfolio)
    (steps : List (Env × Datetime))
    (h : (readyForRun env0 pf0).1 = .returned true) :
    RunningConsistent (runMoments steps (readyForRun env0 pf0).2) := by
  apply runMoments_consistent
  obtain ⟨hl, hs⟩ := readyForRun_true_running env0 pf0 h
  unfold RunningConsistent
  rw [hl, hs]
  exact ⟨List.nodup_nil, rfl⟩

theorem running_consistent_of_ready_witness :
    (readyForRun exampleEnv examplePortfolio).1 = .returned true ∧
      RunningConsistent (runMoments [(duplicateEnv, 20), (exampleEnv, 21), (defundEnv, 22)]
        (readyForRun exampleEnv examplePortfolio).2) ∧
      (runMoments [(duplicateEnv, 20), (exampleEnv, 21), (defundEnv, 22)]
        (readyForRun exampleEnv examplePortfolio).2).m_running_sys_list =
        [some 4, some 5] :=
  ⟨by decide!,
    running_consistent_of_ready exampleEnv examplePortfolio
      [(duplicateEnv, 20), (exampleEnv, 21), (defundEnv, 22)] (by decide!),
    by decide!⟩

/-- C8: when the readiness flag is false, `runMoment` throws and the whole state, the trace
of collaborator invocations included, is the state before the call. -/
theorem runMoment_not_ready (env : Env) (date : Datetime) (pf : Portfolio)
    (h : pf.m_is_ready = false) :
    runMoment env date pf =
      (.thrown "Not ready to run! Please perform readyForRun() first!", pf) := by
  simp [runMoment, Portfolio.isReady, h]

theorem runMoment_not_ready_witness :
    examplePortfolio.m_is_ready = false ∧
      runMoment exampleEnv 20 examplePortfolio =
        (.thrown "Not ready to run! Please perform readyForRun() first!", examplePortfolio) :=
  ⟨rfl, runMoment_not_ready exampleEnv 20 examplePortfolio rfl⟩

/-- C9: in a ready state, a date strictly before the shadow ledger's inception makes
`runMoment` return normally with the whole state, the trace of collaborator invocations
included, unchanged. -/
theorem runMoment_before_inception (env : Env) (date : Datetime) (pf : Portfolio)
    (shadow : TradeManager) (hready : pf.m_is_ready = true)
    (hshadow : pf.m_shadow_tm = some shadow) (hdate : date < shadow.initDatetime) :
    runMoment env date pf = (.returned (), pf) := by
  simp [runMoment, Portfolio.isReady, hready, hshadow, hdate]

theorem runMoment_before_inception_witness :
    examplePrepared.m_is_ready = true ∧ examplePrepared.m_shadow_tm = some exampleTM ∧
      5 < exampleTM.initDatetime ∧
      runMoment exampleEnv 5 examplePrepared = (.returned (), examplePrepared) :=
  ⟨by with_unfolding_all decide, rfl, by decide,
    runMoment_before_inception exampleEnv 5 examplePrepared exampleTM
      (by with_unfolding_all decide) rfl (by decide)⟩

theorem prepareLoop_returned (env : Env) (pro_tm : TradeManager) (l : List SystemPtr)
    (i : Nat) (pf : Portfolio) (hl : ∀ p ∈ l, p ≠ none) (htm : pf.m_tm.isSome = true) :
    (prepareLoop env pro_tm l i pf).1 = .returned () := by
  induction l generalizing pf i with
  | nil => rfl
  | cons r rest ih =>
    have hrest : ∀ p ∈ rest, p ≠ none := fun p hp => hl p (List.mem_cons_of_mem _ hp)
    cases r with
    | none => exact absurd rfl (hl none (List.mem_cons_self _ _))
    | some p =>
      obtain ⟨tm, htm'⟩ := Option.isSome_iff_exists.mp htm
      simp only [prepareLoop, htm']
      split
      · simp only [Outcome.andThen]
        split
        · exact ih _ _ hrest (by simp [htm'])
        · exact ih _ _ hrest (by simp [htm'])
      · simp only [Outcome.andThen]
        split
        · exact ih _ _ hrest (by simp [htm'])
        · exact ih _ _ hrest (by simp [htm'])

theorem andThen_ready (r : Outcome Unit × Portfolio) (hr : r.1 = .returned ()) :
    (Outcome.andThen r fun _ pf3 =>
        ((Outcome.returned true : Outcome Bool), { pf3 with m_is_ready := true })).1 =
        .returned (true && true && true) ∧
      (Outcome.andThen r fun _ pf3 =>
        ((Outcome.returned true : Outcome Bool), { pf3 with m_is_ready := true })).2.m_is_ready =
        (true && true && true) := by
  obtain ⟨o, s⟩ := r
  simp only at hr
  subst hr
  exact ⟨rfl, rfl⟩

/-- C10: with a Selector universe free of null pointers, `readyForRun` returns true exactly
when Selector, ledger and Allocator are all set, whatever the readiness preparation of the
individual strategies answers, and the readiness flag after the call is the returned value. -/
theorem readyForRun_iff_all_set (env : Env) (pf : Portfolio)
    (huniv : ∀ p ∈ env.getAllSystemList, p ≠ none) :
    (readyForRun env pf).1 =
        .returned (pf.m_se.isSome && pf.m_tm.isSome && pf.m_af.isSome) ∧
      (readyForRun env pf).2.m_is_ready =
        (pf.m_se.isSome && pf.m_tm.isSome && pf.m_af.isSome) := by
  unfold readyForRun
  split_ifs with h1 h2 h3
  · simp [Option.isNone_iff_eq_none.mp h1]
  · simp [Option.isNone_iff_eq_none.mp h2]
  · simp [Option.isNone_iff_eq_none.mp h3]
  · have e1 : pf.m_se.isSome = true := by
      cases h : pf.m_se <;> simp_all
    have e2 : pf.m_tm.isSome = true := by
      cases h : pf.m_tm <;> simp_all
    have e3 : pf.m_af.isSome = true := by
      cases h : pf.m_af <;> simp_all
    rw [e1, e2, e3]
    obtain ⟨tm, htm⟩ := Option.isSome_iff_exists.mp e2
    have hreset : (reset env pf).m_tm = some (env.tmReset tm) := by simp [reset, htm]
    unfold prepareAll
    simp only [hreset]
    apply andThen_ready
    apply prepareLoop_returned _ _ _ _ _ huniv
    simp [reset, htm]

theorem readyForRun_iff_all_set_witness :
    (∀ p ∈ exampleEnv.getAllSystemList, p ≠ none) ∧
      (readyForRun exampleEnv examplePortfolio).1 = .returned true ∧
      (readyForRun exampleEnv examplePortfolio).2.m_is_ready = true :=
  ⟨by decide, readyForRun_iff_all_set exampleEnv examplePortfolio (by decide)⟩

theorem SameLedgers.ledgers_refl (pf : Portfolio) : SameLedgers pf pf := ⟨rfl, rfl, rfl, rfl, rfl⟩

theorem SameLedgers.ledgers_trans {a b c : Portfolio} (h1 : SameLedgers a b) (h2 : SameLedgers b c) :
    SameLedgers a c :=
  ⟨h2.1.trans h1.1, h2.2.1.trans h1.2.1, h2.2.2.1.trans h1.2.2.1,
    h2.2.2.2.1.trans h1.2.2.2.1, h2.2.2.2.2.trans h1.2.2.2.2⟩

theorem SameLedgers.totalCash_eq {a b : Portfolio} (h : SameLedgers a b) :
    totalCash b = totalCash a := by
  obtain ⟨h1, h2, _, h4, _⟩ := h
  simp only [totalCash, cashOver, liveSystems, shadowCash, h1, h2, h4]

theorem removeLoop_sameLedgers (l : List SystemPtr) (pf : Portfolio) :
    SameLedgers pf (removeLoop l pf) := by
  induction l generalizing pf with
  | nil => exact SameLedgers.ledgers_refl pf
  | cons x rest ih =>
    simp only [removeLoop]
    exact SameLedgers.ledgers_trans ⟨rfl, rfl, rfl, rfl, rfl⟩ (ih _)

theorem admitLoop_sameLedgers (l : List SystemPtr) (pf : Portfolio) :
    SameLedgers pf (admitLoop l pf).2 := by
  induction l generalizing pf with
  | nil => exact SameLedgers.ledgers_refl pf
  | cons x rest ih =>
    simp only [admitLoop]
    split
    · exact SameLedgers.ledgers_refl pf
    · split
      · exact SameLedgers.ledgers_trans ⟨rfl, rfl, rfl, rfl, rfl⟩ (ih _)
      · exact ih _

theorem sum_map_of_eq_except (live : List SystemPtr) (hnd : live.Nodup) (f g : SystemPtr → ℚ)
    (x : SystemPtr) (hx : x ∈ live) (h : ∀ y, y ≠ x → g y = f y) :
    (live.map g).sum = (live.map f).sum - f x + g x := by
  induction live with
  | nil => simp at hx
  | cons y rest ih =>
    rw [List.nodup_cons] at hnd
    by_cases hyx : y = x
    · subst hyx
      have hrest : rest.map g = rest.map f := by
        apply List.map_congr_left
        intro z hz
        exact h z (fun hzy => hnd.1 (hzy ▸ hz))
      simp only [List.map_cons, List.sum_cons, hrest]
      ring
    · have hx' : x ∈ rest := by
        rcases List.mem_cons.mp hx with h1 | h1
        · exact absurd h1.symm hyx
        · exact h1
      simp only [List.map_cons, List.sum_cons, ih hnd.2 hx', h y hyx]
      ring

theorem cashOr0_update_ne (sys : Nat → System) (a : Nat) (s : System) (p : SystemPtr)
    (hp : p ≠ some a) : cashOr0 (Function.update sys a s) p = cashOr0 sys p := by
  cases p with
  | none => rfl
  | some b =>
    have hba : b ≠ a := fun h => hp (h ▸ rfl)
    simp [cashOr0, cashOf, Function.update_noteq hba]

theorem retireScan_conserves (date : Datetime) (precision : Int) (live : List SystemPtr)
    (hnd : live.Nodup) (l : List SystemPtr) (pf : Portfolio) (acc : List SystemPtr)
    (hl : ∀ p ∈ l, p ∈ live) (hshadow : pf.m_shadow_tm.isSome = true) :
    cashOver live (retireScan date precision l pf acc).2 = cashOver live pf ∧
      (retireScan date precision l pf acc).2.m_sys_map = pf.m_sys_map := by
  induction l generalizing pf acc with
  | nil => exact ⟨rfl, rfl⟩
  | cons r rest ih =>
    have hrest : ∀ p ∈ rest, p ∈ live := fun p hp => hl p (List.mem_cons_of_mem _ hp)
    cases r with
    | none => exact ⟨rfl, rfl⟩
    | some a =>
      simp only [retireScan]
      split
      · exact ⟨rfl, rfl⟩
      · rename_i sub_tm htm
        split
        · split
          · obtain ⟨shadow, hsh⟩ := Option.isSome_iff_exists.mp hshadow
            simp only [hsh]
            have h := ih
              { pf with
                sys := Function.update pf.sys a
                  { pf.sys a with tm := some (sub_tm.checkout date sub_tm.currentCash) }
                m_shadow_tm := some (shadow.checkin date sub_tm.currentCash) }
              (acc ++ [some a]) hrest rfl
            refine ⟨h.1.trans ?_, h.2.trans rfl⟩
            simp only [cashOver, shadowCash, hsh]
            rw [sum_map_of_eq_except live hnd (cashOr0 pf.sys) _ (some a)
              (hl _ (List.mem_cons_self _ _))
              (fun y hy => cashOr0_update_ne pf.sys a _ y hy)]
            simp [cashOr0, cashOf, htm, TradeManager.checkout, TradeManager.checkin,
              TradeManager.currentCash]
          · exact ih _ _ hrest hshadow
        · exact ih _ _ hrest hshadow

/-- Retirement scan, removal and admission scan leave the sum of all live-strategy ledger
cash plus shadow-ledger cash unchanged, wherever they stop. -/
theorem retireAndAdmit_conserves (date : Datetime) (precision : Int)
    (cur_selected_list : List SystemPtr) (pf : Portfolio)
    (hshadow : pf.m_shadow_tm.isSome = true)
    (hlive : ∀ p ∈ pf.m_running_sys_list, p ∈ liveSystems pf) :
    totalCash (retireAndAdmit date precision cur_selected_list pf).2 = totalCash pf := by
  unfold retireAndAdmit
  obtain ⟨h1, h2⟩ := retireScan_conserves date precision (liveSystems pf)
    (List.nodup_dedup _) pf.m_running_sys_list pf [] hlive hshadow
  have h3 : totalCash (retireScan date precision pf.m_running_sys_list pf []).2 =
      totalCash pf := by
    unfold totalCash liveSystems
    rw [h2]
    exact h1
  rw [← h3]
  apply andThen_inv (fun s => totalCash s =
    totalCash (retireScan date precision pf.m_running_sys_list pf []).2)
  · rfl
  · intro w s hs
    rw [← hs]
    exact ((removeLoop_sameLedgers w s).ledgers_trans (admitLoop_sameLedgers _ _)).totalCash_eq

theorem cashOf_update_ne (sys : Nat → System) (a : Nat) (s : System) (p : SystemPtr)
    (hp : p ≠ some a) : cashOf (Function.update sys a s) p = cashOf sys p := by
  cases p with
  | none => rfl
  | some b =>
    have hba : b ≠ a := fun h => hp (h ▸ rfl)
    simp [cashOf, Function.update_noteq hba]

theorem retireCond_update_ne (precision : Int) (sys : Nat → System) (a : Nat) (s : System)
    (p : SystemPtr) (hp : p ≠ some a) :
    retireCond precision (Function.update sys a s) p = retireCond precision sys p := by
  cases p with
  | none => rfl
  | some b =>
    have hba : b ≠ a := fun h => hp (h ▸ rfl)
    simp [retireCond, Function.update_noteq hba]

theorem hasLedger_update_ne (sys : Nat → System) (a : Nat) (s : System) (p : SystemPtr)
    (hp : p ≠ some a) : hasLedger (Function.update sys a s) p = hasLedger sys p := by
  simp [hasLedger, cashOf_update_ne sys a s p hp]

/-- What the retirement scan computes on a duplicate-free list of systems with ledgers. -/
theorem retireScan_spec (date : Datetime) (precision : Int) (l : List SystemPtr)
    (pf : Portfolio) (acc : List SystemPtr) (hnd : l.Nodup)
    (hled : ∀ p ∈ l, hasLedger pf.sys p = true) (hshadow : pf.m_shadow_tm.isSome = true) :
    ∃ pf3, retireScan date precision l pf acc =
        (.returned (acc ++ l.filter (retireCond precision pf.sys)), pf3) ∧
      pf3.m_shadow_tm.isSome = true ∧
      (∀ a, ¬ (some a ∈ l ∧ retireCond precision pf.sys (some a) = true) →
        pf3.sys a = pf.sys a) ∧
      (∀ p ∈ l, retireCond precision pf.sys p = true → cashOf pf3.sys p = some 0) ∧
      shadowCash pf3 =
        shadowCash pf + ((l.filter (retireCond precision pf.sys)).map (cashOr0 pf.sys)).sum := by
  induction l generalizing pf acc with
  | nil => exact ⟨pf, by simp [retireScan], hshadow, fun _ _ => rfl, by simp, by simp⟩
  | cons r rest ih =>
    rw [List.nodup_cons] at hnd
    have hrest : ∀ p ∈ rest, hasLedger pf.sys p = true :=
      fun p hp => hled p (List.mem_cons_of_mem _ hp)
    have hr := hled r (List.mem_cons_self _ _)
    cases r with
    | none => simp [hasLedger, cashOf] at hr
    | some a =>
      cases htm : (pf.sys a).tm with
      | none => simp [hasLedger, cashOf, htm] at hr
      | some sub_tm =>
        by_cases hc : retireCond precision pf.sys (some a) = true
        · have hc' : sub_tm.getPosition (pf.sys a).stock = 0 ∧
              sub_tm.currentCash ≤ (precision : ℚ) := by
            simpa [retireCond, htm] using hc
          by_cases h0 : sub_tm.currentCash = 0
          · obtain ⟨pf3, e, hs, hframe, hzero, hsum⟩ := ih pf (acc ++ [some a]) hnd.2 hrest hshadow
            refine ⟨pf3, ?_, hs, ?_, ?_, ?_⟩
            · simp only [retireScan, htm, List.filter_cons, hc]
              rw [if_pos hc']
              split_ifs
              · contradiction
              · simpa using e
            · intro b hb
              apply hframe
              intro hb'
              exact hb ⟨List.mem_cons_of_mem _ hb'.1, hb'.2⟩
            · intro p hp hcp
              rcases List.mem_cons.mp hp with h1 | h1
              · subst h1
                have hfa := hframe a (fun hb' => hnd.1 hb'.1)
                simp [cashOf, hfa, htm, h0]
              · exact hzero p h1 hcp
            · rw [hsum]
              simp [List.filter_cons, hc, cashOr0, cashOf, htm, h0]
          · obtain ⟨shadow, hsh⟩ := Option.isSome_iff_exists.mp hshadow
            have hne : ∀ p ∈ rest, p ≠ some a := fun p hp h => hnd.1 (h ▸ hp)
            have hfilter : ∀ s : System, rest.filter (retireCond precision (Function.update pf.sys a s)) =
                rest.filter (retireCond precision pf.sys) := by
              intro s
              apply List.filter_congr
              intro p hp
              exact retireCond_update_ne precision pf.sys a s p (hne p hp)
            obtain ⟨pf3, e, hs, hframe, hzero, hsum⟩ := ih
              { pf with
                sys := Function.update pf.sys a
                  { pf.sys a with tm := some (sub_tm.checkout date sub_tm.currentCash) }
                m_shadow_tm := some (shadow.checkin date sub_tm.currentCash) }
              (acc ++ [some a]) hnd.2
              (fun p hp => by
                simp only
                rw [hasLedger_update_ne pf.sys a _ p (hne p hp)]
                exact hrest p hp)
              rfl
            simp only [hfilter] at e hframe hzero hsum
            refine ⟨pf3, ?_, hs, ?_, ?_, ?_⟩
            · simp only [retireScan, htm, hsh, List.filter_cons, hc]
              rw [if_pos hc']
              split_ifs
              · simpa using e
              · contradiction
            · intro b hb
              have hba : b ≠ a := by
                intro h
                subst h
                exact hb ⟨List.mem_cons_self _ _, hc⟩
              rw [hframe b]
              · simp [Function.update_noteq hba]
              · intro hb'
                apply hb
                refine ⟨List.mem_cons_of_mem _ hb'.1, ?_⟩
                have := hb'.2
                rwa [retireCond_update_ne precision pf.sys a _ (some b)
                  (fun h => hba (Option.some.inj h))] at this
            · intro p hp hcp
              rcases List.mem_cons.mp hp with h1 | h1
              · subst h1
                have hfa := hframe a (fun hb' => hnd.1 hb'.1)
                simp [cashOf, hfa, TradeManager.checkout, TradeManager.currentCash]
              · apply hzero p h1
                rwa [retireCond_update_ne precision pf.sys a _ p (hne p h1)]
            · rw [hsum]
              have hmap : (rest.filter (retireCond precision pf.sys)).map
                    (cashOr0 (Function.update pf.sys a
                      { pf.sys a with tm := some (sub_tm.checkout date sub_tm.currentCash) })) =
                  (rest.filter (retireCond precision pf.sys)).map (cashOr0 pf.sys) := by
                apply List.map_congr_left
                intro p hp
                exact cashOr0_update_ne pf.sys a _ p (hne p (List.mem_of_mem_filter hp))
              simp only [hmap]
              simp [shadowCash, hsh, List.filter_cons, hc, cashOr0, cashOf, htm,
                TradeManager.checkin, TradeManager.currentCash]
              ring
        · have hc' : ¬ (sub_tm.getPosition (pf.sys a).stock = 0 ∧
              sub_tm.currentCash ≤ (precision : ℚ)) := by
            simpa [retireCond, htm] using hc
          obtain ⟨pf3, e, hs, hframe, hzero, hsum⟩ := ih pf acc hnd.2 hrest hshadow
          refine ⟨pf3, ?_, hs, ?_, ?_, ?_⟩
          · simp only [retireScan, htm, List.filter_cons, hc]
            rw [if_neg hc']
            simpa using e
          · intro b hb
            apply hframe
            intro hb'
            exact hb ⟨List.mem_cons_of_mem _ hb'.1, hb'.2⟩
          · intro p hp hcp
            rcases List.mem_cons.mp hp with h1 | h1
            · subst h1
              exact absurd hcp hc
            · exact hzero p h1 hcp
          · rw [hsum]
            simp [List.filter_cons, hc]

theorem firstOccurrences_filter (q : SystemPtr → Bool) (l : List SystemPtr) :
    (firstOccurrences l).filter q = firstOccurrences (l.filter q) := by
  induction l with
  | nil => rfl
  | cons y ys ih =>
    by_cases hq : q y = true
    · simp only [firstOccurrences, List.filter_cons, hq, if_true]
      rw [← ih, List.filter_filter, List.filter_filter]
      congr 1
      apply List.filter_congr
      intro z _
      exact Bool.and_comm _ _
    · simp only [firstOccurrences, List.filter_cons, hq, Bool.false_eq_true, if_false]
      rw [← ih, List.filter_filter]
      apply List.filter_congr
      intro z _
      by_cases hz : z = y
      · subst hz
        simp [hq]
      · simp [hz]

theorem newlyAdmitted_cons_pos (sys : Nat → System) (running rest : List SystemPtr)
    (x : SystemPtr) (hc : 0 < cashOr0 sys x) (hx : x ∉ running) :
    newlyAdmitted sys running (x :: rest) = x :: newlyAdmitted sys (running ++ [x]) rest := by
  unfold newlyAdmitted
  simp only [List.filter_cons, hc, hx, decide_True, decide_not, Bool.and_self, if_true,
    not_false_eq_true, firstOccurrences]
  rw [firstOccurrences_filter, List.filter_filter]
  congr 2
  apply List.filter_congr
  intro z _
  by_cases hz : z = x
  · subst hz
    simp
  · simp [hz, Bool.and_comm]

theorem newlyAdmitted_cons_neg (sys : Nat → System) (running rest : List SystemPtr)
    (x : SystemPtr) (h : ¬ (0 < cashOr0 sys x ∧ x ∉ running)) :
    newlyAdmitted sys running (x :: rest) = newlyAdmitted sys running rest := by
  unfold newlyAdmitted
  have : (decide (0 < cashOr0 sys x) && decide (x ∉ running)) = false := by
    simpa using h
  simp only [List.filter_cons, this, Bool.false_eq_true, if_false]

/-- What the admission scan computes when every selected pointer has a ledger. -/
theorem admitLoop_spec (l : List SystemPtr) (pf : Portfolio)
    (hled : ∀ p ∈ l, hasLedger pf.sys p = true) (hcons : RunningConsistent pf) :
    ∃ pf5, admitLoop l pf = (.returned (), pf5) ∧
      pf5.m_running_sys_list =
        pf.m_running_sys_list ++ newlyAdmitted pf.sys pf.m_running_sys_list l := by
  induction l generalizing pf with
  | nil => exact ⟨pf, rfl, by simp [newlyAdmitted, firstOccurrences]⟩
  | cons x rest ih =>
    have hrest : ∀ p ∈ rest, hasLedger pf.sys p = true :=
      fun p hp => hled p (List.mem_cons_of_mem _ hp)
    have hx := hled x (List.mem_cons_self _ _)
    obtain ⟨c, hcash⟩ := Option.isSome_iff_exists.mp hx
    have hc0 : cashOr0 pf.sys x = c := by simp [cashOr0, hcash]
    have hmem : x ∈ pf.m_running_sys_set ↔ x ∈ pf.m_running_sys_list := by
      rw [← hcons.2]; simp
    by_cases hadm : c > 0 ∧ x ∉ pf.m_running_sys_set
    · have hstep : admitLoop (x :: rest) pf = admitLoop rest
          { pf with
            m_running_sys_list := pf.m_running_sys_list ++ [x]
            m_running_sys_set := insert x pf.m_running_sys_set } := by
        simp only [admitLoop, hcash]
        rw [if_pos hadm]
      have hcons1 : RunningConsistent
          { pf with
            m_running_sys_list := pf.m_running_sys_list ++ [x]
            m_running_sys_set := insert x pf.m_running_sys_set } := by
        have := admitLoop_consistent [x] pf hcons
        simpa [admitLoop, hcash, hadm] using this
      obtain ⟨pf5, e, hlist⟩ := ih
        { pf with
          m_running_sys_list := pf.m_running_sys_list ++ [x]
          m_running_sys_set := insert x pf.m_running_sys_set } hrest hcons1
      refine ⟨pf5, hstep.trans e, ?_⟩
      rw [hlist]
      simp only
      rw [newlyAdmitted_cons_pos pf.sys _ rest x (hc0 ▸ hadm.1) (fun h => hadm.2 (hmem.mpr h))]
      simp
    · have hstep : admitLoop (x :: rest) pf = admitLoop rest pf := by
        simp only [admitLoop, hcash]
        rw [if_neg hadm]
      obtain ⟨pf5, e, hlist⟩ := ih pf hrest hcons
      refine ⟨pf5, hstep.trans e, ?_⟩
      rw [hlist, newlyAdmitted_cons_neg pf.sys _ rest x]
      rw [hc0]
      intro h
      exact hadm ⟨h.1, fun h' => h.2 (hmem.mp h')⟩

/-- Every strategy the admission scan appends had strictly positive ledger cash. -/
theorem admitLoop_appended (l : List SystemPtr) (pf : Portfolio) :
    ∃ added, (admitLoop l pf).2.m_running_sys_list = pf.m_running_sys_list ++ added ∧
      ∀ x ∈ added, x ∈ l ∧ ∃ c, cashOf pf.sys x = some c ∧ 0 < c := by
  induction l generalizing pf with
  | nil => exact ⟨[], by simp [admitLoop], by simp⟩
  | cons x rest ih =>
    simp only [admitLoop]
    split
    · exact ⟨[], by simp, by simp⟩
    · rename_i c hcash
      split
      · rename_i hadm
        obtain ⟨added, h1, h2⟩ := ih
          { pf with
            m_running_sys_list := pf.m_running_sys_list ++ [x]
            m_running_sys_set := insert x pf.m_running_sys_set }
        refine ⟨x :: added, by simpa using h1, ?_⟩
        intro y hy
        rcases List.mem_cons.mp hy with h | h
        · subst h
          exact ⟨List.mem_cons_self _ _, c, hcash, hadm.1⟩
        · obtain ⟨h3, h4⟩ := h2 y h
          exact ⟨List.mem_cons_of_mem _ h3, h4⟩
      · obtain ⟨added, h1, h2⟩ := ih pf
        refine ⟨added, h1, ?_⟩
        intro y hy
        obtain ⟨h3, h4⟩ := h2 y hy
        exact ⟨List.mem_cons_of_mem _ h3, h4⟩

theorem removeLoop_list (l : List SystemPtr) (pf : Portfolio) :
    (removeLoop l pf).m_running_sys_list =
      pf.m_running_sys_list.filter (fun x => decide (x ∉ l)) := by
  induction l generalizing pf with
  | nil => simp [removeLoop]
  | cons y rest ih =>
    simp only [removeLoop]
    rw [ih, List.filter_filter]
    apply List.filter_congr
    intro z _
    by_cases hz : z = y
    · subst hz; simp
    · simp [hz]

theorem andThen_of_returned {α β σ : Type} (r : Outcome α × σ) (k : α → σ → Outcome β × σ)
    (v : α) (h : r.1 = .returned v) : Outcome.andThen r k = k v r.2 := by
  obtain ⟨o, s⟩ := r
  simp only at h
  subst h
  rfl

theorem andThen_snd_of_stopped {α β σ : Type} (r : Outcome α × σ)
    (k : α → σ → Outcome β × σ) (h : ∀ v, r.1 ≠ .returned v) :
    (Outcome.andThen r k).2 = r.2 := by
  obtain ⟨o, s⟩ := r
  cases o with
  | returned v => exact absurd rfl (h v)
  | thrown msg => rfl
  | nullDeref => rfl

theorem runMoment_eq_of_allocated (env : Env) (date : Datetime) (pf : Portfolio)
    (shadow : TradeManager) (cur : List SystemPtr) (hready : pf.m_is_ready = true)
    (hshadow : pf.m_shadow_tm = some shadow) (hdate : ¬ date < shadow.initDatetime)
    (halloc : (selectAndAllocate env date pf).1 = .returned cur) :
    runMoment env date pf =
      Outcome.andThen (retireAndAdmit date shadow.precision cur (allocated env date pf))
        fun _ pf5 => executeLoop env date pf5.m_running_sys_list pf5 := by
  simp only [runMoment, Portfolio.isReady, hready, hshadow, hdate, not_true_eq_false,
    if_false]
  rw [andThen_of_returned _ _ cur halloc]
  rfl

theorem runMoment_running_of_allocated (env : Env) (date : Datetime) (pf : Portfolio)
    (shadow : TradeManager) (cur : List SystemPtr) (hready : pf.m_is_ready = true)
    (hshadow : pf.m_shadow_tm = some shadow) (hdate : ¬ date < shadow.initDatetime)
    (halloc : (selectAndAllocate env date pf).1 = .returned cur) :
    SameRunning (retireAndAdmit date shadow.precision cur (allocated env date pf)).2
      (runMoment env date pf).2 := by
  rw [runMoment_eq_of_allocated env date pf shadow cur hready hshadow hdate halloc]
  generalize retireAndAdmit date shadow.precision cur (allocated env date pf) = r
  obtain ⟨o, s⟩ := r
  cases o with
  | returned v => exact executeLoop_sameRunning env date _ s
  | thrown msg => exact SameRunning.running_refl s
  | nullDeref => exact SameRunning.running_refl s

theorem mem_filter_retire (precision : Int) (sys : Nat → System) (l : List SystemPtr)
    (p : SystemPtr) :
    p ∈ l.filter (fun x => decide (x ∉ l.filter (retireCond precision sys))) ↔
      p ∈ l ∧ retireCond precision sys p = false := by
  simp only [List.mem_filter, decide_eq_true_eq, not_and, Bool.not_eq_true]
  constructor
  · rintro ⟨h1, h2⟩
    exact ⟨h1, h2 h1⟩
  · rintro ⟨h1, h2⟩
    exact ⟨h1, fun _ => h2⟩

theorem survivors_eq (precision : Int) (sys : Nat → System) (l : List SystemPtr) :
    l.filter (fun x => decide (x ∉ l.filter (retireCond precision sys))) =
      l.filter (fun x => !retireCond precision sys x) := by
  apply List.filter_congr
  intro x hx
  simp only [List.mem_filter, hx, true_and, Bool.not_eq_true, decide_eq_true_eq]
  cases retireCond precision sys x <;> simp

/-- What retirement scan, removal and admission scan compute together, from a consistent
state in which the running and the selected strategies have ledgers. -/
theorem retireAndAdmit_spec (date : Datetime) (precision : Int) (cur : List SystemPtr)
    (pf : Portfolio) (hcons : RunningConsistent pf)
    (hrun : ∀ p ∈ pf.m_running_sys_list, hasLedger pf.sys p = true)
    (hsel : ∀ p ∈ cur, hasLedger pf.sys p = true)
    (hshadow : pf.m_shadow_tm.isSome = true) :
    ∃ pf5, retireAndAdmit date precision cur pf = (.returned (), pf5) ∧
      pf5.m_running_sys_list =
        pf.m_running_sys_list.filter (fun x => !retireCond precision pf.sys x) ++
          newlyAdmitted pf.sys pf.m_running_sys_list cur ∧
      pf5.sys = (retireScan date precision pf.m_running_sys_list pf []).2.sys := by
  obtain ⟨pf3, e, _, hframe, hzero, _⟩ :=
    retireScan_spec date precision pf.m_running_sys_list pf [] hcons.1 hrun hshadow
  have hsame3 := retireScan_sameRunning date precision pf.m_running_sys_list pf []
  rw [e] at hsame3
  simp only at hsame3
  have hcons3 : RunningConsistent pf3 := hsame3.consistent hcons
  set w := pf.m_running_sys_list.filter (retireCond precision pf.sys) with hw
  have hcons4 : RunningConsistent (removeLoop ([] ++ w) pf3) :=
    removeLoop_consistent _ _ hcons3
  have hled4 : (removeLoop ([] ++ w) pf3).sys = pf3.sys := (removeLoop_sameLedgers _ _).1
  have hcash : ∀ p, p ∉ pf.m_running_sys_list → cashOf pf3.sys p = cashOf pf.sys p := by
    intro p hp
    cases p with
    | none => rfl
    | some a =>
      have := hframe a (fun h => hp h.1)
      simp [cashOf, this]
  have hsel4 : ∀ p ∈ cur, hasLedger (removeLoop ([] ++ w) pf3).sys p = true := by
    intro p hp
    rw [hled4]
    by_cases hm : p ∈ pf.m_running_sys_list ∧ retireCond precision pf.sys p = true
    · simp [hasLedger, hzero p hm.1 hm.2]
    · cases p with
      | none => exact hsel none hp
      | some a =>
        have := hframe a hm
        have h2 := hsel (some a) hp
        simpa [hasLedger, cashOf, this] using h2
  obtain ⟨pf5, e5, hlist⟩ := admitLoop_spec cur (removeLoop ([] ++ w) pf3) hsel4 hcons4
  have hl4 : (removeLoop ([] ++ w) pf3).m_running_sys_list =
      pf.m_running_sys_list.filter (fun x => !retireCond precision pf.sys x) := by
    rw [removeLoop_list, hsame3.1]
    simp only [List.nil_append, hw]
    exact survivors_eq precision pf.sys pf.m_running_sys_list
  refine ⟨pf5, ?_, ?_, ?_⟩
  · unfold retireAndAdmit
    rw [e]
    exact e5
  · rw [hlist, hl4, hled4]
    congr 1
    unfold newlyAdmitted
    congr 1
    apply List.filter_congr
    intro p _
    by_cases hp : p ∈ pf.m_running_sys_list
    · by_cases hc : retireCond precision pf.sys p = true
      · simp [cashOr0, hzero p hp hc, hp]
      · simp [List.mem_filter, hp, hc]
    · simp [cashOr0, hcash p hp, hp, List.mem_filter]
  · have := (admitLoop_sameLedgers cur (removeLoop ([] ++ w) pf3)).1
    rw [e5] at this
    simp only at this
    rw [this, hled4, e]

theorem mem_firstOccurrences (l : List SystemPtr) (x : SystemPtr) :
    x ∈ firstOccurrences l ↔ x ∈ l := by
  induction l with
  | nil => simp [firstOccurrences]
  | cons y ys ih =>
    simp only [firstOccurrences, List.mem_cons, List.mem_filter, ih, decide_eq_true_eq]
    constructor
    · rintro (h | ⟨h, _⟩)
      · exact Or.inl h
      · exact Or.inr h
    · intro h
      by_cases hxy : x = y
      · exact Or.inl hxy
      · rcases h with h | h
        · exact absurd h hxy
        · exact Or.inr ⟨h, hxy⟩

theorem firstOccurrences_of_nodup (l : List SystemPtr) (h : l.Nodup) :
    firstOccurrences l = l := by
  induction l with
  | nil => rfl
  | cons y ys ih =>
    rw [List.nodup_cons] at h
    simp only [firstOccurrences, ih h.2]
    congr 1
    rw [List.filter_eq_self]
    intro z hz
    simp only [decide_eq_true_eq]
    exact fun hzy => h.1 (hzy ▸ hz)

theorem mem_newlyAdmitted (sys : Nat → System) (running selected : List SystemPtr)
    (x : SystemPtr) :
    x ∈ newlyAdmitted sys running selected ↔
      x ∈ selected ∧ 0 < cashOr0 sys x ∧ x ∉ running := by
  simp [newlyAdmitted, mem_firstOccurrences, List.mem_filter]

/-- C3: when `runMoment` reaches its admission scan, the running sequence after the call is
the running sequence at that point (a subsequence of the one before the call) followed by
the strategies appended in this call, and every appended strategy had strictly positive
ledger cash in the state the admission scan read, the one left by the allocation and the
retirement sweep; when the call stops before the admission scan the sequence is unchanged. -/
theorem admission_gate (env : Env) (date : Datetime) (pf : Portfolio) :
    match admissionPoint env date pf with
    | none => (runMoment env date pf).2.m_running_sys_list = pf.m_running_sys_list
    | some pf4 =>
      ∃ added,
        (runMoment env date pf).2.m_running_sys_list = pf4.m_running_sys_list ++ added ∧
        pf4.m_running_sys_list.Sublist pf.m_running_sys_list ∧
        ∀ x ∈ added, ∃ c, cashOf pf4.sys x = some c ∧ 0 < c := by
  by_cases hready : pf.m_is_ready = true
  swap
  · simp [admissionPoint, runMoment, Portfolio.isReady, hready]
  cases hshadow : pf.m_shadow_tm with
  | none => simp [admissionPoint, runMoment, Portfolio.isReady, hready, hshadow]
  | some shadow =>
    by_cases hdate : date < shadow.initDatetime
    · simp [admissionPoint, runMoment, Portfolio.isReady, hready, hshadow, hdate]
    have hsame2 : SameRunning pf (allocated env date pf) :=
      selectAndAllocate_sameRunning env date pf
    cases halloc : (selectAndAllocate env date pf).1 with
    | returned cur =>
      have hsame := runMoment_running_of_allocated env date pf shadow cur hready hshadow
        hdate halloc
      have hpair : selectAndAllocate env date pf = (.returned cur, allocated env date pf) :=
        Prod.ext halloc rfl
      rw [hsame.1]
      simp only [admissionPoint, hready, hshadow, hdate, if_true, if_false, hpair]
      unfold retireAndAdmit
      have hsame3 := retireScan_sameRunning date shadow.precision
        (allocated env date pf).m_running_sys_list (allocated env date pf) []
      generalize retireScan date shadow.precision (allocated env date pf).m_running_sys_list
        (allocated env date pf) [] = r3 at hsame3 ⊢
      obtain ⟨o3, pf3⟩ := r3
      cases o3 with
      | returned w =>
        simp only [Outcome.andThen]
        obtain ⟨added, h1, h2⟩ := admitLoop_appended cur (removeLoop w pf3)
        refine ⟨added, h1, ?_, ?_⟩
        · rw [removeLoop_list, hsame3.1, hsame2.1]
          exact List.filter_sublist _
        · intro x hx
          exact (h2 x hx).2
      | thrown msg => simpa [Outcome.andThen] using hsame3.1.trans hsame2.1
      | nullDeref => simpa [Outcome.andThen] using hsame3.1.trans hsame2.1
    | thrown msg =>
      have hpair : selectAndAllocate env date pf = (.thrown msg, allocated env date pf) :=
        Prod.ext halloc rfl
      simp only [admissionPoint, runMoment, Portfolio.isReady, hready, hshadow, hdate,
        not_true_eq_false, if_true, if_false, hpair, Outcome.andThen]
      exact hsame2.1
    | nullDeref =>
      have hpair : selectAndAllocate env date pf = (.nullDeref, allocated env date pf) :=
        Prod.ext halloc rfl
      simp only [admissionPoint, runMoment, Portfolio.isReady, hready, hshadow, hdate,
        not_true_eq_false, if_true, if_false, hpair, Outcome.andThen]
      exact hsame2.1

/-- C4: in a ready, consistent state, on a date not before inception, when selection and
allocation returned and left every running strategy with a ledger: the retirement scan marks
exactly the running strategies whose position on their tradable is zero and whose cash is at
or below the precision (both read right after allocation), and every running strategy that
does not meet this condition is still in the running sequence and set after the call. -/
theorem retirement_gate (env : Env) (date : Datetime) (pf : Portfolio)
    (shadow : TradeManager) (cur : List SystemPtr) (hready : pf.m_is_ready = true)
    (hshadow : pf.m_shadow_tm = some shadow) (hdate : ¬ date < shadow.initDatetime)
    (halloc : (selectAndAllocate env date pf).1 = .returned cur)
    (hcons : RunningConsistent pf)
    (hrun : ∀ p ∈ pf.m_running_sys_list, hasLedger (allocated env date pf).sys p = true)
    (hshadow2 : (allocated env date pf).m_shadow_tm.isSome = true) :
    (∃ pf3, retireScan date shadow.precision (allocated env date pf).m_running_sys_list
        (allocated env date pf) [] =
        (.returned (pf.m_running_sys_list.filter
          (retireCond shadow.precision (allocated env date pf).sys)), pf3)) ∧
      ∀ r ∈ pf.m_running_sys_list,
        retireCond shadow.precision (allocated env date pf).sys r = false →
        r ∈ (runMoment env date pf).2.m_running_sys_list ∧
          r ∈ (runMoment env date pf).2.m_running_sys_set := by
  have hsame2 : SameRunning pf (allocated env date pf) :=
    selectAndAllocate_sameRunning env date pf
  have hcons2 : RunningConsistent (allocated env date pf) := hsame2.consistent hcons
  obtain ⟨pf3, e, _⟩ := retireScan_spec date shadow.precision
    (allocated env date pf).m_running_sys_list (allocated env date pf) [] hcons2.1
    (by rw [hsame2.1]; exact hrun) hshadow2
  refine ⟨⟨pf3, by rw [e, hsame2.1]; rfl⟩, ?_⟩
  intro r hr hc
  have hfinal : RunningConsistent (runMoment env date pf).2 :=
    runMoment_consistent env date pf hcons
  have hlist : r ∈ (runMoment env date pf).2.m_running_sys_list := by
    have hsame := runMoment_running_of_allocated env date pf shadow cur hready hshadow
      hdate halloc
    rw [hsame.1]
    unfold retireAndAdmit
    rw [e]
    simp only [Outcome.andThen]
    obtain ⟨added, h1, _⟩ := admitLoop_appended cur
      (removeLoop ([] ++ (allocated env date pf).m_running_sys_list.filter
        (retireCond shadow.precision (allocated env date pf).sys)) pf3)
    rw [h1, removeLoop_list]
    apply List.mem_append_left
    have hsame3 := retireScan_sameRunning date shadow.precision
      (allocated env date pf).m_running_sys_list (allocated env date pf) []
    rw [e] at hsame3
    rw [hsame3.1, List.nil_append]
    exact (mem_filter_retire _ _ _ _).mpr ⟨hsame2.1 ▸ hr, hc⟩
  refine ⟨hlist, ?_⟩
  rw [← hfinal.2]
  simpa using hlist

theorem retirement_gate_witness :
    exampleTick1.m_is_ready = true ∧ exampleTick1.m_shadow_tm.isSome = true ∧
      retireCond 2 (allocated defundEnv 21 exampleTick1).sys (some 4) = false ∧
      some 4 ∈ (runMoment defundEnv 21 exampleTick1).2.m_running_sys_list ∧
      some 4 ∈ (runMoment defundEnv 21 exampleTick1).2.m_running_sys_set :=
  ⟨by decide!, by decide!, by decide!,
    (retirement_gate defundEnv 21 exampleTick1
      { exampleTM with cash := 97000 } [some 3, some 4, some 5]
      (by decide!) (by with_unfolding_all rfl) (by decide) (by decide!) (by decide!)
      (by decide!) (by decide!)).2 (some 4) (by decide!) (by decide!)⟩

/-- C6: in a ready, consistent state, on a date not before inception, when selection and
allocation returned and left the shadow ledger in place and every running and every selected
strategy with a ledger: the running sequence after `runMoment` is the previous one without
the strategies that met the retirement condition, in unchanged order, followed by the
selected strategies that have strictly positive cash and were not running, in the order of
their first occurrence in the selected list.  In particular, from an empty running sequence
and a duplicate-free selected list whose strategies all got positive cash, the running
sequence after the call is the selected list. -/
theorem running_sequence_after (env : Env) (date : Datetime) (pf : Portfolio)
    (shadow : TradeManager) (cur : List SystemPtr) (hready : pf.m_is_ready = true)
    (hshadow : pf.m_shadow_tm = some shadow) (hdate : ¬ date < shadow.initDatetime)
    (halloc : (selectAndAllocate env date pf).1 = .returned cur)
    (hcons : RunningConsistent pf)
    (hrun : ∀ p ∈ pf.m_running_sys_list, hasLedger (allocated env date pf).sys p = true)
    (hsel : ∀ p ∈ cur, hasLedger (allocated env date pf).sys p = true)
    (hshadow2 : (allocated env date pf).m_shadow_tm.isSome = true) :
    (runMoment env date pf).2.m_running_sys_list =
        pf.m_running_sys_list.filter
          (fun x => !retireCond shadow.precision (allocated env date pf).sys x) ++
        newlyAdmitted (allocated env date pf).sys pf.m_running_sys_list cur ∧
      (pf.m_running_sys_list = [] → cur.Nodup →
        (∀ p ∈ cur, 0 < cashOr0 (allocated env date pf).sys p) →
        (runMoment env date pf).2.m_running_sys_list = cur) := by
  have hsame2 : SameRunning pf (allocated env date pf) :=
    selectAndAllocate_sameRunning env date pf
  obtain ⟨pf5, e, hlist, _⟩ := retireAndAdmit_spec date shadow.precision cur
    (allocated env date pf) (hsame2.consistent hcons) (by rw [hsame2.1]; exact hrun) hsel
    hshadow2
  have hsame := runMoment_running_of_allocated env date pf shadow cur hready hshadow
    hdate halloc
  have hmain : (runMoment env date pf).2.m_running_sys_list =
      pf.m_running_sys_list.filter
        (fun x => !retireCond shadow.precision (allocated env date pf).sys x) ++
      newlyAdmitted (allocated env date pf).sys pf.m_running_sys_list cur := by
    rw [hsame.1, e, hlist, hsame2.1]
  refine ⟨hmain, ?_⟩
  intro hempty hnd hpos
  rw [hmain, hempty]
  simp only [List.filter_nil, List.nil_append, newlyAdmitted]
  have : cur.filter (fun p => decide (0 < cashOr0 (allocated env date pf).sys p) &&
      decide (p ∉ ([] : List SystemPtr))) = cur := by
    rw [List.filter_eq_self]
    intro p hp
    simp [hpos p hp]
  rw [this, firstOccurrences_of_nodup cur hnd]

theorem running_sequence_after_witness :
    examplePrepared.m_running_sys_list = [] ∧
      (selectAndAllocate exampleEnv 20 examplePrepared).1 =
        .returned [some 3, some 4, some 5] ∧
      (runMoment exampleEnv 20 examplePrepared).2.m_running_sys_list =
        [some 3, some 4, some 5] ∧
      (runMoment exampleEnv 20 examplePrepared).2.m_running_sys_list.length = 3 :=
  have h := (running_sequence_after exampleEnv 20 examplePrepared exampleTM
    [some 3, some 4, some 5] (by decide!) rfl (by decide) (by decide!) (by decide!)
    (by decide!) (by decide!) (by decide!)).2 (by decide!) (by decide) (by decide!)
  ⟨by decide!, by decide!, h, by rw [h]; rfl⟩

/-- C7, as the code has it: under the hypotheses of C6, a running strategy that meets the
retirement condition after allocation is removed and not re-admitted in the same call, also
when it is in this tick's selected list: after the call it is neither in the running
sequence nor in the running set. -/
theorem retired_not_readmitted (env : Env) (date : Datetime) (pf : Portfolio)
    (shadow : TradeManager) (cur : List SystemPtr) (hready : pf.m_is_ready = true)
    (hshadow : pf.m_shadow_tm = some shadow) (hdate : ¬ date < shadow.initDatetime)
    (halloc : (selectAndAllocate env date pf).1 = .returned cur)
    (hcons : RunningConsistent pf)
    (hrun : ∀ p ∈ pf.m_running_sys_list, hasLedger (allocated env date pf).sys p = true)
    (hsel : ∀ p ∈ cur, hasLedger (allocated env date pf).sys p = true)
    (hshadow2 : (allocated env date pf).m_shadow_tm.isSome = true)
    (r : SystemPtr) (hr : r ∈ pf.m_running_sys_list)
    (hretire : retireCond shadow.precision (allocated env date pf).sys r = true) :
    r ∉ (runMoment env date pf).2.m_running_sys_list ∧
      r ∉ (runMoment env date pf).2.m_running_sys_set := by
  have hsame2 : SameRunning pf (allocated env date pf) :=
    selectAndAllocate_sameRunning env date pf
  obtain ⟨pf5, e, hlist, _⟩ := retireAndAdmit_spec date shadow.precision cur
    (allocated env date pf) (hsame2.consistent hcons) (by rw [hsame2.1]; exact hrun) hsel
    hshadow2
  have hsame := runMoment_running_of_allocated env date pf shadow cur hready hshadow
    hdate halloc
  have hnot : r ∉ (runMoment env date pf).2.m_running_sys_list := by
    rw [hsame.1, e, hlist, hsame2.1]
    simp only [List.mem_append, List.mem_filter, mem_newlyAdmitted, hretire, hr,
      Bool.not_true, Bool.false_eq_true, and_false, not_true_eq_false, or_self,
      not_false_eq_true]
  refine ⟨hnot, ?_⟩
  rw [← (runMoment_consistent env date pf hcons).2]
  simpa using hnot

theorem retired_not_readmitted_witness :
    some 3 ∈ exampleTick1.m_running_sys_list ∧
      cashOf (allocated dustEnv 21 exampleTick1).sys (some 3) = some (1 / 10000) ∧
      some 3 ∈ [some 3, some 4, some 5] ∧
      some 3 ∉ (runMoment dustEnv 21 exampleTick1).2.m_running_sys_list ∧
      some 3 ∉ (runMoment dustEnv 21 exampleTick1).2.m_running_sys_set :=
  ⟨by decide!, by decide!, by decide,
    retired_not_readmitted dustEnv 21 exampleTick1 { exampleTM with cash := 97000 }
      [some 3, some 4, some 5] (by decide!) (by with_unfolding_all rfl) (by decide)
      (by decide!) (by decide!) (by decide!) (by decide!) (by decide!) (some 3) (by decide!)
      (by decide!)⟩

/-- Counterexample to C7 as stated: the live system at address 3 is running, is fully
defunded by the Allocator (zero position, zero cash), and its prototype is selected on the
same date; after `runMoment` it is not at the back of the running sequence, it is in
neither the running sequence nor the running set. -/
theorem readmission_counterexample :
    some 3 ∈ exampleTick1.m_running_sys_list ∧
      (selectAndAllocate defundEnv 21 exampleTick1).1 = .returned [some 3, some 4, some 5] ∧
      retireCond 2 (allocated defundEnv 21 exampleTick1).sys (some 3) = true ∧
      (runMoment defundEnv 21 exampleTick1).1 = .returned () ∧
      (runMoment defundEnv 21 exampleTick1).2.m_running_sys_list = [some 4, some 5] ∧
      some 3 ∉ (runMoment defundEnv 21 exampleTick1).2.m_running_sys_set := by
  decide!

theorem executeLoop_spec (env : Env) (date : Datetime) (l : List Nat) (pf : Portfolio)
    (tm : TradeManager) (htm : pf.m_tm = some tm) :
    executeLoop env date (l.map some) pf =
      (.returned (), { pf with
        sys := (runAll env date l pf.sys).1
        m_tm := some { tm with
          trades := tm.trades ++ (runAll env date l pf.sys).2.filter (fun tr => !tr.isNull) }
        calls := pf.calls ++ l.map (fun a => Call.sys_runMoment a date) }) := by
  induction l generalizing pf tm with
  | nil =>
    obtain ⟨⟩ := pf
    simp only at htm
    subst htm
    simp [executeLoop, runAll]
  | cons a rest ih =>
    simp only [List.map_cons, executeLoop, runAll]
    by_cases hnull : (env.sysRunMoment a date pf.sys).2.isNull = true
    · rw [if_pos hnull]
      rw [ih _ tm (by simpa using htm)]
      simp [hnull]
    · rw [if_neg hnull]
      simp only [htm]
      rw [ih _ (tm.addTradeRecord (env.sysRunMoment a date pf.sys).2) rfl]
      simp [hnull, TradeManager.addTradeRecord]

theorem retireScan_keeps (date : Datetime) (precision : Int) (l : List SystemPtr)
    (pf : Portfolio) (acc : List SystemPtr) :
    (retireScan date precision l pf acc).2.m_tm = pf.m_tm ∧
      (retireScan date precision l pf acc).2.calls = pf.calls ∧
      (retireScan date precision l pf acc).2.m_sys_map = pf.m_sys_map := by
  induction l generalizing pf acc with
  | nil => exact ⟨rfl, rfl, rfl⟩
  | cons r rest ih =>
    cases r with
    | none => exact ⟨rfl, rfl, rfl⟩
    | some a =>
      simp only [retireScan]
      split
      · exact ⟨rfl, rfl, rfl⟩
      · split
        · split
          · split
            · exact ⟨rfl, rfl, rfl⟩
            · exact ih _ _
          · exact ih _ _
        · exact ih _ _

theorem map_some_reduceOption (l : List SystemPtr) (h : ∀ p ∈ l, p ≠ none) :
    l.reduceOption.map some = l := by
  induction l with
  | nil => rfl
  | cons x xs ih =>
    have hxs : ∀ p ∈ xs, p ≠ none := fun p hp => h p (List.mem_cons_of_mem _ hp)
    cases x with
    | none => exact absurd rfl (h none (List.mem_cons_self _ _))
    | some a => simp [List.reduceOption_cons_of_some, ih hxs]

theorem ne_none_of_hasLedger (sys : Nat → System) (p : SystemPtr)
    (h : hasLedger sys p = true) : p ≠ none := by
  intro hp
  subst hp
  simp [hasLedger, cashOf] at h

/-- C5: in a ready, consistent state, on a date not before inception, when selection and
allocation returned and left the master and the shadow ledger in place and every running
and every selected strategy with a ledger: `runMoment` returns; the strategies of the
running sequence as it stands after the admission scan take their step once each, in
sequence order, and no other strategy does; and the master ledger after the call is the
master ledger left by the allocation with the non-null records of those steps appended in
that order. -/
theorem trades_in_running_order (env : Env) (date : Datetime) (pf : Portfolio)
    (shadow : TradeManager) (cur : List SystemPtr) (tm : TradeManager)
    (hready : pf.m_is_ready = true)
    (hshadow : pf.m_shadow_tm = some shadow) (hdate : ¬ date < shadow.initDatetime)
    (halloc : (selectAndAllocate env date pf).1 = .returned cur)
    (hcons : RunningConsistent pf)
    (hrun : ∀ p ∈ pf.m_running_sys_list, hasLedger (allocated env date pf).sys p = true)
    (hsel : ∀ p ∈ cur, hasLedger (allocated env date pf).sys p = true)
    (hshadow2 : (allocated env date pf).m_shadow_tm.isSome = true)
    (hmaster : (allocated env date pf).m_tm = some tm) :
    (retireAndAdmit date shadow.precision cur (allocated env date pf)).1 = .returned () ∧
      (admitted date shadow.precision cur (allocated env date pf)).m_tm = some tm ∧
      (admitted date shadow.precision cur (allocated env date pf)).calls =
        (allocated env date pf).calls ∧
      (admitted date shadow.precision cur
          (allocated env date pf)).m_running_sys_list.reduceOption.map some =
        (admitted date shadow.precision cur (allocated env date pf)).m_running_sys_list ∧
      runMoment env date pf =
        (.returned (), { admitted date shadow.precision cur (allocated env date pf) with
          sys := (runAll env date
            (admitted date shadow.precision cur
              (allocated env date pf)).m_running_sys_list.reduceOption
            (admitted date shadow.precision cur (allocated env date pf)).sys).1
          m_tm := some { tm with
            trades := tm.trades ++
              (runAll env date
                (admitted date shadow.precision cur
                  (allocated env date pf)).m_running_sys_list.reduceOption
                (admitted date shadow.precision cur (allocated env date pf)).sys).2.filter
                (fun tr => !tr.isNull) }
          calls := (admitted date shadow.precision cur (allocated env date pf)).calls ++
            (admitted date shadow.precision cur
              (allocated env date pf)).m_running_sys_list.reduceOption.map
              (fun a => Call.sys_runMoment a date) }) := by
  have hsame2 : SameRunning pf (allocated env date pf) :=
    selectAndAllocate_sameRunning env date pf
  obtain ⟨pf5, e, hlist, _⟩ := retireAndAdmit_spec date shadow.precision cur
    (allocated env date pf) (hsame2.consistent hcons) (by rw [hsame2.1]; exact hrun) hsel
    hshadow2
  have hkeep := retireScan_keeps date shadow.precision
    (allocated env date pf).m_running_sys_list (allocated env date pf) []
  have hled : SameLedgers (retireScan date shadow.precision
      (allocated env date pf).m_running_sys_list (allocated env date pf) []).2 pf5 := by
    have h := e
    unfold retireAndAdmit at h
    generalize retireScan date shadow.precision (allocated env date pf).m_running_sys_list
      (allocated env date pf) [] = r3 at h ⊢
    obtain ⟨o3, pf3⟩ := r3
    cases o3 with
    | returned w =>
      simp only [Outcome.andThen] at h
      have := (removeLoop_sameLedgers w pf3).ledgers_trans (admitLoop_sameLedgers cur _)
      rwa [h] at this
    | thrown msg => simp [Outcome.andThen] at h
    | nullDeref => simp [Outcome.andThen] at h
  have htm5 : pf5.m_tm = some tm := by rw [hled.2.2.1, hkeep.1, hmaster]
  have hcalls5 : pf5.calls = (allocated env date pf).calls := by
    rw [hled.2.2.2.2, hkeep.2.1]
  have hnonnull : ∀ p ∈ pf5.m_running_sys_list, p ≠ none := by
    intro p hp
    rw [hlist, List.mem_append] at hp
    rcases hp with hp | hp
    · exact ne_none_of_hasLedger _ p (hrun p (hsame2.1 ▸ (List.mem_filter.mp hp).1))
    · exact ne_none_of_hasLedger _ p (hsel p ((mem_newlyAdmitted _ _ _ _).mp hp).1)
  have hmap := map_some_reduceOption pf5.m_running_sys_list hnonnull
  have hadm : admitted date shadow.precision cur (allocated env date pf) = pf5 := by
    unfold admitted
    rw [e]
  rw [hadm]
  refine ⟨by rw [e], htm5, hcalls5, hmap, ?_⟩
  rw [runMoment_eq_of_allocated env date pf shadow cur hready hshadow hdate halloc, e]
  simp only [Outcome.andThen]
  have := executeLoop_spec env date pf5.m_running_sys_list.reduceOption pf5 tm htm5
  rw [hmap] at this
  exact this

theorem trades_in_running_order_witness :
    (allocated exampleEnv 20 examplePrepared).m_tm = some exampleTM ∧
      (runMoment exampleEnv 20 examplePrepared).1 = .returned () ∧
      (runMoment exampleEnv 20 examplePrepared).2.m_running_sys_list =
        [some 3, some 4, some 5] ∧
      (runMoment exampleEnv 20 examplePrepared).2.m_tm.map (fun t => t.trades) =
        some (exampleTM.trades ++ [⟨false, 3⟩, ⟨false, 4⟩, ⟨false, 5⟩]) ∧
      (runMoment exampleEnv 20 examplePrepared).2.calls =
        (allocated exampleEnv 20 examplePrepared).calls ++
          [Call.sys_runMoment 3 20, Call.sys_runMoment 4 20, Call.sys_runMoment 5 20] :=
  have h := (trades_in_running_order exampleEnv 20 examplePrepared
    exampleTM [some 3, some 4, some 5] exampleTM (by decide!) rfl (by decide) (by decide!)
    (by decide!) (by decide!) (by decide!) (by decide!) (by with_unfolding_all rfl)).2.2.2.2
  ⟨by with_unfolding_all rfl, by rw [h], by decide!, by rw [h]; decide!, by rw [h]; decide!⟩

theorem retireAndAdmit_sameLedgers (date : Datetime) (precision : Int)
    (cur : List SystemPtr) (pf : Portfolio) :
    SameLedgers (retireScan date precision pf.m_running_sys_list pf []).2
      (retireAndAdmit date precision cur pf).2 := by
  unfold retireAndAdmit
  generalize retireScan date precision pf.m_running_sys_list pf [] = r3
  obtain ⟨o3, pf3⟩ := r3
  cases o3 with
  | returned w => exact (removeLoop_sameLedgers w pf3).ledgers_trans (admitLoop_sameLedgers cur _)
  | thrown msg => exact SameLedgers.ledgers_refl pf3
  | nullDeref => exact SameLedgers.ledgers_refl pf3

theorem mem_of_lookup (m : List (SystemPtr × SystemPtr)) (k v : SystemPtr)
    (h : m.lookup k = some v) : v ∈ m.map Prod.snd := by
  induction m with
  | nil => simp at h
  | cons kv rest ih =>
    obtain ⟨k1, v1⟩ := kv
    by_cases hk : k = k1
    · subst hk
      simp only [List.lookup_cons, beq_self_eq_true] at h
      simp [Option.some.inj h]
    · have : (k == k1) = false := by simpa using hk
      simp only [List.lookup_cons, this] at h
      exact List.mem_cons_of_mem _ (ih h)

theorem mapIndex_fst_mem (m : List (SystemPtr × SystemPtr)) (k : SystemPtr) :
    (mapIndex m k).1 ∈ (mapIndex m k).2.map Prod.snd := by
  unfold mapIndex
  split
  · rename_i v h
    exact mem_of_lookup m k v h
  · simp

theorem mapIndex_values_mono (m : List (SystemPtr × SystemPtr)) (k v : SystemPtr)
    (h : v ∈ m.map Prod.snd) : v ∈ (mapIndex m k).2.map Prod.snd := by
  unfold mapIndex
  split
  · exact h
  · simp only [List.map_append, List.mem_append]
    exact Or.inl h

/-- The selection loop only adds entries to the mapping, and every pointer it returns is a
value of the mapping it leaves. -/
theorem selectLoop_values (l : List SystemPtr) (pf : Portfolio) (cur : List SystemPtr)
    (hcur : ∀ p ∈ cur, p ∈ pf.m_sys_map.map Prod.snd) :
    (∀ v ∈ pf.m_sys_map.map Prod.snd, v ∈ (selectLoop l pf cur).2.m_sys_map.map Prod.snd) ∧
      ∀ out, (selectLoop l pf cur).1 = .returned out →
        ∀ p ∈ out, p ∈ (selectLoop l pf cur).2.m_sys_map.map Prod.snd := by
  induction l generalizing pf cur with
  | nil =>
    refine ⟨fun v hv => hv, ?_⟩
    intro out hout p hp
    simp only [selectLoop, Outcome.returned.injEq] at hout
    subst hout
    exact hcur p hp
  | cons pro_sys rest ih =>
    have hcur1 : ∀ p ∈ cur ++ [(mapIndex pf.m_sys_map pro_sys).1],
        p ∈ (mapIndex pf.m_sys_map pro_sys).2.map Prod.snd := by
      intro p hp
      rcases List.mem_append.mp hp with h | h
      · exact mapIndex_values_mono _ _ _ (hcur p h)
      · simp only [List.mem_singleton] at h
        subst h
        exact mapIndex_fst_mem _ _
    have key := ih { pf with m_sys_map := (mapIndex pf.m_sys_map pro_sys).2 }
      (cur ++ [(mapIndex pf.m_sys_map pro_sys).1]) hcur1
    simp only [selectLoop]
    split
    · split
      · refine ⟨fun v hv => mapIndex_values_mono _ _ _ hv, ?_⟩
        intro out hout
        simp at hout
      · exact ⟨fun v hv => key.1 v (mapIndex_values_mono _ _ _ hv), key.2⟩
    · exact ⟨fun v hv => key.1 v (mapIndex_values_mono _ _ _ hv), key.2⟩

theorem selectStage_values (env : Env) (date : Datetime) (pf : Portfolio) :
    (∀ v ∈ pf.m_sys_map.map Prod.snd,
        v ∈ (selectStage env date pf).2.m_sys_map.map Prod.snd) ∧
      ∀ out, (selectStage env date pf).1 = .returned out →
        ∀ p ∈ out, p ∈ (selectStage env date pf).2.m_sys_map.map Prod.snd := by
  unfold selectStage
  split
  · refine ⟨fun v hv => hv, ?_⟩
    intro out h
    simp at h
  · exact selectLoop_values (env.getSelectedSystemList date)
      { pf with calls := pf.calls ++ [.se_getSelectedSystemList date] } [] (by simp)

theorem allocateStage_map (env : Env) (date : Datetime) (cur : List SystemPtr)
    (pf : Portfolio) :
    (allocateStage env date cur pf).2.m_sys_map = pf.m_sys_map ∧
      ∀ out, (allocateStage env date cur pf).1 = .returned out → out = cur := by
  unfold allocateStage
  split
  · refine ⟨rfl, ?_⟩
    intro out h
    simp at h
  · dsimp only
    split
    · refine ⟨rfl, ?_⟩
      intro out h
      simp at h
    · refine ⟨rfl, ?_⟩
      intro out h
      simp only [Outcome.returned.injEq] at h
      exact h.symm

theorem selectAndAllocate_values (env : Env) (date : Datetime) (pf : Portfolio) :
    (∀ v ∈ pf.m_sys_map.map Prod.snd, v ∈ (allocated env date pf).m_sys_map.map Prod.snd) ∧
      ∀ cur, (selectAndAllocate env date pf).1 = .returned cur →
        ∀ p ∈ cur, p ∈ (allocated env date pf).m_sys_map.map Prod.snd := by
  unfold allocated selectAndAllocate
  have key := selectStage_values env date pf
  generalize selectStage env date pf = r at key
  obtain ⟨o, s⟩ := r
  cases o with
  | returned out =>
    simp only [Outcome.andThen]
    have hmap := allocateStage_map env date out s
    rw [hmap.1]
    refine ⟨key.1, ?_⟩
    intro cur h
    rw [hmap.2 cur h]
    exact key.2 out rfl
  | thrown msg =>
    refine ⟨key.1, ?_⟩
    intro cur h
    simp [Outcome.andThen] at h
  | nullDeref =>
    refine ⟨key.1, ?_⟩
    intro cur h
    simp [Outcome.andThen] at h

theorem retireAndAdmit_live (date : Datetime) (precision : Int) (cur : List SystemPtr)
    (pf : Portfolio) (hlive : RunningLive pf)
    (hcur : ∀ p ∈ cur, p ∈ pf.m_sys_map.map Prod.snd) :
    RunningLive (retireAndAdmit date precision cur pf).2 := by
  have hled := retireAndAdmit_sameLedgers date precision cur pf
  have hkeep := retireScan_keeps date precision pf.m_running_sys_list pf []
  have hmap : (retireAndAdmit date precision cur pf).2.m_sys_map = pf.m_sys_map := by
    rw [hled.2.2.2.1, hkeep.2.2]
  have hsame3 := retireScan_sameRunning date precision pf.m_running_sys_list pf []
  intro p hp
  rw [hmap]
  unfold retireAndAdmit at hp
  generalize retireScan date precision pf.m_running_sys_list pf [] = r3 at hp hsame3
  obtain ⟨o3, pf3⟩ := r3
  cases o3 with
  | returned w =>
    simp only [Outcome.andThen] at hp
    obtain ⟨added, h1, h2⟩ := admitLoop_appended cur (removeLoop w pf3)
    rw [h1, removeLoop_list, hsame3.1] at hp
    rcases List.mem_append.mp hp with h | h
    · exact hlive p (List.mem_of_mem_filter h)
    · exact hcur p (h2 p h).1
  | thrown msg =>
    simp only [Outcome.andThen] at hp
    exact hlive p (hsame3.1 ▸ hp)
  | nullDeref =>
    simp only [Outcome.andThen] at hp
    exact hlive p (hsame3.1 ▸ hp)

theorem executeLoop_map (env : Env) (date : Datetime) (l : List SystemPtr)
    (pf : Portfolio) : (executeLoop env date l pf).2.m_sys_map = pf.m_sys_map := by
  induction l generalizing pf with
  | nil => rfl
  | cons r rest ih =>
    cases r with
    | none => rfl
    | some a =>
      simp only [executeLoop]
      split
      · exact ih _
      · split
        · rfl
        · exact ih _

theorem runMoment_live (env : Env) (date : Datetime) (pf : Portfolio)
    (hlive : RunningLive pf) : RunningLive (runMoment env date pf).2 := by
  by_cases hready : pf.m_is_ready = true
  swap
  · simpa [runMoment, Portfolio.isReady, hready] using hlive
  cases hshadow : pf.m_shadow_tm with
  | none => simpa [runMoment, Portfolio.isReady, hready, hshadow] using hlive
  | some shadow =>
    by_cases hdate : date < shadow.initDatetime
    · simpa [runMoment, Portfolio.isReady, hready, hshadow, hdate] using hlive
    have hsame2 : SameRunning pf (allocated env date pf) :=
      selectAndAllocate_sameRunning env date pf
    have hvals := selectAndAllocate_values env date pf
    have hlive2 : RunningLive (allocated env date pf) := by
      intro p hp
      exact hvals.1 p (hlive p (hsame2.1 ▸ hp))
    cases halloc : (selectAndAllocate env date pf).1 with
    | returned cur =>
      rw [runMoment_eq_of_allocated env date pf shadow cur hready hshadow hdate halloc]
      have h5 := retireAndAdmit_live date shadow.precision cur (allocated env date pf) hlive2
        (hvals.2 cur halloc)
      generalize retireAndAdmit date shadow.precision cur (allocated env date pf) = r5 at h5
      obtain ⟨o5, pf5⟩ := r5
      cases o5 with
      | returned u =>
        simp only [Outcome.andThen]
        intro p hp
        rw [executeLoop_map]
        exact h5 p ((executeLoop_sameRunning env date _ pf5).1 ▸ hp)
      | thrown msg => exact h5
      | nullDeref => exact h5
    | thrown msg =>
      have hpair : selectAndAllocate env date pf = (.thrown msg, allocated env date pf) :=
        Prod.ext halloc rfl
      simp only [runMoment, Portfolio.isReady, hready, hshadow, hdate,
        not_true_eq_false, if_false, hpair, Outcome.andThen]
      exact hlive2
    | nullDeref =>
      have hpair : selectAndAllocate env date pf = (.nullDeref, allocated env date pf) :=
        Prod.ext halloc rfl
      simp only [runMoment, Portfolio.isReady, hready, hshadow, hdate,
        not_true_eq_false, if_false, hpair, Outcome.andThen]
      exact hlive2

/-- In every state reached from a `readyForRun` that returned true by `runMoment` calls,
the running strategies are values of the prototype→live mapping. -/
theorem running_live_of_ready (env0 : Env) (pf0 : Portfolio) (steps : List (Env × Datetime))
    (h : (readyForRun env0 pf0).1 = .returned true) :
    RunningLive (runMoments steps (readyForRun env0 pf0).2) := by
  have h0 : RunningLive (readyForRun env0 pf0).2 := by
    intro p hp
    rw [(readyForRun_true_running env0 pf0 h).1] at hp
    simp at hp
  generalize (readyForRun env0 pf0).2 = pf at h0
  induction steps generalizing pf with
  | nil => exact h0
  | cons s rest ih => exact ih _ (runMoment_live _ _ _ h0)

/-- The running strategies of such a state are live strategies of the state left by
selection and allocation. -/
theorem running_live_after_allocation (env : Env) (date : Datetime) (pf : Portfolio)
    (hlive : RunningLive pf) :
    ∀ p ∈ pf.m_running_sys_list, p ∈ liveSystems (allocated env date pf) := by
  intro p hp
  unfold liveSystems
  rw [List.mem_dedup]
  exact (selectAndAllocate_values env date pf).1 p (hlive p hp)

/-- C2: in a ready state, on a date not before inception, when selection and allocation
returned and left the shadow ledger in place, and the running strategies are values of the
prototype→live mapping (as they are in every state reached from `readyForRun`):
the state after retirement scan, removal and admission scan is an intermediate state of
`runMoment`, and in it the sum of all live-strategy ledger cash plus shadow-ledger cash is
what it was right after allocation.  When moreover the state is consistent and the running
strategies have ledgers, every retired strategy is left with zero cash (its cash `c` was
withdrawn) and the shadow ledger's cash has grown by exactly the sum of the retired
strategies' cash. -/
theorem retirement_conserves_cash (env : Env) (date : Datetime) (pf : Portfolio)
    (shadow : TradeManager) (cur : List SystemPtr) (hready : pf.m_is_ready = true)
    (hshadow : pf.m_shadow_tm = some shadow) (hdate : ¬ date < shadow.initDatetime)
    (halloc : (selectAndAllocate env date pf).1 = .returned cur)
    (hshadow2 : (allocated env date pf).m_shadow_tm.isSome = true)
    (hlive : RunningLive pf) :
    runMoment env date pf =
        Outcome.andThen (retireAndAdmit date shadow.precision cur (allocated env date pf))
          (fun _ pf5 => executeLoop env date pf5.m_running_sys_list pf5) ∧
      totalCash (admitted date shadow.precision cur (allocated env date pf)) =
        totalCash (allocated env date pf) ∧
      (RunningConsistent pf →
        (∀ p ∈ pf.m_running_sys_list, hasLedger (allocated env date pf).sys p = true) →
        (∀ r ∈ pf.m_running_sys_list,
          retireCond shadow.precision (allocated env date pf).sys r = true →
          cashOf (admitted date shadow.precision cur (allocated env date pf)).sys r =
            some 0) ∧
        shadowCash (admitted date shadow.precision cur (allocated env date pf)) =
          shadowCash (allocated env date pf) +
            ((pf.m_running_sys_list.filter
              (retireCond shadow.precision (allocated env date pf).sys)).map
              (cashOr0 (allocated env date pf).sys)).sum) := by
  have hsame2 : SameRunning pf (allocated env date pf) :=
    selectAndAllocate_sameRunning env date pf
  refine ⟨runMoment_eq_of_allocated env date pf shadow cur hready hshadow hdate halloc,
    retireAndAdmit_conserves date shadow.precision cur (allocated env date pf) hshadow2
      (by rw [hsame2.1]; exact running_live_after_allocation env date pf hlive), ?_⟩
  intro hcons hrun
  obtain ⟨pf3, e, _, _, hzero, hsum⟩ := retireScan_spec date shadow.precision
    (allocated env date pf).m_running_sys_list (allocated env date pf) []
    (hsame2.consistent hcons).1 (by rw [hsame2.1]; exact hrun) hshadow2
  have hled := retireAndAdmit_sameLedgers date shadow.precision cur (allocated env date pf)
  rw [e] at hled
  have hsys : (admitted date shadow.precision cur (allocated env date pf)).sys = pf3.sys :=
    hled.1
  have hsh : shadowCash (admitted date shadow.precision cur (allocated env date pf)) =
      shadowCash pf3 := by
    unfold shadowCash admitted
    rw [hled.2.1]
  rw [hsys, hsh, hsum, hsame2.1]
  exact ⟨fun r hr hc => hzero r (hsame2.1 ▸ hr) hc, rfl⟩

theorem retirement_conserves_cash_witness :
    cashOf (allocated dustEnv 21 exampleTick1).sys (some 3) = some (1 / 10000) ∧
      shadowCash (allocated dustEnv 21 exampleTick1) = 98000 - 1 / 10000 ∧
      totalCash (admitted 21 2 [some 3, some 4, some 5] (allocated dustEnv 21 exampleTick1)) =
        totalCash (allocated dustEnv 21 exampleTick1) ∧
      cashOf (admitted 21 2 [some 3, some 4, some 5]
        (allocated dustEnv 21 exampleTick1)).sys (some 3) = some 0 ∧
      shadowCash (admitted 21 2 [some 3, some 4, some 5]
        (allocated dustEnv 21 exampleTick1)) = 98000 :=
  have h := retirement_conserves_cash dustEnv 21 exampleTick1 { exampleTM with cash := 97000 }
    [some 3, some 4, some 5] (by decide!) (by with_unfolding_all rfl) (by decide)
    (by decide!) (by decide!) (by decide!)
  ⟨by decide!, by decide!, h.2.1,
    (h.2.2 (by decide!) (by decide!)).1 (some 3) (by decide!) (by decide!), by decide!⟩

/-- C11, as the code has it: when the Selector, the ledger or the Allocator is unset,
`readyForRun` returns false and only clears the readiness flag; the running set, the running
sequence, the mapping and everything else are left as they were before the call. -/
theorem readyForRun_unset (env : Env) (pf : Portfolio)
    (h : pf.m_se = none ∨ pf.m_tm = none ∨ pf.m_af = none) :
    readyForRun env pf = (.returned false, { pf with m_is_ready := false }) := by
  unfold readyForRun
  rcases h with h | h | h
  · simp [h]
  · simp [h]
  · simp [h]

theorem readyForRun_unset_witness :
    exampleNoAllocator.m_af = none ∧
      readyForRun exampleEnv exampleNoAllocator =
        (.returned false, { exampleNoAllocator with m_is_ready := false }) :=
  ⟨rfl, readyForRun_unset exampleEnv exampleNoAllocator (Or.inr (Or.inr rfl))⟩

/-- Counterexample to C11 as stated: with a null Allocator (Scenario C) on a Portfolio that
has run a tick, `readyForRun` returns false and readiness is false, but the running
sequence, the running set and the mapping are not empty after the call. -/
theorem readyForRun_unset_counterexample :
    exampleNoAllocator.m_af = none ∧
      (readyForRun exampleEnv exampleNoAllocator).1 = .returned false ∧
      (readyForRun exampleEnv exampleNoAllocator).2.m_is_ready = false ∧
      (readyForRun exampleEnv exampleNoAllocator).2.m_running_sys_list =
        [some 3, some 4, some 5] ∧
      (readyForRun exampleEnv exampleNoAllocator).2.m_running_sys_set ≠ ∅ ∧
      (readyForRun exampleEnv exampleNoAllocator).2.m_sys_map =
        [(some 0, some 3), (some 1, some 4), (some 2, some 5)] := by
  decide!

theorem reset_tm_twice (env : Env) (t : Option TradeManager)
    (h : ∀ tm, env.tmReset (env.tmReset tm) = env.tmReset tm) :
    (t.map env.tmReset).map env.tmReset = t.map env.tmReset := by
  cases t with
  | none => rfl
  | some tm => simp [h]

/-- C15: after `reset` the readiness flag is false and the running set, the running sequence
and the mapping are empty, whichever collaborators are set; and when the ledger's own reset
is idempotent, a second `reset` leaves the state, the ghost trace of collaborator
invocations apart, exactly as the first one left it. -/
theorem reset_idempotent (env : Env) (pf : Portfolio)
    (h : ∀ tm, env.tmReset (env.tmReset tm) = env.tmReset tm) :
    (reset env pf).m_is_ready = false ∧ (reset env pf).m_running_sys_set = ∅ ∧
      (reset env pf).m_running_sys_list = [] ∧ (reset env pf).m_sys_map = [] ∧
      observable (reset env (reset env pf)) = observable (reset env pf) := by
  refine ⟨rfl, rfl, rfl, rfl, ?_⟩
  simp only [observable, reset, reset_tm_twice env _ h]

theorem reset_idempotent_witness :
    (∀ tm, exampleEnv.tmReset (exampleEnv.tmReset tm) = exampleEnv.tmReset tm) ∧
      (reset exampleEnv exampleNoAllocator).m_running_sys_list = [] ∧
      observable (reset exampleEnv (reset exampleEnv exampleNoAllocator)) =
        observable (reset exampleEnv exampleNoAllocator) :=
  have h := reset_idempotent exampleEnv exampleNoAllocator (fun _ => rfl)
  ⟨fun _ => rfl, h.2.2.1, h.2.2.2.2⟩

/-- C19, the code at the failing input: the shadow ledger rounds to two decimals (precision
parameter 2, rounding threshold 0.01); after allocation the running system at address 3 has
zero position and cash 1, well above 0.01; `runMoment` retires it all the same, because the
scan compares cash with the number of decimals, and sweeps its cash into the shadow
ledger. -/
theorem retirement_threshold_is_digit_count :
    exampleTick1.m_shadow_tm.map (fun t => t.precision) = some 2 ∧
      roundingThreshold 2 = 1 / 100 ∧
      some 3 ∈ exampleTick1.m_running_sys_list ∧
      cashOf (allocated unitEnv 21 exampleTick1).sys (some 3) = some 1 ∧
      ((allocated unitEnv 21 exampleTick1).sys 3).tm.map (fun t => t.getPosition 3) =
        some 0 ∧
      roundingThreshold 2 < 1 ∧
      (runMoment unitEnv 21 exampleTick1).1 = .returned () ∧
      (runMoment unitEnv 21 exampleTick1).2.m_running_sys_list = [some 4, some 5] ∧
      some 3 ∉ (runMoment unitEnv 21 exampleTick1).2.m_running_sys_set ∧
      cashOf (runMoment unitEnv 21 exampleTick1).2.sys (some 3) = some 0 ∧
      shadowCash (runMoment unitEnv 21 exampleTick1).2 = 98000 := by
  decide!

/-- C13, the code at the failing input: the Selector names a prototype that is not a key of
the mapping; after `runMoment` the mapping has one entry more, that prototype mapped to a
null pointer. -/
theorem mapping_grows_on_stray_prototype :
    examplePrepared.m_is_ready = true ∧
      examplePrepared.m_sys_map = [(some 0, some 3), (some 1, some 4), (some 2, some 5)] ∧
      strayEnv.getSelectedSystemList 20 = [some 7] ∧
      (runMoment strayEnv 20 examplePrepared).2.m_sys_map =
        [(some 0, some 3), (some 1, some 4), (some 2, some 5), (some 7, none)] ∧
      (runMoment strayEnv 20 examplePrepared).2.m_sys_map ≠ examplePrepared.m_sys_map := by
  decide!

/-- C14, the code at the failing input: the Selector names a prototype that is not a key of
the mapping; `runMoment` does not throw: the lookup yields a null live strategy, the
Allocator is invoked with it in the selected list, and the call ends in the admission scan
with a null dereference. -/
theorem stray_prototype_reaches_allocator :
    examplePrepared.m_is_ready = true ∧
      examplePrepared.m_sys_map.lookup (some 7) = none ∧
      strayEnv.getSelectedSystemList 20 = [some 7] ∧
      (selectAndAllocate strayEnv 20 examplePrepared).1 = .returned [none] ∧
      Call.af_adjustFunds 20 [none] [] ∈ (runMoment strayEnv 20 examplePrepared).2.calls ∧
      (runMoment strayEnv 20 examplePrepared).1 = .nullDeref ∧
      (∀ msg, (runMoment strayEnv 20 examplePrepared).1 ≠ .thrown msg) := by
  refine ⟨by decide!, by decide!, by decide!, by decide!, by decide!, by decide!, ?_⟩
  intro msg h
  have h2 : (runMoment strayEnv 20 examplePrepared).1 = .nullDeref := by decide!
  rw [h2] at h
  cases h

theorem holdsCapital_of_not_retire (precision : Int) (sys : Nat → System) (p : SystemPtr)
    (hprec : 0 ≤ precision) (hled : hasLedger sys p = true)
    (hc : retireCond precision sys p = false) : holdsCapital sys p = true := by
  cases p with
  | none => simp [hasLedger, cashOf] at hled
  | some a =>
    cases htm : (sys a).tm with
    | none => simp [hasLedger, cashOf, htm] at hled
    | some tm =>
      have h : ¬ (tm.getPosition (sys a).stock = 0 ∧ tm.currentCash ≤ (precision : ℚ)) := by
        simpa [retireCond, htm] using hc
      simp only [holdsCapital, htm, decide_eq_true_eq]
      by_cases hpos : tm.getPosition (sys a).stock = 0
      · right
        have hlt : (precision : ℚ) < tm.currentCash := by
          by_contra hle
          exact h ⟨hpos, not_lt.mp hle⟩
        have h0 : (0 : ℚ) ≤ (precision : ℚ) := by exact_mod_cast hprec
        exact lt_of_le_of_lt h0 hlt
      · exact Or.inl hpos

theorem holdsCapital_of_cash_pos (sys : Nat → System) (p : SystemPtr)
    (hled : hasLedger sys p = true) (hc : 0 < cashOr0 sys p) : holdsCapital sys p = true := by
  cases p with
  | none => simp [hasLedger, cashOf] at hled
  | some a =>
    cases htm : (sys a).tm with
    | none => simp [hasLedger, cashOf, htm] at hled
    | some tm =>
      simp only [holdsCapital, htm, decide_eq_true_eq]
      right
      simpa [cashOr0, cashOf, htm] using hc

theorem holdsCapital_congr (sys sys1 : Nat → System) (p : SystemPtr)
    (h : ∀ a, p = some a → sys1 a = sys a) (hc : holdsCapital sys p = true) :
    holdsCapital sys1 p = true := by
  cases p with
  | none => exact hc
  | some a =>
    have e := h a rfl
    simpa [holdsCapital, e] using hc

/-- C20: in a ready, consistent state, on a date not before inception, with a non-negative
precision, when selection and allocation returned and left the shadow ledger in place and
every running and every selected strategy with a ledger: the retirement and admission scans
return, and every strategy of the running sequence they leave, the sequence that
`runMoment` goes on to execute, holds a nonzero position on its bound tradable or strictly
positive ledger cash in the object store at that moment. -/
theorem executed_hold_capital (env : Env) (date : Datetime) (pf : Portfolio)
    (shadow : TradeManager) (cur : List SystemPtr) (hready : pf.m_is_ready = true)
    (hshadow : pf.m_shadow_tm = some shadow) (hdate : ¬ date < shadow.initDatetime)
    (halloc : (selectAndAllocate env date pf).1 = .returned cur)
    (hcons : RunningConsistent pf)
    (hrun : ∀ p ∈ pf.m_running_sys_list, hasLedger (allocated env date pf).sys p = true)
    (hsel : ∀ p ∈ cur, hasLedger (allocated env date pf).sys p = true)
    (hshadow2 : (allocated env date pf).m_shadow_tm.isSome = true)
    (hprec : 0 ≤ shadow.precision) :
    runMoment env date pf =
        Outcome.andThen (retireAndAdmit date shadow.precision cur (allocated env date pf))
          (fun _ pf5 => executeLoop env date pf5.m_running_sys_list pf5) ∧
      (retireAndAdmit date shadow.precision cur (allocated env date pf)).1 = .returned () ∧
      ∀ p ∈ (admitted date shadow.precision cur (allocated env date pf)).m_running_sys_list,
        holdsCapital (admitted date shadow.precision cur (allocated env date pf)).sys p =
          true := by
  have hsame2 : SameRunning pf (allocated env date pf) :=
    selectAndAllocate_sameRunning env date pf
  have hrun2 : ∀ p ∈ (allocated env date pf).m_running_sys_list,
      hasLedger (allocated env date pf).sys p = true := by
    rw [hsame2.1]; exact hrun
  obtain ⟨pf5, e, hlist, hsys⟩ := retireAndAdmit_spec date shadow.precision cur
    (allocated env date pf) (hsame2.consistent hcons) hrun2 hsel hshadow2
  obtain ⟨pf3, e3, _, hframe, _, _⟩ := retireScan_spec date shadow.precision
    (allocated env date pf).m_running_sys_list (allocated env date pf) []
    (hsame2.consistent hcons).1 hrun2 hshadow2
  rw [e3] at hsys
  simp only at hsys
  have hadm : admitted date shadow.precision cur (allocated env date pf) = pf5 := by
    unfold admitted
    rw [e]
  refine ⟨runMoment_eq_of_allocated env date pf shadow cur hready hshadow hdate halloc,
    by rw [e], ?_⟩
  rw [hadm, hsys]
  intro p hp
  rw [hlist, List.mem_append] at hp
  rcases hp with hp | hp
  · obtain ⟨hp1, hp2⟩ := List.mem_filter.mp hp
    have hc : retireCond shadow.precision (allocated env date pf).sys p = false := by
      simpa using hp2
    apply holdsCapital_congr (allocated env date pf).sys pf3.sys p
    · intro a ha
      apply hframe a
      rintro ⟨_, h2⟩
      rw [← ha, hc] at h2
      cases h2
    · exact holdsCapital_of_not_retire shadow.precision _ p hprec (hrun2 p hp1) hc
  · obtain ⟨hp1, hp2, hp3⟩ := (mem_newlyAdmitted _ _ _ _).mp hp
    apply holdsCapital_congr (allocated env date pf).sys pf3.sys p
    · intro a ha
      apply hframe a
      rintro ⟨h1, _⟩
      exact hp3 (ha ▸ h1)
    · exact holdsCapital_of_cash_pos _ p (hsel p hp1) hp2

theorem executed_hold_capital_witness :
    (0 : Int) ≤ 2 ∧
      (admitted 21 2 [some 3, some 4, some 5]
        (allocated dustEnv 21 exampleTick1)).m_running_sys_list = [some 4, some 5] ∧
      holdsCapital (admitted 21 2 [some 3, some 4, some 5]
        (allocated dustEnv 21 exampleTick1)).sys (some 4) = true :=
  ⟨by decide, by decide!,
    (executed_hold_capital dustEnv 21 exampleTick1 { exampleTM with cash := 97000 }
      [some 3, some 4, some 5] (by decide!) (by with_unfolding_all rfl) (by decide)
      (by decide!) (by decide!) (by decide!) (by decide!) (by decide!) (by decide)).2.2
      (some 4) (by decide!)⟩

theorem selectLoop_map_of_keys (l : List SystemPtr) (pf : Portfolio) (cur : List SystemPtr)
    (hkeys : ∀ k ∈ l, (pf.m_sys_map.lookup k).isSome = true) :
    (selectLoop l pf cur).2.m_sys_map = pf.m_sys_map := by
  induction l generalizing pf cur with
  | nil => rfl
  | cons k rest ih =>
    obtain ⟨v, hv⟩ := Option.isSome_iff_exists.mp (hkeys k (List.mem_cons_self _ _))
    have hidx : mapIndex pf.m_sys_map k = (v, pf.m_sys_map) := by
      simp [mapIndex, hv]
    have hrest : ∀ k1 ∈ rest, (pf.m_sys_map.lookup k1).isSome = true :=
      fun k1 h1 => hkeys k1 (List.mem_cons_of_mem _ h1)
    simp only [selectLoop, hidx]
    split
    · split
      · rfl
      · exact ih _ _ hrest
    · exact ih _ _ hrest

theorem retireAndAdmit_map (date : Datetime) (precision : Int) (cur : List SystemPtr)
    (pf : Portfolio) : (retireAndAdmit date precision cur pf).2.m_sys_map = pf.m_sys_map := by
  rw [(retireAndAdmit_sameLedgers date precision cur pf).2.2.2.1,
    (retireScan_keeps date precision pf.m_running_sys_list pf []).2.2]

theorem andThen_map {α β : Type} (r : Outcome α × Portfolio)
    (k : α → Portfolio → Outcome β × Portfolio)
    (hk : ∀ v s, (k v s).2.m_sys_map = s.m_sys_map) :
    (Outcome.andThen r k).2.m_sys_map = r.2.m_sys_map := by
  obtain ⟨o, s⟩ := r
  cases o with
  | returned v => exact hk v s
  | thrown msg => rfl
  | nullDeref => rfl

theorem selectAndAllocate_map_of_keys (env : Env) (date : Datetime) (pf : Portfolio)
    (hkeys : ∀ k ∈ env.getSelectedSystemList date, (pf.m_sys_map.lookup k).isSome = true) :
    (selectAndAllocate env date pf).2.m_sys_map = pf.m_sys_map := by
  unfold selectAndAllocate
  refine (andThen_map _ _ (fun cur s => (allocateStage_map env date cur s).1)).trans ?_
  unfold selectStage
  split
  · rfl
  · exact selectLoop_map_of_keys _ _ _ hkeys

/-- When every prototype the Selector returns is a key of the mapping, `runMoment` leaves
the mapping as it was. -/
theorem runMoment_map_of_keys (env : Env) (date : Datetime) (pf : Portfolio)
    (hkeys : ∀ k ∈ env.getSelectedSystemList date, (pf.m_sys_map.lookup k).isSome = true) :
    (runMoment env date pf).2.m_sys_map = pf.m_sys_map := by
  unfold runMoment
  split
  · rfl
  · split
    · rfl
    · split
      · rfl
      · dsimp only
        refine (andThen_map _ _ ?_).trans (selectAndAllocate_map_of_keys env date pf hkeys)
        intro cur s
        refine (andThen_map _ _ ?_).trans (retireAndAdmit_map _ _ _ _)
        intro _ s2
        exact executeLoop_map env date _ s2

theorem prepareLoop_cons (env : Env) (pro_tm : TradeManager) (pro_sys : SystemPtr)
    (rest : List SystemPtr) (i : Nat) (pf : Portfolio) :
    prepareLoop env pro_tm (pro_sys :: rest) i pf =
      Outcome.andThen (prepareStep env pro_tm pro_sys i pf)
        fun _ s => prepareLoop env pro_tm rest (i + 1) s := by
  cases pro_sys with
  | none => rfl
  | some p =>
    simp only [prepareLoop, prepareStep]
    split
    · simp only [Outcome.andThen]
      split <;> rfl
    · split
      · rfl
      · simp only [Outcome.andThen]
        split <;> rfl

theorem tm_update_kdata (sys : Nat → System) (p b : Nat) (k : KData) :
    (Function.update sys p { sys p with kdata := k } b).tm = (sys b).tm := by
  by_cases h : b = p
  · subst h; simp
  · simp [Function.update_noteq h]

theorem prepareStep_spec (env : Env) (pro_tm : TradeManager) (pro_sys : SystemPtr) (i : Nat)
    (pf s : Portfolio) (h : prepareStep env pro_tm pro_sys i pf = (.returned (), s)) :
    ∃ p, pro_sys = some p ∧
      s.m_sys_map = mapAssign pf.m_sys_map (some p) (some pf.next) ∧
      s.next = pf.next + 1 ∧
      BoundTo pro_tm s.sys pf.next ∧
      (∀ b, b ≠ pf.next → (pf.sys b).tm.isSome = true → (s.sys b).tm = (pf.sys b).tm) ∧
      s.m_tm = pf.m_tm := by
  cases pro_sys with
  | none => simp [prepareStep] at h
  | some p =>
    refine ⟨p, rfl, ?_⟩
    simp only [prepareStep] at h
    split at h
    · rename_i t ht
      simp only [Outcome.andThen] at h
      split at h
      · simp only [Prod.mk.injEq, true_and] at h
        subst h
        refine ⟨rfl, rfl, ⟨"TM_SUB" ++ toString i, ?_⟩, ?_, rfl⟩
        · rw [tm_update_kdata, tm_update_kdata, Function.update_same]
          rfl
        · intro b hb _
          rw [tm_update_kdata, tm_update_kdata, Function.update_noteq hb,
            Function.update_noteq hb]
      · simp only [Prod.mk.injEq, true_and] at h
        subst h
        refine ⟨rfl, rfl, ⟨"TM_SUB" ++ toString i, ?_⟩, ?_, rfl⟩
        · simp only [Function.update_same, TradeManager.clone]
        · intro b hb _
          simp only [Function.update_noteq hb]
    · rename_i ht
      split at h
      · simp [Outcome.andThen] at h
      · rename_i tm htm
        simp only [Outcome.andThen] at h
        have hframe : ∀ b, b ≠ pf.next → (pf.sys b).tm.isSome = true → b ≠ p := by
          intro b hb hsome hbp
          subst hbp
          simp only [Function.update_noteq hb] at ht
          rw [ht] at hsome
          cases hsome
        split at h
        · simp only [Prod.mk.injEq, true_and] at h
          subst h
          refine ⟨rfl, rfl, ⟨"TM_SUB" ++ toString i, ?_⟩, ?_, rfl⟩
          · rw [tm_update_kdata, tm_update_kdata, Function.update_same]
            rfl
          · intro b hb hsome
            rw [tm_update_kdata, tm_update_kdata, Function.update_noteq hb,
              Function.update_noteq (hframe b hb hsome), Function.update_noteq hb]
        · simp only [Prod.mk.injEq, true_and] at h
          subst h
          refine ⟨rfl, rfl, ⟨"TM_SUB" ++ toString i, ?_⟩, ?_, rfl⟩
          · simp only [Function.update_same, TradeManager.clone]
          · intro b hb hsome
            simp only [Function.update_noteq hb, Function.update_noteq (hframe b hb hsome)]

theorem lookup_isSome_iff (m : List (SystemPtr × SystemPtr)) (k : SystemPtr) :
    (m.lookup k).isSome = true ↔ k ∈ m.map Prod.fst := by
  induction m with
  | nil => simp
  | cons kv rest ih =>
    obtain ⟨k1, v1⟩ := kv
    by_cases hk : k = k1
    · subst hk
      simp [List.lookup_cons]
    · have hb : (k == k1) = false := by simpa using hk
      simp only [List.lookup_cons, hb, List.map_cons, List.mem_cons, hk, false_or]
      exact ih

theorem mapAssign_keys (m : List (SystemPtr × SystemPtr)) (k v : SystemPtr) :
    ((m.map Prod.fst).Nodup → ((mapAssign m k v).map Prod.fst).Nodup) ∧
      ∀ k1, k1 ∈ (mapAssign m k v).map Prod.fst ↔ k1 ∈ m.map Prod.fst ∨ k1 = k := by
  unfold mapAssign
  cases hl : m.lookup k with
  | some v0 =>
    have hmem : k ∈ m.map Prod.fst := (lookup_isSome_iff m k).mp (by simp [hl])
    have hfst : (m.map (fun kv => if kv.1 = k then (kv.1, v) else kv)).map Prod.fst =
        m.map Prod.fst := by
      rw [List.map_map]
      apply List.map_congr_left
      intro kv _
      simp only [Function.comp]
      split <;> rfl
    simp only [hfst]
    refine ⟨fun h => h, ?_⟩
    intro k1
    constructor
    · exact Or.inl
    · rintro (h | h)
      · exact h
      · exact h ▸ hmem
  | none =>
    have hnot : k ∉ m.map Prod.fst := by
      intro h
      have := (lookup_isSome_iff m k).mpr h
      simp [hl] at this
    constructor
    · intro h
      simp only [List.map_append, List.map_cons, List.map_nil]
      rw [List.nodup_append]
      refine ⟨h, List.nodup_singleton k, ?_⟩
      intro a ha hak
      simp only [List.mem_singleton] at hak
      exact hnot (hak ▸ ha)
    · intro k1
      simp only [List.map_append, List.map_cons, List.map_nil, List.mem_append,
        List.mem_singleton]

theorem mapAssign_mem (m : List (SystemPtr × SystemPtr)) (k v : SystemPtr)
    (kv : SystemPtr × SystemPtr) (h : kv ∈ mapAssign m k v) : kv ∈ m ∨ kv.2 = v := by
  unfold mapAssign at h
  split at h
  · obtain ⟨kv0, h0, h1⟩ := List.mem_map.mp h
    by_cases hk : kv0.1 = k
    · rw [if_pos hk] at h1
      exact Or.inr (h1 ▸ rfl)
    · rw [if_neg hk] at h1
      exact Or.inl (h1 ▸ h0)
  · rcases List.mem_append.mp h with h1 | h1
    · exact Or.inl h1
    · simp only [List.mem_singleton] at h1
      exact Or.inr (h1 ▸ rfl)

theorem replace_values_nodup (m : List (SystemPtr × SystemPtr)) (k v : SystemPtr)
    (hk : (m.map Prod.fst).Nodup) (hv : (m.map Prod.snd).Nodup)
    (hnew : v ∉ m.map Prod.snd) :
    ((m.map (fun kv => if kv.1 = k then (kv.1, v) else kv)).map Prod.snd).Nodup := by
  induction m with
  | nil => simp
  | cons kv rest ih =>
    obtain ⟨k1, v1⟩ := kv
    simp only [List.map_cons, List.nodup_cons, List.mem_cons, not_or] at hk hv hnew ⊢
    have hsub : ∀ x ∈ (rest.map (fun kv => if kv.1 = k then (kv.1, v) else kv)).map Prod.snd,
        x ∈ rest.map Prod.snd ∨ x = v := by
      intro x hx
      obtain ⟨kv1, h1, h2⟩ := List.mem_map.mp hx
      obtain ⟨kv0, h3, h4⟩ := List.mem_map.mp h1
      by_cases hc : kv0.1 = k
      · rw [if_pos hc] at h4
        exact Or.inr (by rw [← h2, ← h4])
      · rw [if_neg hc] at h4
        exact Or.inl (List.mem_map.mpr ⟨kv0, h3, by rw [← h2, ← h4]⟩)
    refine ⟨?_, ih hk.2 hv.2 hnew.2⟩
    by_cases hc : k1 = k
    · rw [if_pos hc]
      simp only
      have hrest : rest.map (fun kv => if kv.1 = k then (kv.1, v) else kv) = rest := by
        conv_rhs => rw [← List.map_id rest]
        apply List.map_congr_left
        intro kv0 h0
        have : kv0.1 ≠ k := by
          intro h
          apply hk.1
          rw [hc, ← h]
          exact List.mem_map.mpr ⟨kv0, h0, rfl⟩
        simp [this]
      rw [hrest]
      exact hnew.2
    · rw [if_neg hc]
      simp only
      intro hx
      rcases hsub v1 hx with h | h
      · exact hv.1 h
      · exact hnew.1 h.symm

theorem mapAssign_values_nodup (m : List (SystemPtr × SystemPtr)) (k v : SystemPtr)
    (hk : (m.map Prod.fst).Nodup) (hv : (m.map Prod.snd).Nodup)
    (hnew : v ∉ m.map Prod.snd) : ((mapAssign m k v).map Prod.snd).Nodup := by
  unfold mapAssign
  split
  · exact replace_values_nodup m k v hk hv hnew
  · simp only [List.map_append, List.map_cons, List.map_nil]
    rw [List.nodup_append]
    refine ⟨hv, List.nodup_singleton v, ?_⟩
    intro a ha hav
    simp only [List.mem_singleton] at hav
    exact hnew (hav ▸ ha)

theorem andThen_eq_returned {α β σ : Type} (r : Outcome α × σ) (k : α → σ → Outcome β × σ)
    (v : β) (s : σ) (h : Outcome.andThen r k = (.returned v, s)) :
    ∃ w, r = (.returned w, r.2) ∧ k w r.2 = (.returned v, s) := by
  obtain ⟨o, s0⟩ := r
  cases o with
  | returned w => exact ⟨w, rfl, h⟩
  | thrown msg => simp [Outcome.andThen] at h
  | nullDeref => simp [Outcome.andThen] at h

theorem prepareStep_prepared (env : Env) (pro_tm : TradeManager) (pro_sys : SystemPtr)
    (i n0 : Nat) (pf s : Portfolio)
    (h : prepareStep env pro_tm pro_sys i pf = (.returned (), s))
    (hinv : PreparedMap pro_tm n0 pf) (hn : n0 ≤ pf.next) :
    PreparedMap pro_tm n0 s ∧ n0 ≤ s.next ∧ s.m_tm = pf.m_tm ∧
      ∀ k, k ∈ s.m_sys_map.map Prod.fst ↔ k ∈ pf.m_sys_map.map Prod.fst ∨ k = pro_sys := by
  obtain ⟨p, hp, hmap, hnext, hbound, hframe, htm⟩ := prepareStep_spec env pro_tm pro_sys i pf s h
  obtain ⟨hk, hv, hall⟩ := hinv
  subst hp
  have hfresh : some pf.next ∉ pf.m_sys_map.map Prod.snd := by
    intro hmem
    obtain ⟨kv, hkv, hkv2⟩ := List.mem_map.mp hmem
    obtain ⟨a, ha, _, hlt, _⟩ := hall kv hkv
    rw [ha] at hkv2
    have := Option.some.inj hkv2
    omega
  refine ⟨⟨?_, ?_, ?_⟩, by omega, htm, ?_⟩
  · rw [hmap]
    exact (mapAssign_keys _ _ _).1 hk
  · rw [hmap]
    exact mapAssign_values_nodup _ _ _ hk hv hfresh
  · intro kv hkv
    rw [hmap] at hkv
    rcases mapAssign_mem _ _ _ kv hkv with h1 | h1
    · obtain ⟨a, ha, hge, hlt, name, hb⟩ := hall kv h1
      refine ⟨a, ha, hge, by omega, name, ?_⟩
      rw [hframe a (by omega) (by simp [hb]), hb]
    · exact ⟨pf.next, h1, hn, by omega, hbound⟩
  · intro k
    rw [hmap]
    exact (mapAssign_keys _ _ _).2 k

theorem prepareLoop_prepared (env : Env) (pro_tm : TradeManager) (l : List SystemPtr)
    (i n0 : Nat) (pf s : Portfolio)
    (h : prepareLoop env pro_tm l i pf = (.returned (), s))
    (hinv : PreparedMap pro_tm n0 pf) (hn : n0 ≤ pf.next) :
    PreparedMap pro_tm n0 s ∧ s.m_tm = pf.m_tm ∧
      ∀ k, k ∈ s.m_sys_map.map Prod.fst ↔ k ∈ pf.m_sys_map.map Prod.fst ∨ k ∈ l := by
  induction l generalizing pf i with
  | nil =>
    simp only [prepareLoop, Prod.mk.injEq, true_and] at h
    subst h
    exact ⟨hinv, rfl, by simp⟩
  | cons x rest ih =>
    rw [prepareLoop_cons] at h
    obtain ⟨_, h1, h2⟩ := andThen_eq_returned _ _ _ _ h
    obtain ⟨hinv1, hn1, htm1, hkeys1⟩ := prepareStep_prepared env pro_tm x i n0 pf _ h1 hinv hn
    obtain ⟨hinv2, htm2, hkeys2⟩ := ih _ _ h2 hinv1 hn1
    refine ⟨hinv2, htm2.trans htm1, ?_⟩
    intro k
    rw [hkeys2 k, hkeys1 k, List.mem_cons]
    constructor
    · rintro ((h | h) | h)
      · exact Or.inl h
      · exact Or.inr (Or.inl h)
      · exact Or.inr (Or.inr h)
    · rintro (h | h | h)
      · exact Or.inl (Or.inl h)
      · exact Or.inl (Or.inr h)
      · exact Or.inr h

theorem prepareAll_eq (env : Env) (pf : Portfolio) (tm : TradeManager)
    (hm : (reset env pf).m_tm = some tm) :
    prepareAll env pf =
      Outcome.andThen
        (prepareLoop env (crtTM tm.initDatetime 0 tm.costFunc "TM_SUB") env.getAllSystemList 0
          (loopStart env pf tm))
        fun _ pf3 => (.returned true, { pf3 with m_is_ready := true }) := by
  unfold prepareAll
  dsimp only
  split
  · rename_i heq
    rw [hm] at heq
    cases heq
  · rename_i tm1 heq
    rw [hm] at heq
    cases heq
    rfl

/-- C12: after a `readyForRun` that returned true, whatever the state before it: the running
set and the running sequence are empty; the mapping has one entry per distinct prototype of
the Selector's universe and no other; its values are distinct non-null pointers to objects
created by this call, each bound to the sub-ledger that `crtTM` created from the master
ledger's inception date and cost model with zero cash, so each live strategy's ledger cash
is zero. -/
theorem readyForRun_prepares (env : Env) (pf : Portfolio)
    (h : (readyForRun env pf).1 = .returned true) :
    (readyForRun env pf).2.m_running_sys_set = ∅ ∧
      (readyForRun env pf).2.m_running_sys_list = [] ∧
      ((readyForRun env pf).2.m_sys_map.map Prod.fst).Nodup ∧
      (∀ k, k ∈ (readyForRun env pf).2.m_sys_map.map Prod.fst ↔ k ∈ env.getAllSystemList) ∧
      ((readyForRun env pf).2.m_sys_map.map Prod.snd).Nodup ∧
      ∃ master, (readyForRun env pf).2.m_tm = some master ∧
        ∀ kv ∈ (readyForRun env pf).2.m_sys_map,
          ∃ a, kv.2 = some a ∧ pf.next ≤ a ∧
            BoundTo (crtTM master.initDatetime 0 master.costFunc "TM_SUB")
              (readyForRun env pf).2.sys a ∧
            cashOf (readyForRun env pf).2.sys kv.2 = some 0 := by
  obtain ⟨hl, hs⟩ := readyForRun_true_running env pf h
  refine ⟨hs, hl, ?_⟩
  unfold readyForRun at h ⊢
  split_ifs at h ⊢
  · simp at h
  · simp at h
  · simp at h
  · cases hm : (reset env pf).m_tm with
    | none => simp [prepareAll, hm] at h
    | some tm =>
      rw [prepareAll_eq env pf tm hm] at h ⊢
      generalize hloop : prepareLoop env (crtTM tm.initDatetime 0 tm.costFunc "TM_SUB")
          env.getAllSystemList 0 (loopStart env pf tm) = r at h ⊢
      obtain ⟨o, s⟩ := r
      cases o with
      | thrown msg => simp [Outcome.andThen] at h
      | nullDeref => simp [Outcome.andThen] at h
      | returned u =>
          simp only [Outcome.andThen]
          obtain ⟨⟨hk, hv, hall⟩, htm, hkeys⟩ := prepareLoop_prepared env _ _ 0 pf.next _ s hloop
            ⟨by simp [loopStart, reset], by simp [loopStart, reset],
              by simp [loopStart, reset]⟩ (by simp [loopStart, reset])
          refine ⟨hk, ?_, hv, tm, ?_, ?_⟩
          · intro k
            rw [hkeys k]
            simp [loopStart, reset]
          · rw [htm]
            exact hm
          · intro kv hkv
            obtain ⟨a, ha, hge, _, name, hb⟩ := hall kv hkv
            refine ⟨a, ha, hge, ⟨name, hb⟩, ?_⟩
            rw [ha]
            simp [cashOf, hb, crtTM, TradeManager.currentCash]

theorem readyForRun_prepares_witness :
    (readyForRun exampleEnv examplePortfolio).1 = .returned true ∧
      (readyForRun exampleEnv examplePortfolio).2.m_sys_map =
        [(some 0, some 3), (some 1, some 4), (some 2, some 5)] ∧
      ((readyForRun exampleEnv examplePortfolio).2.m_sys_map.map Prod.snd).Nodup ∧
      (readyForRun exampleEnv examplePortfolio).2.m_running_sys_list = [] :=
  have h := readyForRun_prepares exampleEnv examplePortfolio (by decide!)
  ⟨by decide!, by decide!, h.2.2.2.2.1, h.2.1⟩

theorem addCurve_length (result curve : List price_t) :
    (addCurve result curve).length = result.length := by
  simp [addCurve]

theorem addCurve_getD (result curve : List price_t) (i : Nat) (h : i < result.length) :
    (addCurve result curve).getD i 0 = result.getD i 0 + curve.getD i 0 := by
  simp [addCurve, List.getD_eq_getElem?_getD, List.getElem?_map, List.getElem?_range, h]

theorem hasLedger_iff_ledgerOf (sys : Nat → System) (p : SystemPtr) :
    hasLedger sys p = true ↔ ∃ tm, ledgerOf sys p = some tm := by
  cases p with
  | none => simp [hasLedger, cashOf, ledgerOf]
  | some a =>
    cases h : (sys a).tm <;> simp [hasLedger, cashOf, ledgerOf, h]

theorem curveLoop_spec (rep : Reports) (dates : List Datetime) (ktype : KType)
    (sys : Nat → System) (l : List SystemPtr) (result : List price_t)
    (hled : ∀ p ∈ l, hasLedger sys p = true) :
    curveLoop rep dates ktype sys l result =
      .returned ((List.range result.length).map fun i =>
        result.getD i 0 + liveCurveSum rep dates ktype sys l i) := by
  induction l generalizing result with
  | nil =>
    simp only [curveLoop, liveCurveSum, List.map_nil, List.sum_nil, add_zero]
    congr 1
    apply List.ext_getElem
    · simp
    · intro i h1 h2
      simp [List.getD_eq_getElem?_getD, h1]
  | cons p rest ih =>
    have hrest : ∀ q ∈ rest, hasLedger sys q = true :=
      fun q hq => hled q (List.mem_cons_of_mem _ hq)
    obtain ⟨tm, htm⟩ := (hasLedger_iff_ledgerOf sys p).mp (hled p (List.mem_cons_self _ _))
    cases p with
    | none => simp [ledgerOf] at htm
    | some a =>
      simp only [ledgerOf] at htm
      simp only [curveLoop, htm]
      rw [ih _ hrest, addCurve_length]
      congr 1
      apply List.map_congr_left
      intro i hi
      rw [addCurve_getD _ _ _ (List.mem_range.mp hi)]
      simp only [liveCurveSum, List.map_cons, List.sum_cons, curveAt, ledgerOf, htm]
      ring

/-- What `getFundsCurve` computes when every value of the mapping has a ledger: one entry
per date, the sum over the live strategies of the mapping of their ledgers' funds-curve
values at that date, and nothing else. -/
theorem getFundsCurve_live_only (rep : Reports) (dates : List Datetime) (ktype : KType)
    (pf : Portfolio) (hled : ∀ p ∈ pf.m_sys_map.map Prod.snd, hasLedger pf.sys p = true) :
    getFundsCurve rep dates ktype pf =
      .returned ((List.range dates.length).map fun i =>
        liveCurveSum rep dates ktype pf.sys (pf.m_sys_map.map Prod.snd) i) := by
  unfold getFundsCurve
  rw [curveLoop_spec rep dates ktype pf.sys _ _ hled]
  congr 1
  simp only [List.length_replicate]
  apply List.map_congr_left
  intro i hi
  have : (List.replicate dates.length (0 : price_t)).getD i 0 = 0 := by
    simp only [List.getD_eq_getElem?_getD, List.getElem?_replicate]
    split <;> rfl
  rw [this, zero_add]

/-- C16, the code at the failing input: on the example after its first tick (three live
strategies with cash 1000 each, shadow ledger cash 97000) and the dates 20 and 21,
`getFundsCurve` returns one entry per date, the live strategies' 3000, without the shadow
ledger's cash; the sum the claim words is 100000, which is also what `getFunds(date, ktype)`
reports. -/
theorem funds_curve_omits_shadow :
    getFundsCurve cashReports [20, 21] 0 exampleTick1 = .returned [3000, 3000] ∧
      fundsCurveSpec cashReports [20, 21] 0 exampleTick1 = [100000, 100000] ∧
      shadowCash exampleTick1 = 97000 ∧
      getFundsAt cashReports 20 0 exampleTick1 = .returned ⟨100000, 0⟩ := by
  decide!

theorem sumFunds_spec (report : TradeManager → FundsRecord) (sys : Nat → System)
    (l : List SystemPtr) (total : FundsRecord) (hled : ∀ p ∈ l, hasLedger sys p = true) :
    sumFunds report sys l total =
      .returned (l.foldl (fun acc p => acc.add (fundsOf report sys p)) total) := by
  induction l generalizing total with
  | nil => rfl
  | cons p rest ih =>
    have hrest : ∀ q ∈ rest, hasLedger sys q = true :=
      fun q hq => hled q (List.mem_cons_of_mem _ hq)
    obtain ⟨tm, htm⟩ := (hasLedger_iff_ledgerOf sys p).mp (hled p (List.mem_cons_self _ _))
    cases p with
    | none => simp [ledgerOf] at htm
    | some a =>
      simp only [ledgerOf] at htm
      simp only [sumFunds, htm, List.foldl_cons, fundsOf, ledgerOf]
      exact ih _ hrest

/-- What `getFunds(ktype)` computes when the shadow ledger is set and every running strategy
has a ledger: the sum of the current funds over the running sequence, plus the shadow
ledger's current cash. -/
theorem getFunds_running_only (rep : Reports) (ktype : KType) (pf : Portfolio)
    (shadow : TradeManager) (hshadow : pf.m_shadow_tm = some shadow)
    (hled : ∀ p ∈ pf.m_running_sys_list, hasLedger pf.sys p = true) :
    getFunds rep ktype pf =
      .returned
        { liveFundsSum (fun tm => rep.getFunds tm ktype) pf.sys pf.m_running_sys_list with
          cash := (liveFundsSum (fun tm => rep.getFunds tm ktype) pf.sys
            pf.m_running_sys_list).cash + shadow.currentCash } := by
  unfold getFunds
  rw [sumFunds_spec _ _ _ _ hled]
  simp only [hshadow, liveFundsSum]

/-- Why the aggregation of `getFunds(ktype)` needs an Allocator that leaves strategies it is
not handed alone: when an Allocator funds a live strategy that is in neither list it is handed at that tick (here the
one at address 5, at date 21), that strategy holds cash outside the running sequence, and
`getFunds(ktype)` reports 99000 where the sum over every live strategy of the mapping plus
the shadow ledger's cash, which `getFunds(date, ktype)` reports, is 100000. -/
theorem unhanded_funding_is_left_out :
    (runMoment withholdEnv 20 examplePrepared).1 = .returned () ∧
      (runMoment lateFundEnv 21 (runMoment withholdEnv 20 examplePrepared).2).1 =
        .returned () ∧
      Call.af_adjustFunds 21 [some 3, some 4] [some 3, some 4] ∈ exampleIdleFunded.calls ∧
      exampleIdleFunded.m_sys_map = [(some 0, some 3), (some 1, some 4), (some 2, some 5)] ∧
      exampleIdleFunded.m_running_sys_list = [some 3, some 4] ∧
      cashOf exampleIdleFunded.sys (some 5) = some 1000 ∧
      shadowCash exampleIdleFunded = 97000 ∧
      getFunds cashReports 0 exampleIdleFunded = .returned ⟨99000, 0⟩ ∧
      currentFundsSpec cashReports 0 exampleIdleFunded = ⟨100000, 0⟩ ∧
      getFundsAt cashReports 21 0 exampleIdleFunded = .returned ⟨100000, 0⟩ := by
  decide!

theorem readyForRun_returns_true (env : Env) (pf : Portfolio)
    (hse : pf.m_se.isSome = true) (htm : pf.m_tm.isSome = true) (haf : pf.m_af.isSome = true)
    (huniv : ∀ p ∈ env.getAllSystemList, p ≠ none) :
    (readyForRun env pf).1 = .returned true := by
  obtain ⟨se, hse'⟩ := Option.isSome_iff_exists.mp hse
  obtain ⟨tm, htm'⟩ := Option.isSome_iff_exists.mp htm
  obtain ⟨af, haf'⟩ := Option.isSome_iff_exists.mp haf
  have hreset : (reset env pf).m_tm = some (env.tmReset tm) := by simp [reset, htm']
  unfold readyForRun
  simp only [hse', htm', haf', Option.isNone_some, Bool.false_eq_true, if_false]
  unfold prepareAll
  simp only [hreset]
  refine (andThen_ready _ ?_).1
  apply prepareLoop_returned _ _ _ _ _ huniv
  simp [reset, htm']

theorem runLoop_of_ticks_return (steps : List (Env × Datetime)) (pf : Portfolio)
    (hticks : ∀ k, ∀ h : k < steps.length,
      (runMoment (steps.get ⟨k, h⟩).1 (steps.get ⟨k, h⟩).2
        (runMoments (steps.take k) pf)).1 = .returned ()) :
    runLoop steps pf = (.returned (), runMoments steps pf) := by
  induction steps generalizing pf with
  | nil => rfl
  | cons step rest ih =>
    have h0 := hticks 0 (Nat.succ_pos _)
    simp only [List.get_eq_getElem, List.getElem_cons_zero, List.take_zero, runMoments] at h0
    have hrest := ih (runMoment step.1 step.2 pf).2 (fun k h => by
      have := hticks (k + 1) (Nat.succ_lt_succ h)
      simpa only [List.get_eq_getElem, List.getElem_cons_succ, List.take_succ_cons,
        runMoments] using this)
    simp only [runLoop, runMoments]
    generalize runMoment step.1 step.2 pf = r at h0 hrest ⊢
    obtain ⟨o, s⟩ := r
    simp only at h0
    subst h0
    exact hrest

theorem runLoop_returned (steps : List (Env × Datetime)) (pf : Portfolio)
    (h : (runLoop steps pf).1 = .returned ()) :
    (runLoop steps pf).2 = runMoments steps pf := by
  induction steps generalizing pf with
  | nil => rfl
  | cons step rest ih =>
    simp only [runLoop, runMoments] at h ⊢
    generalize runMoment step.1 step.2 pf = r at h ⊢
    obtain ⟨o, s⟩ := r
    cases o with
    | returned v => exact ih s h
    | thrown msg => simp [Outcome.andThen] at h
    | nullDeref => simp [Outcome.andThen] at h

/-- The state `run`'s loop reaches is always the result of applying `runMoment` to a prefix of
the steps, in order: the loop never skips, repeats or reorders a tick. -/
theorem runLoop_prefix (steps : List (Env × Datetime)) (pf : Portfolio) :
    ∃ k, k ≤ steps.length ∧ (runLoop steps pf).2 = runMoments (steps.take k) pf := by
  induction steps generalizing pf with
  | nil => exact ⟨0, le_refl _, rfl⟩
  | cons step rest ih =>
    cases hr : runMoment step.1 step.2 pf with
    | mk o s =>
      cases o with
      | returned v =>
        obtain ⟨k, hk, e⟩ := ih s
        refine ⟨k + 1, Nat.succ_le_succ hk, ?_⟩
        simp only [runLoop, hr, Outcome.andThen, List.take_succ_cons, runMoments]
        exact e
      | thrown msg =>
        refine ⟨1, Nat.succ_le_succ (Nat.zero_le _), ?_⟩
        simp [runLoop, hr, Outcome.andThen, runMoments]
      | nullDeref =>
        refine ⟨1, Nat.succ_le_succ (Nat.zero_le _), ?_⟩
        simp [runLoop, hr, Outcome.andThen, runMoments]

/-- C18: (a) when the Selector, the ledger or the Allocator is unset, `run` throws the
explicit error and the only change of state is the cleared readiness flag, so no tick was
executed; (b) when all three are set, the Selector's universe holds no null pointer and
every tick returns, `run` returns, and its final state is the freshly prepared state with
`runMoment` applied to each date of the calendar provider's sequence for `query`, once each
and in calendar order; (c) whenever `run` returns, its final state is that state. -/
theorem run_applies_each_date (env : Env) (tick : Nat → Env)
    (getTradingCalendar : KQuery → List Datetime) (query : KQuery) (pf : Portfolio) :
    ((pf.m_se = none ∨ pf.m_tm = none ∨ pf.m_af = none) →
        run env tick getTradingCalendar query pf =
          (.thrown ("readyForRun fails, check to see if a valid TradeManager, Selector, or " ++
            "AllocateFunds instance have been specified."), { pf with m_is_ready := false })) ∧
      (pf.m_se.isSome = true → pf.m_tm.isSome = true → pf.m_af.isSome = true →
        (∀ p ∈ env.getAllSystemList, p ≠ none) →
        (∀ k, ∀ h : k < (calendarSteps tick 0 (getTradingCalendar query)).length,
          (runMoment ((calendarSteps tick 0 (getTradingCalendar query)).get ⟨k, h⟩).1
            ((calendarSteps tick 0 (getTradingCalendar query)).get ⟨k, h⟩).2
            (runMoments ((calendarSteps tick 0 (getTradingCalendar query)).take k)
              (readyForRun env pf).2)).1 = .returned ()) →
        (readyForRun env pf).1 = .returned true ∧
          run env tick getTradingCalendar query pf =
            (.returned (), runMoments (calendarSteps tick 0 (getTradingCalendar query))
              (readyForRun env pf).2)) ∧
      ((run env tick getTradingCalendar query pf).1 = .returned () →
        (readyForRun env pf).1 = .returned true ∧
          (run env tick getTradingCalendar query pf).2 =
            runMoments (calendarSteps tick 0 (getTradingCalendar query))
              (readyForRun env pf).2) := by
  refine ⟨?_, ?_, ?_⟩
  · intro h
    have e : readyForRun env pf = (.returned false, { pf with m_is_ready := false }) := by
      unfold readyForRun
      rcases h with h | h | h
      · simp [h]
      · simp only [h, Option.isNone_none, if_true, ite_self]
      · simp only [h, Option.isNone_none, if_true, ite_self]
    simp only [run, e]
  · intro hse htm haf huniv hticks
    have hready := readyForRun_returns_true env pf hse htm haf huniv
    refine ⟨hready, ?_⟩
    unfold run
    generalize readyForRun env pf = r at hready hticks ⊢
    obtain ⟨o, s⟩ := r
    simp only at hready
    subst hready
    exact runLoop_of_ticks_return _ _ hticks
  · intro h
    unfold run at h ⊢
    generalize readyForRun env pf = r at h ⊢
    obtain ⟨o, s⟩ := r
    cases o with
    | returned v =>
      cases v with
      | true => exact ⟨rfl, runLoop_returned _ _ h⟩
      | false => simp at h
    | thrown msg => simp at h
    | nullDeref => simp at h

theorem run_applies_each_date_witness :
    (exampleNoAllocator.m_af = none ∧
        run exampleEnv (fun _ => exampleEnv) (fun _ => [20, 21]) 0 exampleNoAllocator =
          (.thrown ("readyForRun fails, check to see if a valid TradeManager, Selector, or " ++
            "AllocateFunds instance have been specified."), exampleNoAllocator)) ∧
      (examplePortfolio.m_se.isSome = true ∧ examplePortfolio.m_tm.isSome = true ∧
        examplePortfolio.m_af.isSome = true ∧
        (∀ p ∈ exampleEnv.getAllSystemList, p ≠ none) ∧
        (runMoment exampleEnv 20 examplePrepared).1 = .returned () ∧
        (runMoment exampleEnv 21 exampleTick1).1 = .returned () ∧
        run exampleEnv (fun _ => exampleEnv) (fun _ => [20, 21]) 0 examplePortfolio =
          (.returned (), (runMoment exampleEnv 21 exampleTick1).2)) :=
  ⟨⟨rfl, (run_applies_each_date exampleEnv (fun _ => exampleEnv) (fun _ => [20, 21]) 0
      exampleNoAllocator).1 (Or.inr (Or.inr rfl))⟩,
    rfl, rfl, rfl, by decide, by decide!, by decide!,
    ((run_applies_each_date exampleEnv (fun _ => exampleEnv) (fun _ => [20, 21]) 0
      examplePortfolio).2.1 rfl rfl rfl (by decide) (by decide!)).2⟩

theorem CashMoved.moved_refl (s : System) : CashMoved s s :=
  ⟨rfl, fun t ht => ⟨t, ht, rfl, id⟩⟩

theorem CashMoved.moved_trans {s s1 s2 : System} (h1 : CashMoved s s1) (h2 : CashMoved s1 s2) :
    CashMoved s s2 := by
  refine ⟨h2.1.trans h1.1, fun t ht => ?_⟩
  obtain ⟨t1, ht1, hp1, hc1⟩ := h1.2 t ht
  obtain ⟨t2, ht2, hp2, hc2⟩ := h2.2 t1 ht1
  exact ⟨t2, ht2, hp2.trans hp1, fun h => hc2 (hc1 h)⟩

theorem OwnTrade.own_refl (s : System) : OwnTrade s s :=
  ⟨rfl, fun t ht => ⟨t, ht, fun _ _ => rfl⟩⟩

theorem OwnTrade.own_trans {s s1 s2 : System} (h1 : OwnTrade s s1) (h2 : OwnTrade s1 s2) :
    OwnTrade s s2 := by
  refine ⟨h2.1.trans h1.1, fun t ht => ?_⟩
  obtain ⟨t1, ht1, hp1⟩ := h1.2 t ht
  obtain ⟨t2, ht2, hp2⟩ := h2.2 t1 ht1
  refine ⟨t2, ht2, fun stock hs => ?_⟩
  rw [hp2 stock (by rw [h1.1]; exact hs), hp1 stock hs]

theorem CashMoved.moved_keeps_own {s s1 : System} (h : CashMoved s s1) (hs : HoldsOwnOnly s) :
    HoldsOwnOnly s1 := by
  obtain ⟨t, ht, hp⟩ := hs
  obtain ⟨t1, ht1, hp1, _⟩ := h.2 t ht
  refine ⟨t1, ht1, fun stock hne => ?_⟩
  rw [hp1]
  exact hp stock (by rw [← h.1]; exact hne)

theorem OwnTrade.own_keeps_own {s s1 : System} (h : OwnTrade s s1) (hs : HoldsOwnOnly s) :
    HoldsOwnOnly s1 := by
  obtain ⟨t, ht, hp⟩ := hs
  obtain ⟨t1, ht1, hp1⟩ := h.2 t ht
  refine ⟨t1, ht1, fun stock hne => ?_⟩
  have hne' : stock ≠ s.stock := by rw [← h.1]; exact hne
  rw [hp1 stock hne']
  exact hp stock hne'

theorem hasLedger_some (sys : Nat → System) (a : Nat) :
    hasLedger sys (some a) = true ↔ ∃ t, (sys a).tm = some t := by
  cases h : (sys a).tm <;> simp [hasLedger, cashOf, h]

theorem CashMoved.moved_keeps_ledger {sys sys1 : Nat → System} (h : ∀ a, CashMoved (sys a) (sys1 a))
    (p : SystemPtr) (hp : hasLedger sys p = true) : hasLedger sys1 p = true := by
  cases p with
  | none => exact absurd rfl (ne_none_of_hasLedger sys none hp)
  | some a =>
    obtain ⟨t, ht⟩ := (hasLedger_some sys a).mp hp
    obtain ⟨t1, ht1, _⟩ := (h a).2 t ht
    exact (hasLedger_some sys1 a).mpr ⟨t1, ht1⟩

theorem OwnTrade.own_keeps_ledger {sys sys1 : Nat → System} (h : ∀ a, OwnTrade (sys a) (sys1 a))
    (p : SystemPtr) (hp : hasLedger sys p = true) : hasLedger sys1 p = true := by
  cases p with
  | none => exact absurd rfl (ne_none_of_hasLedger sys none hp)
  | some a =>
    obtain ⟨t, ht⟩ := (hasLedger_some sys a).mp hp
    obtain ⟨t1, ht1, _⟩ := (h a).2 t ht
    exact (hasLedger_some sys1 a).mpr ⟨t1, ht1⟩

theorem pair_of_fst {α σ : Type} (r : α × σ) (v : α) (h : r.1 = v) : r = (v, r.2) := by
  obtain ⟨o, s⟩ := r
  simp only at h
  subst h
  rfl

/-- The stages a `runMoment` that returned went through. -/
theorem runMoment_returned (env : Env) (date : Datetime) (pf : Portfolio)
    (h : (runMoment env date pf).1 = .returned ()) :
    pf.m_is_ready = true ∧ ∃ shadow, pf.m_shadow_tm = some shadow ∧
      ((date < shadow.initDatetime ∧ (runMoment env date pf).2 = pf) ∨
        (¬ date < shadow.initDatetime ∧ ∃ cur pf5,
          (selectAndAllocate env date pf).1 = .returned cur ∧
          retireAndAdmit date shadow.precision cur (allocated env date pf) =
            (.returned (), pf5) ∧
          executeLoop env date pf5.m_running_sys_list pf5 =
            (.returned (), (runMoment env date pf).2))) := by
  have hready : pf.m_is_ready = true := by
    cases hr : pf.m_is_ready with
    | true => rfl
    | false => simp [runMoment, Portfolio.isReady, hr] at h
  refine ⟨hready, ?_⟩
  cases hshadow : pf.m_shadow_tm with
  | none => simp [runMoment, Portfolio.isReady, hready, hshadow] at h
  | some shadow =>
    refine ⟨shadow, rfl, ?_⟩
    by_cases hdate : date < shadow.initDatetime
    · left
      exact ⟨hdate, by simp [runMoment, Portfolio.isReady, hready, hshadow, hdate]⟩
    · right
      refine ⟨hdate, ?_⟩
      cases hsa : (selectAndAllocate env date pf).1 with
      | thrown msg =>
        have e := pair_of_fst _ _ hsa
        simp only [runMoment, Portfolio.isReady, hready, hshadow, hdate] at h
        rw [e] at h
        simp [Outcome.andThen] at h
      | nullDeref =>
        have e := pair_of_fst _ _ hsa
        simp only [runMoment, Portfolio.isReady, hready, hshadow, hdate] at h
        rw [e] at h
        simp [Outcome.andThen] at h
      | returned cur =>
        have e := runMoment_eq_of_allocated env date pf shadow cur hready hshadow hdate hsa
        have h2 := pair_of_fst _ _ h
        rw [e] at h2
        obtain ⟨w, hw, hk⟩ := andThen_eq_returned _ _ _ _ h2
        refine ⟨cur, _, rfl, hw, ?_⟩
        rw [e]
        exact hk

theorem mapIndex_reduceOption (m : List (SystemPtr × SystemPtr)) (k : SystemPtr) :
    ((mapIndex m k).2.map Prod.snd).reduceOption = (m.map Prod.snd).reduceOption := by
  unfold mapIndex
  split
  · rfl
  · simp [List.reduceOption_append]

/-- The selection loop changes nothing but the mapping, and leaves its non-null values as
they were. -/
theorem selectLoop_frame (l : List SystemPtr) (pf : Portfolio) (cur : List SystemPtr) :
    (selectLoop l pf cur).2.accounts = pf.accounts ∧
      (selectLoop l pf cur).2.m_running_sys_list = pf.m_running_sys_list ∧
      liveAddrs (selectLoop l pf cur).2 = liveAddrs pf := by
  induction l generalizing pf cur with
  | nil => exact ⟨rfl, rfl, rfl⟩
  | cons k rest ih =>
    have key := ih { pf with m_sys_map := (mapIndex pf.m_sys_map k).2 }
      (cur ++ [(mapIndex pf.m_sys_map k).1])
    have hlive : liveAddrs { pf with m_sys_map := (mapIndex pf.m_sys_map k).2 } =
        liveAddrs pf := mapIndex_reduceOption pf.m_sys_map k
    simp only [selectLoop]
    split
    · split
      · exact ⟨rfl, rfl, hlive⟩
      · exact ⟨key.1, key.2.1, key.2.2.trans hlive⟩
    · exact ⟨key.1, key.2.1, key.2.2.trans hlive⟩

theorem selectStage_frame (env : Env) (date : Datetime) (pf : Portfolio) :
    (selectStage env date pf).2.accounts = pf.accounts ∧
      (selectStage env date pf).2.m_running_sys_list = pf.m_running_sys_list ∧
      liveAddrs (selectStage env date pf).2 = liveAddrs pf := by
  unfold selectStage
  split
  · exact ⟨rfl, rfl, rfl⟩
  · exact selectLoop_frame _ _ _

theorem allocateStage_returned (env : Env) (date : Datetime) (cur out : List SystemPtr)
    (pf : Portfolio) (h : (allocateStage env date cur pf).1 = .returned out) :
    out = cur ∧
      (allocateStage env date cur pf).2.sys =
        (env.adjustFunds date cur pf.m_running_sys_list pf.accounts).sys ∧
      (allocateStage env date cur pf).2.m_shadow_tm =
        (env.adjustFunds date cur pf.m_running_sys_list pf.accounts).shadow_tm := by
  refine ⟨(allocateStage_map env date cur pf).2 out h, ?_⟩
  unfold allocateStage at h ⊢
  cases haf : pf.m_af with
  | none => simp [haf] at h
  | some v =>
    simp only []
    split <;> exact ⟨rfl, rfl⟩

/-- Selection and allocation, when they return: the non-null values of the mapping are the
same, and the strategy objects and the shadow ledger are what the Allocator made of those of
the state before, handed this tick's selected list and the running sequence. -/
theorem selectAndAllocate_returned (env : Env) (date : Datetime) (pf : Portfolio)
    (cur : List SystemPtr) (h : (selectAndAllocate env date pf).1 = .returned cur) :
    liveAddrs (allocated env date pf) = liveAddrs pf ∧
      (allocated env date pf).sys =
        (env.adjustFunds date cur pf.m_running_sys_list pf.accounts).sys ∧
      (allocated env date pf).m_shadow_tm =
        (env.adjustFunds date cur pf.m_running_sys_list pf.accounts).shadow_tm := by
  have h2 := pair_of_fst _ _ h
  unfold allocated
  unfold selectAndAllocate at h2 ⊢
  obtain ⟨sel, hsel, hk⟩ := andThen_eq_returned _ _ _ _ h2
  obtain ⟨hacc, hrun, hlive⟩ := selectStage_frame env date pf
  rw [hsel]
  simp only [Outcome.andThen]
  have hk1 : (allocateStage env date sel (selectStage env date pf).2).1 = .returned cur := by
    rw [hk]
  obtain ⟨hcur, hsys, hshadow⟩ := allocateStage_returned env date sel cur _ hk1
  subst hcur
  refine ⟨?_, ?_, ?_⟩
  · rw [← hlive]
    unfold liveAddrs
    rw [(allocateStage_map env date _ _).1]
  · rw [hsys, hrun, hacc]
  · rw [hshadow, hrun, hacc]

/-- The retirement scan only moves cash: every strategy object keeps its tradable, its
ledger and the ledger's positions, and no ledger is overdrawn. -/
theorem retireScan_moved (date : Datetime) (precision : Int) (l : List SystemPtr)
    (pf : Portfolio) (acc : List SystemPtr) (a : Nat) :
    CashMoved (pf.sys a) ((retireScan date precision l pf acc).2.sys a) ∧
      ((retireScan date precision l pf acc).2.sys a).tm.isSome = (pf.sys a).tm.isSome := by
  induction l generalizing pf acc with
  | nil => exact ⟨CashMoved.moved_refl _, rfl⟩
  | cons r rest ih =>
    cases r with
    | none => exact ⟨CashMoved.moved_refl _, rfl⟩
    | some b =>
      cases htm : (pf.sys b).tm with
      | none =>
        simp only [retireScan, htm]
        exact ⟨CashMoved.moved_refl _, trivial⟩
      | some sub_tm =>
        simp only [retireScan, htm]
        split
        · split
          · have hstep : CashMoved (pf.sys a)
                (Function.update pf.sys b
                  { pf.sys b with tm := some (sub_tm.checkout date sub_tm.currentCash) } a) ∧
                (Function.update pf.sys b
                  { pf.sys b with tm := some (sub_tm.checkout date sub_tm.currentCash) } a).tm.isSome
                  = (pf.sys a).tm.isSome := by
              by_cases hab : a = b
              · subst hab
                rw [Function.update_same]
                refine ⟨⟨rfl, fun t ht => ?_⟩, by simp [htm]⟩
                rw [htm] at ht
                cases ht
                refine ⟨_, rfl, rfl, fun _ => ?_⟩
                simp [TradeManager.checkout, TradeManager.currentCash]
              · rw [Function.update_noteq hab]
                exact ⟨CashMoved.moved_refl _, rfl⟩
            split
            · exact hstep
            · exact ⟨hstep.1.moved_trans (ih _ _).1, (ih _ _).2.trans hstep.2⟩
          · exact ih _ _
        · exact ih _ _

theorem admitLoop_returned_ledgers (l : List SystemPtr) (pf : Portfolio)
    (h : (admitLoop l pf).1 = .returned ()) : ∀ p ∈ l, hasLedger pf.sys p = true := by
  induction l generalizing pf with
  | nil => intro p hp; cases hp
  | cons x rest ih =>
    cases hc : cashOf pf.sys x with
    | none => simp [admitLoop, hc] at h
    | some c =>
      simp only [admitLoop, hc] at h
      have hrest : ∀ p ∈ rest, hasLedger pf.sys p = true := by
        split at h
        · have key := ih _ h
          exact key
        · exact ih _ h
      intro p hp
      rcases List.mem_cons.mp hp with e | e
      · subst e
        simp [hasLedger, hc]
      · exact hrest p e

/-- When retirement and admission return, every strategy of this tick's selected list had a
ledger in the state they started from. -/
theorem retireAndAdmit_returned_ledgers (date : Datetime) (precision : Int)
    (cur : List SystemPtr) (pf pf5 : Portfolio)
    (h : retireAndAdmit date precision cur pf = (.returned (), pf5)) :
    ∀ p ∈ cur, hasLedger pf.sys p = true := by
  unfold retireAndAdmit at h
  obtain ⟨w, hw, hk⟩ := andThen_eq_returned _ _ _ _ h
  have hk1 : (admitLoop cur
      (removeLoop w (retireScan date precision pf.m_running_sys_list pf []).2)).1 =
      .returned () := by rw [hk]
  have hled := admitLoop_returned_ledgers _ _ hk1
  rw [(removeLoop_sameLedgers _ _).1] at hled
  intro p hp
  have h3 := hled p hp
  cases p with
  | none => exact absurd rfl (ne_none_of_hasLedger _ none h3)
  | some a =>
    obtain ⟨t, ht⟩ := (hasLedger_some _ a).mp h3
    have hsome := (retireScan_moved date precision pf.m_running_sys_list pf [] a).2
    rw [ht] at hsome
    cases hpt : (pf.sys a).tm with
    | none => simp [hpt] at hsome
    | some t0 => exact (hasLedger_some _ a).mpr ⟨t0, hpt⟩

/-- With strategies that trade on their own object only, the execution loop leaves every
strategy outside the list as it was, and every strategy object keeps its tradable, its
ledger and the positions on other tradables; the shadow ledger is not touched. -/
theorem executeLoop_own (env : Env) (date : Datetime) (hstrat : StrategyTradesOwn env)
    (l : List SystemPtr) (pf : Portfolio) :
    (executeLoop env date l pf).2.m_shadow_tm = pf.m_shadow_tm ∧
      ∀ a, OwnTrade (pf.sys a) ((executeLoop env date l pf).2.sys a) ∧
        (some a ∉ l → (executeLoop env date l pf).2.sys a = pf.sys a) := by
  induction l generalizing pf with
  | nil => exact ⟨rfl, fun a => ⟨OwnTrade.own_refl _, fun _ => rfl⟩⟩
  | cons x rest ih =>
    cases x with
    | none => exact ⟨rfl, fun a => ⟨OwnTrade.own_refl _, fun _ => rfl⟩⟩
    | some b =>
      have hstep : ∀ a, OwnTrade (pf.sys a) ((env.sysRunMoment b date pf.sys).1 a) ∧
          (some a ∉ some b :: rest → (env.sysRunMoment b date pf.sys).1 a = pf.sys a) := by
        intro a
        by_cases hab : a = b
        · subst hab
          exact ⟨(hstrat a date pf.sys).1, fun hn => absurd (List.mem_cons_self _ _) hn⟩
        · rw [(hstrat b date pf.sys).2 a hab]
          exact ⟨OwnTrade.own_refl _, fun _ => rfl⟩
      have combine : ∀ s : Portfolio, s.sys = (env.sysRunMoment b date pf.sys).1 →
          s.m_shadow_tm = pf.m_shadow_tm →
          (executeLoop env date rest s).2.m_shadow_tm = pf.m_shadow_tm ∧
            ∀ a, OwnTrade (pf.sys a) ((executeLoop env date rest s).2.sys a) ∧
              (some a ∉ some b :: rest → (executeLoop env date rest s).2.sys a = pf.sys a) := by
        intro s hs hsh
        obtain ⟨k1, k2⟩ := ih s
        refine ⟨k1.trans hsh, fun a => ⟨?_, fun hn => ?_⟩⟩
        · have := (k2 a).1
          rw [hs] at this
          exact (hstep a).1.own_trans this
        · rw [(k2 a).2 (fun hm => hn (List.mem_cons_of_mem _ hm)), hs]
          exact (hstep a).2 hn
      simp only [executeLoop]
      split
      · exact combine _ rfl rfl
      · split
        · exact ⟨rfl, hstep⟩
        · exact combine _ rfl rfl

theorem mapIndex_null (m : List (SystemPtr × SystemPtr)) (k : SystemPtr)
    (h : none ∈ (mapIndex m k).2.map Prod.snd) :
    none ∈ m.map Prod.snd ∨ (mapIndex m k).1 = none := by
  unfold mapIndex at h ⊢
  split at h
  · exact Or.inl h
  · rename_i hlook
    right
    simp [hlook]

/-- The selection loop returns the list it was given, extended; and it leaves the mapping
without null value when the mapping had none and the returned list has none. -/
theorem selectLoop_nonnull (l : List SystemPtr) (pf : Portfolio) (cur out : List SystemPtr)
    (h : (selectLoop l pf cur).1 = .returned out) :
    (∀ p ∈ cur, p ∈ out) ∧
      (none ∉ out → none ∉ pf.m_sys_map.map Prod.snd →
        none ∉ (selectLoop l pf cur).2.m_sys_map.map Prod.snd) := by
  induction l generalizing pf cur with
  | nil =>
    simp only [selectLoop, Outcome.returned.injEq] at h
    subst h
    exact ⟨fun p hp => hp, fun _ hpf => hpf⟩
  | cons k rest ih =>
    have step : (selectLoop rest { pf with m_sys_map := (mapIndex pf.m_sys_map k).2 }
          (cur ++ [(mapIndex pf.m_sys_map k).1])).1 = .returned out →
        (∀ p ∈ cur, p ∈ out) ∧
          (none ∉ out → none ∉ pf.m_sys_map.map Prod.snd →
            none ∉ (selectLoop rest { pf with m_sys_map := (mapIndex pf.m_sys_map k).2 }
              (cur ++ [(mapIndex pf.m_sys_map k).1])).2.m_sys_map.map Prod.snd) := by
      intro h1
      obtain ⟨k1, k2⟩ := ih _ _ h1
      refine ⟨fun p hp => k1 p (List.mem_append.mpr (Or.inl hp)), fun hout hpf => ?_⟩
      refine k2 hout (fun hmem => ?_)
      rcases mapIndex_null _ _ hmem with hm | hm
      · exact hpf hm
      · apply hout
        rw [← hm]
        exact k1 _ (List.mem_append.mpr (Or.inr (List.mem_singleton.mpr rfl)))
    simp only [selectLoop] at h ⊢
    by_cases htrace : pf.trace = true
    · rw [if_pos htrace] at h ⊢
      cases hc : cashOf pf.sys (mapIndex pf.m_sys_map k).1 with
      | none => simp [hc] at h
      | some c =>
        simp only [hc] at h ⊢
        exact step h
    · rw [if_neg htrace] at h ⊢
      exact step h

theorem selectAndAllocate_nonnull (env : Env) (date : Datetime) (pf : Portfolio)
    (cur : List SystemPtr) (h : (selectAndAllocate env date pf).1 = .returned cur)
    (hcur : none ∉ cur) (hpf : none ∉ pf.m_sys_map.map Prod.snd) :
    none ∉ (allocated env date pf).m_sys_map.map Prod.snd := by
  have h2 := pair_of_fst _ _ h
  unfold allocated
  unfold selectAndAllocate at h2 ⊢
  obtain ⟨sel, hsel, hk⟩ := andThen_eq_returned _ _ _ _ h2
  have hk1 : (allocateStage env date sel (selectStage env date pf).2).1 = .returned cur := by
    rw [hk]
  have hcur2 : cur = sel := (allocateStage_map env date sel _).2 cur hk1
  subst hcur2
  have hsel1 : (selectStage env date pf).1 = .returned cur := by rw [hsel]
  rw [hsel]
  simp only [Outcome.andThen]
  rw [(allocateStage_map env date _ _).1]
  unfold selectStage at hsel1 ⊢
  cases hse : pf.m_se with
  | none => simp [hse] at hsel1
  | some u =>
    simp only [hse] at hsel1 ⊢
    exact (selectLoop_nonnull _ _ _ _ hsel1).2 hcur hpf

theorem retireCond_true (precision : Int) (sys : Nat → System) (a : Nat)
    (h : retireCond precision sys (some a) = true) :
    ∃ t, (sys a).tm = some t ∧ t.position (sys a).stock = 0 := by
  cases ht : (sys a).tm with
  | none => simp [retireCond, ht] at h
  | some t =>
    simp only [retireCond, ht, decide_eq_true_eq, TradeManager.getPosition] at h
    exact ⟨t, rfl, h.1⟩

theorem cashOf_some (sys : Nat → System) (a : Nat) (c : price_t)
    (h : cashOf sys (some a) = some c) : ∃ t, (sys a).tm = some t ∧ t.cash = c := by
  cases ht : (sys a).tm with
  | none => simp [cashOf, ht] at h
  | some t =>
    simp only [cashOf, ht, TradeManager.currentCash, Option.some.injEq] at h
    exact ⟨t, rfl, h⟩

theorem emptyLedger_of_own (s : System) (t : TradeManager) (ht : s.tm = some t)
    (hcash : t.cash = 0) (hpos : t.position s.stock = 0) (hown : HoldsOwnOnly s) :
    EmptyLedger s := by
  obtain ⟨t1, ht1, hother⟩ := hown
  rw [ht] at ht1
  cases ht1
  refine ⟨t, ht, hcash, fun stock => ?_⟩
  by_cases hs : stock = s.stock
  · rw [hs]; exact hpos
  · exact hother stock hs

/-- One tick that returns keeps the invariant, when the Allocator only moves cash among the
strategies it is handed and the strategies trade on their own object only. -/
theorem runMoment_idleEmpty (env : Env) (date : Datetime) (pf : Portfolio)
    (hinv : IdleEmpty pf) (halloc : AllocatorMovesCash env) (hstrat : StrategyTradesOwn env)
    (h : (runMoment env date pf).1 = .returned ()) :
    IdleEmpty (runMoment env date pf).2 := by
  obtain ⟨hready, shadow, hshadow, hcase⟩ := runMoment_returned env date pf h
  rcases hcase with ⟨_, heq⟩ | ⟨hdate, cur, pf5, hsa, hra, hex⟩
  · rw [heq]; exact hinv
  · obtain ⟨hlive2, hsys2, hsh2⟩ := selectAndAllocate_returned env date pf cur hsa
    have hA := halloc date cur pf.m_running_sys_list pf.accounts
    have hmoved2 : ∀ a, CashMoved (pf.sys a) ((allocated env date pf).sys a) := by
      intro a
      rw [hsys2]
      exact (hA.2 a).1
    have hframe2 : ∀ a, some a ∉ cur → some a ∉ pf.m_running_sys_list →
        (allocated env date pf).sys a = pf.sys a := by
      intro a h1 h2
      rw [hsys2]
      exact (hA.2 a).2 h1 h2
    have hshadow2 : (allocated env date pf).m_shadow_tm.isSome = true := by
      rw [hsh2]
      exact hA.1 hinv.shadow
    have hsame2 : SameRunning pf (allocated env date pf) :=
      selectAndAllocate_sameRunning env date pf
    have hcons2 : RunningConsistent (allocated env date pf) := hsame2.consistent hinv.consistent
    have hrun2 : ∀ p ∈ (allocated env date pf).m_running_sys_list,
        hasLedger (allocated env date pf).sys p = true := by
      intro p hp
      rw [hsame2.1] at hp
      exact CashMoved.moved_keeps_ledger hmoved2 p (hinv.ledgers p hp)
    have hsel2 := retireAndAdmit_returned_ledgers _ _ _ _ _ hra
    obtain ⟨pf5a, e5, hlist5, hsys5⟩ := retireAndAdmit_spec date shadow.precision cur
      (allocated env date pf) hcons2 hrun2 hsel2 hshadow2
    rw [hra] at e5
    have e5a : pf5a = pf5 := by
      have := congrArg Prod.snd e5
      exact this.symm
    subst e5a
    obtain ⟨pf3, e3, hsh3, hkeep3, hzero3, _⟩ := retireScan_spec date shadow.precision
      (allocated env date pf).m_running_sys_list (allocated env date pf) [] hcons2.1 hrun2
      hshadow2
    have hpf3 : (retireScan date shadow.precision (allocated env date pf).m_running_sys_list
        (allocated env date pf) []).2 = pf3 := by rw [e3]
    rw [hpf3] at hsys5
    have hmoved3 : ∀ a, CashMoved ((allocated env date pf).sys a) (pf5a.sys a) := by
      intro a
      have := (retireScan_moved date shadow.precision (allocated env date pf).m_running_sys_list
        (allocated env date pf) [] a).1
      rw [hpf3] at this
      rw [hsys5]
      exact this
    have hsl := retireAndAdmit_sameLedgers date shadow.precision cur (allocated env date pf)
    rw [hpf3, hra] at hsl
    have hsh5 : pf5a.m_shadow_tm.isSome = true := by
      rw [hsl.2.1]
      exact hsh3
    have hfin : (executeLoop env date pf5a.m_running_sys_list pf5a).2 =
        (runMoment env date pf).2 := by rw [hex]
    obtain ⟨hshf, hown⟩ := executeLoop_own env date hstrat pf5a.m_running_sys_list pf5a
    have hrunf := executeLoop_sameRunning env date pf5a.m_running_sys_list pf5a
    have hmapf := executeLoop_map env date pf5a.m_running_sys_list pf5a
    rw [hfin] at hshf hown hrunf hmapf
    have hlivef : liveAddrs (runMoment env date pf).2 = liveAddrs pf := by
      rw [← hlive2]
      unfold liveAddrs
      rw [hmapf, hsl.2.2.2.1]
      have := (retireScan_keeps date shadow.precision
        (allocated env date pf).m_running_sys_list (allocated env date pf) []).2.2
      rw [hpf3] at this
      rw [this]
    have hownf : ∀ a, OwnTrade (pf5a.sys a) ((runMoment env date pf).2.sys a) :=
      fun a => (hown a).1
    have hchain : ∀ p, hasLedger (allocated env date pf).sys p = true →
        hasLedger (runMoment env date pf).2.sys p = true :=
      fun p hp => OwnTrade.own_keeps_ledger hownf p (CashMoved.moved_keeps_ledger hmoved3 p hp)
    have hownAll : ∀ a ∈ liveAddrs pf, HoldsOwnOnly (pf5a.sys a) :=
      fun a ha => (hmoved3 a).moved_keeps_own ((hmoved2 a).moved_keeps_own (hinv.own a ha))
    have hnullf : none ∉ (runMoment env date pf).2.m_sys_map.map Prod.snd := by
      rw [hmapf, hsl.2.2.2.1]
      have := (retireScan_keeps date shadow.precision
        (allocated env date pf).m_running_sys_list (allocated env date pf) []).2.2
      rw [hpf3] at this
      rw [this]
      exact selectAndAllocate_nonnull env date pf cur hsa
        (fun hm => ne_none_of_hasLedger _ none (hsel2 none hm) rfl) hinv.nonnull
    refine ⟨runMoment_consistent env date pf hinv.consistent,
      runMoment_live env date pf hinv.live, ?_, ?_, ?_, ?_, ?_, hnullf⟩
    · rw [hshf]
      exact hsh5
    · rw [hlivef]
      exact hinv.distinct
    · intro p hp
      rw [hrunf.1, hlist5] at hp
      rcases List.mem_append.mp hp with hk | hn
      · exact hchain p (hrun2 p (List.mem_filter.mp hk).1)
      · exact hchain p (hsel2 p ((mem_newlyAdmitted _ _ _ _).mp hn).1)
    · intro a ha
      rw [hlivef] at ha
      exact (hownf a).own_keeps_own (hownAll a ha)
    · intro a ha hnot
      rw [hlivef] at ha
      rw [hrunf.1] at hnot
      have hfa : (runMoment env date pf).2.sys a = pf5a.sys a := (hown a).2 hnot
      rw [hfa]
      rw [hlist5] at hnot
      have hnk : some a ∉ (allocated env date pf).m_running_sys_list.filter
          (fun x => !retireCond shadow.precision (allocated env date pf).sys x) :=
        fun hm => hnot (List.mem_append.mpr (Or.inl hm))
      have hnn : some a ∉ newlyAdmitted (allocated env date pf).sys
          (allocated env date pf).m_running_sys_list cur :=
        fun hm => hnot (List.mem_append.mpr (Or.inr hm))
      by_cases hr : some a ∈ pf.m_running_sys_list
      · have hr2 : some a ∈ (allocated env date pf).m_running_sys_list := by
          rw [hsame2.1]; exact hr
        have hret : retireCond shadow.precision (allocated env date pf).sys (some a) = true := by
          cases hc : retireCond shadow.precision (allocated env date pf).sys (some a) with
          | true => rfl
          | false => exact absurd (List.mem_filter.mpr ⟨hr2, by simp [hc]⟩) hnk
        obtain ⟨t3, ht3, hcash3⟩ := cashOf_some _ a 0 (hzero3 (some a) hr2 hret)
        obtain ⟨t2, ht2, hpos2⟩ := retireCond_true _ _ a hret
        obtain ⟨hstock, hm⟩ := hmoved3 a
        obtain ⟨t3a, ht3a, hp3, _⟩ := hm t2 ht2
        rw [hsys5] at ht3a hstock ⊢
        rw [ht3] at ht3a
        cases ht3a
        refine emptyLedger_of_own _ t3 ht3 hcash3 ?_ ?_
        · rw [hp3, hstock]
          exact hpos2
        · have := hownAll a ha
          rw [hsys5] at this
          exact this
      · obtain ⟨t, ht, hcash, hpos⟩ := hinv.idle a ha hr
        have hkeep : pf5a.sys a = (allocated env date pf).sys a := by
          rw [hsys5]
          exact hkeep3 a (fun hh => hr (by rw [← hsame2.1]; exact hh.1))
        rw [hkeep]
        by_cases hc : some a ∈ cur
        · obtain ⟨t2, ht2, hp2, hc2⟩ := (hmoved2 a).2 t ht
          have hnonneg : 0 ≤ t2.cash := hc2 (by rw [hcash])
          have hcash2 : cashOr0 (allocated env date pf).sys (some a) = t2.cash := by
            simp [cashOr0, cashOf, ht2, TradeManager.currentCash]
          have hnotpos : ¬ 0 < t2.cash := by
            intro hpos2
            apply hnn
            rw [mem_newlyAdmitted]
            refine ⟨hc, by rw [hcash2]; exact hpos2, ?_⟩
            rw [hsame2.1]
            exact hr
          refine ⟨t2, ht2, le_antisymm (not_lt.mp hnotpos) hnonneg, fun stock => ?_⟩
          rw [hp2]
          exact hpos stock
        · rw [hframe2 a hc hr]
          exact ⟨t, ht, hcash, hpos⟩

theorem prepareLoop_shadow (env : Env) (pro_tm : TradeManager) (l : List SystemPtr)
    (i : Nat) (pf : Portfolio) :
    (prepareLoop env pro_tm l i pf).2.m_shadow_tm = pf.m_shadow_tm := by
  induction l generalizing pf i with
  | nil => rfl
  | cons r rest ih =>
    cases r with
    | none => rfl
    | some p =>
      simp only [prepareLoop]
      refine andThen_inv (fun s : Portfolio => s.m_shadow_tm = pf.m_shadow_tm) _ _ ?_ ?_
      · split
        · rfl
        · split <;> rfl
      · intro _ s hs
        split
        · exact (ih _ _).trans hs
        · exact (ih _ _).trans hs

theorem nodup_reduceOption (l : List SystemPtr) (h : l.Nodup) : l.reduceOption.Nodup := by
  unfold List.reduceOption
  refine List.Nodup.filterMap ?_ h
  intro a a1 b hb hb1
  simp only [id, Option.mem_def] at hb hb1
  rw [hb, hb1]

/-- A `readyForRun` that returned true establishes the invariant: nothing runs, and every
live strategy is bound to a fresh ledger without cash and without position. -/
theorem readyForRun_idleEmpty (env : Env) (pf : Portfolio)
    (h : (readyForRun env pf).1 = .returned true) : IdleEmpty (readyForRun env pf).2 := by
  obtain ⟨hl, hs⟩ := readyForRun_true_running env pf h
  have hcons : RunningConsistent (readyForRun env pf).2 := by
    unfold RunningConsistent
    rw [hl, hs]
    exact ⟨List.nodup_nil, rfl⟩
  have hlive : RunningLive (readyForRun env pf).2 := by
    unfold RunningLive
    rw [hl]
    intro p hp
    cases hp
  have hrest : (readyForRun env pf).2.m_shadow_tm.isSome = true ∧
      (liveAddrs (readyForRun env pf).2).Nodup ∧
      (∀ a ∈ liveAddrs (readyForRun env pf).2, EmptyLedger ((readyForRun env pf).2.sys a)) ∧
      none ∉ (readyForRun env pf).2.m_sys_map.map Prod.snd := by
    unfold readyForRun at h ⊢
    split_ifs at h ⊢
    · simp at h
    · simp at h
    · simp at h
    · cases hm : (reset env pf).m_tm with
      | none => simp [prepareAll, hm] at h
      | some tm =>
        rw [prepareAll_eq env pf tm hm] at h ⊢
        have hsh := prepareLoop_shadow env (crtTM tm.initDatetime 0 tm.costFunc "TM_SUB")
          env.getAllSystemList 0 (loopStart env pf tm)
        generalize hloop : prepareLoop env (crtTM tm.initDatetime 0 tm.costFunc "TM_SUB")
            env.getAllSystemList 0 (loopStart env pf tm) = r at h hsh ⊢
        obtain ⟨o, s⟩ := r
        cases o with
        | thrown msg => simp [Outcome.andThen] at h
        | nullDeref => simp [Outcome.andThen] at h
        | returned u =>
          simp only [Outcome.andThen]
          obtain ⟨⟨_, hv, hall⟩, _, _⟩ := prepareLoop_prepared env _ _ 0 pf.next _ s hloop
            ⟨by simp [loopStart, reset], by simp [loopStart, reset],
              by simp [loopStart, reset]⟩ (by simp [loopStart, reset])
          refine ⟨?_, nodup_reduceOption _ hv, ?_, ?_⟩
          · simp only at hsh
            show s.m_shadow_tm.isSome = true
            rw [hsh]
            rfl
          · intro a ha
            have hmem : some a ∈ s.m_sys_map.map Prod.snd := List.reduceOption_mem_iff.mp ha
            obtain ⟨kv, hkv, hkv2⟩ := List.mem_map.mp hmem
            obtain ⟨b, hb, _, _, name, hbound⟩ := hall kv hkv
            rw [hkv2] at hb
            cases hb
            exact ⟨_, hbound, rfl, fun _ => rfl⟩
          · intro hmem
            obtain ⟨kv, hkv, hkv2⟩ := List.mem_map.mp hmem
            obtain ⟨b, hb, _⟩ := hall kv hkv
            rw [hkv2] at hb
            cases hb
  refine ⟨hcons, hlive, hrest.1, hrest.2.1, ?_, ?_, ?_, hrest.2.2.2⟩
  · rw [hl]
    intro p hp
    cases hp
  · intro a ha
    obtain ⟨t, ht, _, hpos⟩ := hrest.2.2.1 a ha
    exact ⟨t, ht, fun stock _ => hpos stock⟩
  · intro a ha _
    exact hrest.2.2.1 a ha

/-- Every tick of a loop of `run` that returned keeps the invariant. -/
theorem runLoop_idleEmpty (steps : List (Env × Datetime)) (pf : Portfolio)
    (hinv : IdleEmpty pf)
    (halloc : ∀ step ∈ steps, AllocatorMovesCash step.1)
    (hstrat : ∀ step ∈ steps, StrategyTradesOwn step.1)
    (h : (runLoop steps pf).1 = .returned ()) : IdleEmpty (runMoments steps pf) := by
  induction steps generalizing pf with
  | nil => exact hinv
  | cons step rest ih =>
    have hstep := runMoment_idleEmpty step.1 step.2 pf hinv
      (halloc step (List.mem_cons_self _ _)) (hstrat step (List.mem_cons_self _ _))
    simp only [runLoop, runMoments] at h ⊢
    generalize runMoment step.1 step.2 pf = r at h hstep ⊢
    obtain ⟨o, s⟩ := r
    cases o with
    | returned v =>
      exact ih s (hstep rfl) (fun x hx => halloc x (List.mem_cons_of_mem _ hx))
        (fun x hx => hstrat x (List.mem_cons_of_mem _ hx)) h
    | thrown msg => simp [Outcome.andThen] at h
    | nullDeref => simp [Outcome.andThen] at h

theorem foldl_add_funds (g : SystemPtr → FundsRecord) (l : List SystemPtr)
    (init : FundsRecord) :
    l.foldl (fun total p => total.add (g p)) init =
      { cash := init.cash + (l.map fun p => (g p).cash).sum
        market_value := init.market_value + (l.map fun p => (g p).market_value).sum } := by
  induction l generalizing init with
  | nil => simp
  | cons x rest ih =>
    rw [List.foldl_cons, ih]
    simp only [FundsRecord.add, List.map_cons, List.sum_cons]
    congr 1 <;> ring

theorem sum_reduceOption (g : SystemPtr → ℚ) (hnone : g none = 0) (l : List SystemPtr) :
    (l.map g).sum = (l.reduceOption.map fun a => g (some a)).sum := by
  induction l with
  | nil => rfl
  | cons x rest ih =>
    cases x with
    | none =>
      rw [List.reduceOption_cons_of_none, List.map_cons, List.sum_cons, hnone, zero_add, ih]
    | some a =>
      rw [List.reduceOption_cons_of_some, List.map_cons, List.sum_cons, ih, List.map_cons,
        List.sum_cons]

theorem sum_map_eq_of_subset (l r : List Nat) (hl : l.Nodup) (hr : r.Nodup)
    (hsub : ∀ a ∈ r, a ∈ l) (g : Nat → ℚ) (hz : ∀ a ∈ l, a ∉ r → g a = 0) :
    (l.map g).sum = (r.map g).sum := by
  rw [← List.sum_toFinset g hl, ← List.sum_toFinset g hr]
  symm
  apply Finset.sum_subset
  · intro a ha
    rw [List.mem_toFinset] at ha ⊢
    exact hsub a ha
  · intro a ha hna
    rw [List.mem_toFinset] at ha hna
    exact hz a ha hna

/-- In a state that satisfies the invariant, summing a quantity that vanishes on null
pointers and on empty ledgers over the values of the mapping gives the same as summing it
over the running sequence. -/
theorem sum_values_eq_running (pf : Portfolio) (hinv : IdleEmpty pf) (g : SystemPtr → ℚ)
    (hnone : g none = 0) (hempty : ∀ a, EmptyLedger (pf.sys a) → g (some a) = 0) :
    ((pf.m_sys_map.map Prod.snd).map g).sum = (pf.m_running_sys_list.map g).sum := by
  rw [sum_reduceOption g hnone, sum_reduceOption g hnone pf.m_running_sys_list]
  refine sum_map_eq_of_subset _ _ hinv.distinct (nodup_reduceOption _ hinv.consistent.1) ?_ _ ?_
  · intro a ha
    exact List.reduceOption_mem_iff.mpr (hinv.live _ (List.reduceOption_mem_iff.mp ha))
  · intro a ha hna
    exact hempty a (hinv.idle a ha (fun hm => hna (List.reduceOption_mem_iff.mpr hm)))

/-- In a state that satisfies the invariant, with ledgers that report nothing when empty,
`getFunds(ktype)` returns the sum of the current funds over every live strategy of the
mapping plus the shadow ledger's current cash. -/
theorem getFunds_of_idleEmpty (rep : Reports) (ktype : KType) (pf : Portfolio)
    (hinv : IdleEmpty pf) (hrep : ReportsNothingWhenEmpty rep ktype) :
    getFunds rep ktype pf = .returned (currentFundsSpec rep ktype pf) := by
  obtain ⟨shadow, hsh⟩ := Option.isSome_iff_exists.mp hinv.shadow
  rw [getFunds_running_only rep ktype pf shadow hsh hinv.ledgers]
  have hzero : ∀ a, EmptyLedger (pf.sys a) →
      fundsOf (fun tm => rep.getFunds tm ktype) pf.sys (some a) =
        { cash := 0, market_value := 0 } := by
    intro a ⟨t, ht, hcash, hpos⟩
    simp only [fundsOf, ledgerOf, ht]
    exact hrep t hcash hpos
  have hnone : fundsOf (fun tm => rep.getFunds tm ktype) pf.sys none =
      { cash := 0, market_value := 0 } := rfl
  have hsum : liveFundsSum (fun tm => rep.getFunds tm ktype) pf.sys
      (pf.m_sys_map.map Prod.snd) =
      liveFundsSum (fun tm => rep.getFunds tm ktype) pf.sys pf.m_running_sys_list := by
    unfold liveFundsSum
    rw [foldl_add_funds, foldl_add_funds]
    congr 2
    · exact sum_values_eq_running pf hinv _ (by rw [hnone])
        (fun a ha => by rw [hzero a ha])
    · exact sum_values_eq_running pf hinv _ (by rw [hnone])
        (fun a ha => by rw [hzero a ha])
  unfold currentFundsSpec
  rw [hsum]
  simp only [shadowCash, hsh]

/-- In a state that satisfies the invariant, at a date at which the ledgers' dated reports
are their current ones, `getFunds(datetime, ktype)` returns the same sum. -/
theorem getFundsAt_of_idleEmpty (rep : Reports) (datetime : Datetime) (ktype : KType)
    (pf : Portfolio) (hinv : IdleEmpty pf)
    (hfunds : ∀ tm, rep.getFundsAt tm datetime ktype = rep.getFunds tm ktype)
    (hcash : ∀ tm : TradeManager, rep.cash tm datetime ktype = tm.currentCash) :
    getFundsAt rep datetime ktype pf = .returned (currentFundsSpec rep ktype pf) := by
  obtain ⟨shadow, hsh⟩ := Option.isSome_iff_exists.mp hinv.shadow
  have hled : ∀ p ∈ pf.m_sys_map.map Prod.snd, hasLedger pf.sys p = true := by
    intro p hp
    cases p with
    | none => exact absurd hp hinv.nonnull
    | some a =>
      obtain ⟨t, ht, _⟩ := hinv.own a (List.reduceOption_mem_iff.mpr hp)
      exact (hasLedger_some _ a).mpr ⟨t, ht⟩
  have hfun : (fun tm => rep.getFundsAt tm datetime ktype) = fun tm => rep.getFunds tm ktype :=
    funext hfunds
  unfold getFundsAt
  rw [sumFunds_spec _ _ _ _ hled, hfun]
  simp only [hsh, hcash, currentFundsSpec, liveFundsSum, shadowCash]

theorem grant_moves (amount : price_t) (hamount : 0 ≤ amount) (l : List SystemPtr)
    (acc : Accounts) :
    (acc.shadow_tm.isSome = true → (grant amount l acc).shadow_tm.isSome = true) ∧
      ∀ a, CashMoved (acc.sys a) ((grant amount l acc).sys a) ∧
        (some a ∉ l → (grant amount l acc).sys a = acc.sys a) := by
  induction l generalizing acc with
  | nil => exact ⟨fun h => h, fun a => ⟨CashMoved.moved_refl _, fun _ => rfl⟩⟩
  | cons p rest ih =>
    cases p with
    | none =>
      have key := ih acc
      refine ⟨key.1, fun a => ⟨(key.2 a).1, fun hn => ?_⟩⟩
      exact (key.2 a).2 (fun hm => hn (List.mem_cons_of_mem _ hm))
    | some i =>
      cases ht : (acc.sys i).tm with
      | none =>
        have e : grant amount (some i :: rest) acc = grant amount rest acc := by
          simp only [grant, List.foldl_cons, ht]
        rw [e]
        have key := ih acc
        refine ⟨key.1, fun a => ⟨(key.2 a).1, fun hn => ?_⟩⟩
        exact (key.2 a).2 (fun hm => hn (List.mem_cons_of_mem _ hm))
      | some t =>
        cases hs : acc.shadow_tm with
        | none =>
          have e : grant amount (some i :: rest) acc = grant amount rest acc := by
            simp only [grant, List.foldl_cons, ht, hs]
          rw [e]
          have key := ih acc
          refine ⟨fun h => by simp at h, fun a => ⟨(key.2 a).1, fun hn => ?_⟩⟩
          exact (key.2 a).2 (fun hm => hn (List.mem_cons_of_mem _ hm))
        | some sh =>
          have e : grant amount (some i :: rest) acc =
              grant amount rest
                { acc with
                  sys := Function.update acc.sys i
                    { acc.sys i with tm := some (t.checkin 0 amount) }
                  shadow_tm := some (sh.checkout 0 amount) } := by
            simp only [grant, List.foldl_cons, ht, hs]
          rw [e]
          have key := ih
            { acc with
              sys := Function.update acc.sys i { acc.sys i with tm := some (t.checkin 0 amount) }
              shadow_tm := some (sh.checkout 0 amount) }
          refine ⟨fun _ => key.1 rfl, fun a => ?_⟩
          by_cases hai : a = i
          · subst hai
            refine ⟨CashMoved.moved_trans ?_ (key.2 a).1,
              fun hn => absurd (List.mem_cons_self _ _) hn⟩
            simp only [Function.update_same]
            refine ⟨rfl, fun t0 ht0 => ?_⟩
            rw [ht] at ht0
            cases ht0
            refine ⟨_, rfl, rfl, fun h0 => ?_⟩
            simp only [TradeManager.checkin]
            exact add_nonneg h0 hamount
          · have hk := key.2 a
            simp only [Function.update_noteq hai] at hk
            exact ⟨hk.1, fun hn => hk.2 (fun hm => hn (List.mem_cons_of_mem _ hm))⟩

theorem defund_moves (i : Nat) (keep : price_t) (hkeep : 0 ≤ keep) (acc : Accounts) :
    (acc.shadow_tm.isSome = true → (defund i keep acc).shadow_tm.isSome = true) ∧
      ∀ a, CashMoved (acc.sys a) ((defund i keep acc).sys a) ∧
        (a ≠ i → (defund i keep acc).sys a = acc.sys a) := by
  cases ht : (acc.sys i).tm with
  | none =>
    have e : defund i keep acc = acc := by simp only [defund, ht]
    rw [e]
    exact ⟨fun h => h, fun a => ⟨CashMoved.moved_refl _, fun _ => rfl⟩⟩
  | some t =>
    cases hs : acc.shadow_tm with
    | none =>
      have e : defund i keep acc = acc := by simp only [defund, ht, hs]
      rw [e]
      exact ⟨fun h => by simp at h, fun a => ⟨CashMoved.moved_refl _, fun _ => rfl⟩⟩
    | some sh =>
      have e : defund i keep acc =
          { acc with
            sys := Function.update acc.sys i
              { acc.sys i with tm := some (t.checkout 0 (t.cash - keep)) }
            shadow_tm := some (sh.checkin 0 (t.cash - keep)) } := by
        simp only [defund, ht, hs]
      rw [e]
      refine ⟨fun _ => rfl, fun a => ?_⟩
      by_cases hai : a = i
      · subst hai
        refine ⟨?_, fun hn => absurd rfl hn⟩
        simp only [Function.update_same]
        refine ⟨rfl, fun t0 ht0 => ?_⟩
        rw [ht] at ht0
        cases ht0
        refine ⟨_, rfl, rfl, fun _ => ?_⟩
        simp only [TradeManager.checkout]
        linarith
      · dsimp only
        rw [Function.update_noteq hai]
        exact ⟨CashMoved.moved_refl _, fun _ => rfl⟩

theorem exampleEnv_allocator : AllocatorMovesCash exampleEnv := by
  intro date se_list running_list acc
  have key := grant_moves 1000 (by norm_num) se_list acc
  exact ⟨key.1, fun a => ⟨(key.2 a).1, fun h _ => (key.2 a).2 h⟩⟩

theorem reclaimEnv_allocator : AllocatorMovesCash reclaimEnv := by
  intro date se_list running_list acc
  show (acc.shadow_tm.isSome = true →
      (if some 3 ∈ running_list then defund 3 0 acc else acc).shadow_tm.isSome = true) ∧
    ∀ a, CashMoved (acc.sys a) ((if some 3 ∈ running_list then defund 3 0 acc else acc).sys a) ∧
      (some a ∉ se_list → some a ∉ running_list →
        (if some 3 ∈ running_list then defund 3 0 acc else acc).sys a = acc.sys a)
  by_cases h3 : some 3 ∈ running_list
  · rw [if_pos h3]
    have key := defund_moves 3 0 (le_refl _) acc
    refine ⟨key.1, fun a => ⟨(key.2 a).1, fun _ hr => (key.2 a).2 ?_⟩⟩
    intro ha
    subst ha
    exact hr h3
  · rw [if_neg h3]
    exact ⟨fun h => h, fun a => ⟨CashMoved.moved_refl _, fun _ _ => rfl⟩⟩

theorem exampleEnv_strategies : StrategyTradesOwn exampleEnv :=
  fun _ _ _ => ⟨OwnTrade.own_refl _, fun _ _ => rfl⟩

theorem reclaimEnv_strategies : StrategyTradesOwn reclaimEnv :=
  fun _ _ _ => ⟨OwnTrade.own_refl _, fun _ _ => rfl⟩

theorem cashReports_empty (ktype : KType) : ReportsNothingWhenEmpty cashReports ktype := by
  intro tm hcash _
  show ({ cash := tm.cash, market_value := 0 } : FundsRecord) = { cash := 0, market_value := 0 }
  rw [hcash]

/-- C17: in every state reached from a `readyForRun` that returned true by ticks that all
returned (also before any tick has run), with an Allocator that only moves cash among the
strategies it is handed, strategies that trade on their own object, and ledgers that report
nothing when empty, `getFunds(ktype)` returns the sum of the current funds of every live
strategy of the mapping, running or not, plus the shadow ledger's current cash; and it
agrees with `getFunds(datetime, ktype)` at every date at which the ledgers' dated reports
are their current ones. -/
theorem current_funds_cover_live (env0 : Env) (pf0 : Portfolio)
    (steps : List (Env × Datetime)) (rep : Reports) (ktype : KType)
    (hready : (readyForRun env0 pf0).1 = .returned true)
    (hticks : (runLoop steps (readyForRun env0 pf0).2).1 = .returned ())
    (halloc : ∀ step ∈ steps, AllocatorMovesCash step.1)
    (hstrat : ∀ step ∈ steps, StrategyTradesOwn step.1)
    (hrep : ReportsNothingWhenEmpty rep ktype) :
    getFunds rep ktype (runMoments steps (readyForRun env0 pf0).2) =
        .returned (currentFundsSpec rep ktype (runMoments steps (readyForRun env0 pf0).2)) ∧
      ∀ datetime, (∀ tm, rep.getFundsAt tm datetime ktype = rep.getFunds tm ktype) →
        (∀ tm : TradeManager, rep.cash tm datetime ktype = tm.currentCash) →
        getFundsAt rep datetime ktype (runMoments steps (readyForRun env0 pf0).2) =
          getFunds rep ktype (runMoments steps (readyForRun env0 pf0).2) := by
  have hinv := runLoop_idleEmpty steps _ (readyForRun_idleEmpty env0 pf0 hready) halloc hstrat
    hticks
  have hget := getFunds_of_idleEmpty rep ktype _ hinv hrep
  refine ⟨hget, fun datetime hfunds hcash => ?_⟩
  rw [hget]
  exact getFundsAt_of_idleEmpty rep datetime ktype _ hinv hfunds hcash

theorem current_funds_cover_live_witness :
    (readyForRun exampleEnv examplePortfolio).1 = .returned true ∧
      (runLoop [(exampleEnv, 20), (reclaimEnv, 21)]
        (readyForRun exampleEnv examplePortfolio).2).1 = .returned () ∧
      exampleReclaimed.m_sys_map = [(some 0, some 3), (some 1, some 4), (some 2, some 5)] ∧
      exampleReclaimed.m_running_sys_list = [some 4, some 5] ∧
      currentFundsSpec cashReports 0 exampleReclaimed = ⟨100000, 0⟩ ∧
      getFunds cashReports 0 exampleReclaimed =
        .returned (currentFundsSpec cashReports 0 exampleReclaimed) ∧
      getFundsAt cashReports 21 0 exampleReclaimed = getFunds cashReports 0 exampleReclaimed :=
  have key := current_funds_cover_live exampleEnv examplePortfolio
    [(exampleEnv, 20), (reclaimEnv, 21)] cashReports 0 (by decide!) (by decide!)
    (fun step hs => by
      simp only [List.mem_cons, List.mem_singleton, List.not_mem_nil, or_false] at hs
      rcases hs with e | e
      · rw [e]; exact exampleEnv_allocator
      · rw [e]; exact reclaimEnv_allocator)
    (fun step hs => by
      simp only [List.mem_cons, List.mem_singleton, List.not_mem_nil, or_false] at hs
      rcases hs with e | e
      · rw [e]; exact exampleEnv_strategies
      · rw [e]; exact reclaimEnv_strategies)
    (cashReports_empty 0)
  ⟨by decide!, by decide!, by decide!, by decide!, by decide!, key.1,
    key.2 21 (fun _ => rfl) (fun _ => rfl)⟩

/-- The Allocator of `lateFundEnv` is not one that leaves strategies it is not handed alone:
handed no strategy at all, it still funds the one at address 5. -/
theorem lateFundEnv_not_handed_only : ¬ AllocatorMovesCash lateFundEnv := by
  intro h
  have e := ((h 21 [] [] exampleTick1.accounts).2 5).2 (by simp) (by simp)
  have e2 := congrArg (fun s : System => s.tm.map (fun t => t.cash)) e
  revert e2
  decide!

end hku
